import Mathlib

/-!
# CESIL assembler and virtual machine (`hw12_1.cpp`)

A shallow embedding of the two-pass assembler (`analyse_file`) and of the
fetch-execute loop (`run`) of the CESIL run-time environment, followed by
theorems about them.

Conventions of the embedding.

* A `std::string` is a `List Char`; the file read by `analyse_file` is the list
  of its characters, cut into lines the way `std::getline` does.
* The global variables `program`, `labels`, `named_storage`, `literal_texts`
  and `accumulator` are the fields of `session`.
* `std::cout` is an explicit list: of `diagnostic` values for the assembler
  (one constructor per message, `diagnostic.text` renders the message), of
  strings for the virtual machine (one entry per `<<` chain).
* `std::cin` is the list of the integers that the successive extractions
  `std::cin >> accumulator` deliver.
* `int` operands are `Int`. The counters `line_number` and
  `instruction_number` are unbounded. The `int32_t` accumulator is reduced
  to the signed 32-bit range after `+`, `-`, `*` (`wrap32`).
* Behaviour that is an uncaught exception or undefined in C++ (a `std::stoi`
  that throws, a vector indexed out of range, a division by zero or the
  overflowing division) is the `Except.error` result carrying a `fault`.
-/

namespace Cesil

/-! ## Data model -/

/-- The enumeration `instruction_code`; `in_` stands for the enumerator `in`. -/
inductive instruction_code
  | in_ | out | print | line
  | load | load_direct | load_indirect | store | add | add_direct | add_indirect
  | subtract | subtract_direct | subtract_indirect
  | multiply | multiply_direct | multiply_indirect | divide | divide_direct | divide_indirect
  | jump | jineg | jizero | halt
  deriving DecidableEq, Repr

/-- The ways in which the C++ program stops being defined or is terminated:
the two exceptions of `std::stoi`, an out-of-range `operator[]`, and the two
undefined integer divisions. -/
inductive fault
  | invalid_argument | out_of_range | out_of_bounds | divide_by_zero | divide_overflow
  deriving DecidableEq, Repr

deriving instance DecidableEq for Except

/-- The global variables of `hw12_1.cpp`. An entry of `labels` is
`(name, (index, usages))`, kept in key order as `std::map` does. -/
structure session where
  program : List (instruction_code × Int)
  labels : List (List Char × Int × List Int)
  named_storage : List (List Char × Int)
  literal_texts : List (List Char)
  accumulator : Int
  deriving DecidableEq, Repr

/-- Element `v[i]` of a vector for an `int` index converted to `size_t`:
`none` when the access is out of range. -/
def at_index {α : Type} (v : List α) (i : Int) : Option α :=
  if 0 ≤ i then v.get? i.toNat else none

/-- Assignment `v[i] = f(v[i])` for an `int` index: `none` when out of range. -/
def modify_index {α : Type} (v : List α) (i : Int) (f : α → α) : Option (List α) :=
  match at_index v i with
  | none => none
  | some x => some (v.set i.toNat (f x))

/-! ## Lexical classifier -/

/-- Match of the bracket expression `[_[:alpha:]]` in the classic locale. -/
def alpha_or_underscore (c : Char) : Bool := c == '_' || c.isAlpha

/-- Match of the bracket expression `[_[:alnum:]]`. -/
def alnum_or_underscore (c : Char) : Bool := c == '_' || c.isAlphanum

/-- Match of the bracket expression `[_[:digit:]]`. -/
def digit_or_underscore (c : Char) : Bool := c == '_' || c.isDigit

/-- Whole-string match of `[_[:alpha:]][_[:alnum:]]*`. -/
def is_identifier (string : List Char) : Bool :=
  match string with
  | [] => false
  | c :: cs => alpha_or_underscore c && cs.all alnum_or_underscore

/-- Whole-string match of `[+-]?[_[:digit:]]*`. -/
def is_integer (string : List Char) : Bool :=
  match string with
  | [] => true
  | c :: cs =>
    if c = '+' ∨ c = '-' then cs.all digit_or_underscore
    else (c :: cs).all digit_or_underscore

/-- The characters of `[:alpha:]` in the classic locale. -/
def alpha_characters : List Char :=
  "ABCDEFGHIJKLMNOPQRSTUVWXYZabcdefghijklmnopqrstuvwxyz".toList

/-- The characters of `[:digit:]`. -/
def digit_characters : List Char := "0123456789".toList

/-- A bracket expression as a regular expression: one of the characters listed. -/
def bracket (l : List Char) : RegularExpression Char :=
  l.foldr (fun c r => RegularExpression.char c + r) 0

/-- The pattern `[_[:alpha:]][_[:alnum:]]*` that `is_identifier` hands to
`std::regex_match`, as a regular expression. -/
def identifier_pattern : RegularExpression Char :=
  bracket ('_' :: alpha_characters) *
    (bracket ('_' :: (alpha_characters ++ digit_characters))).star

/-- The pattern `[+-]?[_[:digit:]]*` that `is_integer` hands to
`std::regex_match`, as a regular expression. -/
def integer_pattern : RegularExpression Char :=
  (1 + bracket ['+', '-']) * (bracket ('_' :: digit_characters)).star

/-! ## Stream extraction -/

/-- The characters `isspace` accepts in the classic locale. -/
def is_space (c : Char) : Bool :=
  c == ' ' || c == '\t' || c == '\n' || c == '\x0b' || c == '\x0c' || c == '\r'

/-- The extraction `stream >> token`: leading white space is skipped, the
token runs to the next white space; the result is the token and what is left
of the stream. At the end of the stream the token is empty. -/
def read_token (stream : List Char) : List Char × List Char :=
  let s := stream.dropWhile is_space
  (s.takeWhile (fun c => !is_space c), s.dropWhile (fun c => !is_space c))

/-- The loop of the `std::quoted` extractor after the opening quote: a
backslash takes the next character as it is, an unescaped quote or the end of
the stream ends the text. -/
def read_quoted_body : List Char → List Char
  | [] => []
  | c :: cs =>
    if c = '\\' then
      match cs with
      | [] => []
      | d :: ds => d :: read_quoted_body ds
    else if c = '"' then []
    else c :: read_quoted_body cs

/-- The extraction `stream >> std::quoted(text)`: a first non-space character
other than the quote makes it an ordinary token extraction. -/
def read_quoted (stream : List Char) : List Char :=
  match stream.dropWhile is_space with
  | [] => []
  | c :: cs =>
    if c = '"' then read_quoted_body cs
    else (c :: cs).takeWhile (fun c => !is_space c)

/-- The lines `std::getline` delivers: split at every newline, no line after
a final newline. -/
def getlines : List Char → List (List Char)
  | [] => []
  | c :: cs =>
    if c = '\n' then [] :: getlines cs
    else
      match getlines cs with
      | [] => [[c]]
      | l :: ls => (c :: l) :: ls

/-! ## `std::stoi` -/

/-- Value of a decimal digit character. -/
def digit_value (c : Char) : Nat := c.toNat - '0'.toNat

/-- Value of a run of decimal digits read left to right from `acc`. -/
def digits_value (acc : Nat) : List Char → Nat
  | [] => acc
  | c :: cs => digits_value (acc * 10 + digit_value c) cs

/-- The call `std::stoi(data)`: white space, an optional sign, then the longest
run of digits; no digit throws `invalid_argument`, a value outside `int`
throws `out_of_range`; what follows the digits is ignored. -/
def stoi (data : List Char) : Except fault Int :=
  let s := data.dropWhile is_space
  let negative := s.head? = some '-'
  let body := if s.head? = some '-' ∨ s.head? = some '+' then s.tail else s
  let digits := body.takeWhile Char.isDigit
  if digits = [] then .error .invalid_argument
  else
    let value : Int := if negative then -(digits_value 0 digits : Int) else (digits_value 0 digits : Int)
    if value < -2147483648 ∨ 2147483647 < value then .error .out_of_range
    else .ok value

/-! ## Symbol tables -/

/-- The order of `std::string` keys in a `std::map`: lexicographic. -/
def string_lt : List Char → List Char → Bool
  | [], [] => false
  | [], _ :: _ => true
  | _ :: _, [] => false
  | a :: as, b :: bs => decide (a.toNat < b.toNat) || (a == b && string_lt as bs)

/-- The lookup `labels.find(name)`. -/
def labels_find : List (List Char × Int × List Int) → List Char → Option (Int × List Int)
  | [], _ => none
  | (k, v) :: rest, name => if k = name then some v else labels_find rest name

/-- The call `labels.insert({name, value})`: the entry goes to its place in key
order; a key already present keeps its value. -/
def labels_insert : List (List Char × Int × List Int) → List Char → Int × List Int →
    List (List Char × Int × List Int)
  | [], name, value => [(name, value)]
  | (k, v) :: rest, name, value =>
    if k = name then (k, v) :: rest
    else if string_lt name k then (name, value) :: (k, v) :: rest
    else (k, v) :: labels_insert rest name value

/-- Assignment through the iterator `labels.find(name)` returned. -/
def labels_modify : List (List Char × Int × List Int) → List Char →
    (Int × List Int → Int × List Int) → List (List Char × Int × List Int)
  | [], _, _ => []
  | (k, v) :: rest, name, f =>
    if k = name then (k, f v) :: rest else (k, v) :: labels_modify rest name f

/-- The function `get_store_index` on the global `named_storage`: the new
value of `named_storage` and the index returned. -/
def get_store_index (named_storage : List (List Char × Int)) (store_name : List Char) :
    List (List Char × Int) × Int :=
  let index := named_storage.findIdx (fun (e : List Char × Int) => e.1 == store_name)
  (if index = named_storage.length then named_storage ++ [(store_name, 0)] else named_storage,
   (index : Int))

/-! ## Assembler -/

/-- One message written to `std::cout` by `analyse_file`. `operand_format`
carries the mnemonic whose operand is rejected. -/
inductive diagnostic
  | label_format (label : List Char) (line_number : Int)
  | duplicate_label (label : List Char) (line_number : Int) (first : Int)
  | not_recognised (instruction : List Char) (line_number : Int)
  | operand_format (code : instruction_code) (instruction_data : List Char) (line_number : Int)
  | unresolved_label (name : List Char)
  | no_jump_or_halt
  | no_halt
  deriving DecidableEq, Repr

/-- The text of a message as the source writes it. -/
def diagnostic.text : diagnostic → String
  | .label_format label n =>
    "The label '" ++ String.mk label ++ "' on line " ++ toString n ++ " is not of the correct format.\n"
  | .duplicate_label label n first =>
    "Duplicate Label " ++ String.mk label ++ " found at line " ++ toString n ++
      " first encountered at line " ++ toString first ++ ".\n"
  | .not_recognised instruction n =>
    "Instruction '" ++ String.mk instruction ++ "' at line " ++ toString n ++ " not recognised.\n"
  | .operand_format code data n =>
    (match code with
      | .store => "The named store '"
      | .divide => "The named store or integer'"
      | .jump | .jineg | .jizero => "The label '"
      | _ => "The named store or integer '") ++
      String.mk data ++ "' at line " ++ toString n ++ " is not of the correct format.\n"
  | .unresolved_label name => "Could not resolve label " ++ String.mk name ++ ".\n"
  | .no_jump_or_halt => "The program must end with a JUMP or a HALT instruction.\n"
  | .no_halt => "The program must contain at least one halt statement.\n"

/-- The globals together with the local variables of `analyse_file` and the
messages written so far. -/
structure assembly extends session where
  error : Bool
  line_number : Int
  instruction_number : Int
  cout : List diagnostic
  deriving DecidableEq, Repr

/-- The table `instructions` of `analyse_file`. -/
def instructions : List (List Char × instruction_code) :=
  [("IN".toList, .in_), ("OUT".toList, .out), ("PRINT".toList, .print), ("LINE".toList, .line),
   ("LOAD".toList, .load), ("STORE".toList, .store), ("ADD".toList, .add),
   ("SUBTRACT".toList, .subtract), ("MULTIPLY".toList, .multiply), ("DIVIDE".toList, .divide),
   ("JUMP".toList, .jump), ("JINEG".toList, .jineg), ("JIZERO".toList, .jizero),
   ("HALT".toList, .halt)]

/-- The function `assemble`. -/
def assemble (st : assembly) (data : List Char) (direct indirect : instruction_code)
    (identifier : Bool) : Except fault assembly :=
  if identifier then
    let r := get_store_index st.named_storage data
    .ok { st with named_storage := r.1, program := st.program ++ [(indirect, r.2)] }
  else
    match stoi data with
    | .ok value => .ok { st with program := st.program ++ [(direct, value)] }
    | .error e => .error e

/-- The function `check_and_assemble`: the state and the boolean returned. -/
def check_and_assemble (st : assembly) (instruction_data : List Char)
    (direct indirect : instruction_code) : Except fault (assembly × Bool) :=
  if is_identifier instruction_data || is_integer instruction_data then
    match assemble st instruction_data direct indirect (is_identifier instruction_data) with
    | .ok st' => .ok (st', true)
    | .error e => .error e
  else .ok (st, false)

/-- The arithmetic cases `add`, `subtract`, `multiply`, `divide` of the switch:
`code` is the mnemonic, named in the message. -/
def arithmetic_case (st : assembly) (code : instruction_code) (instruction_data : List Char)
    (direct indirect : instruction_code) : Except fault assembly :=
  match check_and_assemble st instruction_data direct indirect with
  | .error e => .error e
  | .ok (st', true) => .ok st'
  | .ok (st', false) =>
    .ok { st' with error := true
                   cout := st'.cout ++ [.operand_format code instruction_data st'.line_number] }

/-- A label met as the operand of a jump: the branch on `labels.find`. -/
def reference_label (st : assembly) (instruction_data : List Char) : assembly :=
  match labels_find st.labels instruction_data with
  | none =>
    { st with labels := labels_insert st.labels instruction_data (-1, [st.instruction_number]) }
  | some _ =>
    { st with labels := labels_modify st.labels instruction_data
                          (fun v => (v.1, v.2 ++ [st.instruction_number])) }

/-- The switch on the instruction code found in the table. -/
def assemble_instruction (st : assembly) (code : instruction_code)
    (instruction_data : List Char) : Except fault assembly :=
  match code with
  | .in_ | .out | .line | .halt => .ok { st with program := st.program ++ [(code, 0)] }
  | .print =>
    .ok { st with literal_texts := st.literal_texts ++ [instruction_data]
                  program := st.program ++
                    [(code, ((st.literal_texts ++ [instruction_data]).length : Int) - 1)] }
  | .load =>
    if is_identifier instruction_data || is_integer instruction_data then
      assemble st instruction_data .load_direct .load_indirect (is_identifier instruction_data)
    else
      .ok { st with error := true
                    cout := st.cout ++ [.operand_format code instruction_data st.line_number] }
  | .store =>
    if is_identifier instruction_data then
      let r := get_store_index st.named_storage instruction_data
      .ok { st with named_storage := r.1, program := st.program ++ [(code, r.2)] }
    else
      .ok { st with error := true
                    cout := st.cout ++ [.operand_format code instruction_data st.line_number] }
  | .add => arithmetic_case st code instruction_data .add_direct .add_indirect
  | .subtract => arithmetic_case st code instruction_data .subtract_direct .subtract_indirect
  | .multiply => arithmetic_case st code instruction_data .multiply_direct .multiply_indirect
  | .divide => arithmetic_case st code instruction_data .divide_direct .divide_indirect
  | .jump | .jineg | .jizero =>
    if is_identifier instruction_data then
      let st' := reference_label st instruction_data
      .ok { st' with program := st'.program ++ [(code, 0)] }
    else
      .ok { st with cout := st.cout ++ [.operand_format code instruction_data st.line_number] }
  | _ => .ok st

/-- The branch taken for a label that is a well-formed identifier. -/
def define_label (st : assembly) (label : List Char) : assembly :=
  match labels_find st.labels label with
  | some (first, _) =>
    if first ≠ -1 then
      { st with error := true
                cout := st.cout ++ [.duplicate_label label st.line_number first] }
    else
      { st with labels := labels_modify st.labels label (fun v => (st.instruction_number, v.2)) }
  | none => { st with labels := labels_insert st.labels label (st.instruction_number, []) }

/-- The three fields `label`, `instruction` and what is left of the line for
the operand: a line starting with a space or a tab has no label. -/
def read_fields (line : List Char) : List Char × List Char × List Char :=
  if line.head? = some ' ' ∨ line.head? = some '\t' then
    ([], read_token line)
  else
    ((read_token line).1, read_token (read_token line).2)

/-- The body of the `while (std::getline(...))` loop. -/
def analyse_line (st : assembly) (line : List Char) : Except fault assembly :=
  let st := { st with line_number := st.line_number + 1 }
  if line = [] then .ok st
  else
    let label := (read_fields line).1
    let instruction := (read_fields line).2.1
    if instruction = [] then .ok st
    else
      let st := { st with instruction_number := st.instruction_number + 1 }
      let instruction_data := read_quoted (read_fields line).2.2
      if label ≠ [] ∧ is_identifier label = false then
        .ok { st with error := true, cout := st.cout ++ [.label_format label st.line_number] }
      else
        let st := if label ≠ [] then define_label st label else st
        match instructions.lookup instruction with
        | none =>
          .ok { st with error := true
                        cout := st.cout ++ [.not_recognised instruction st.line_number] }
        | some code => assemble_instruction st code instruction_data

/-- The whole `while` loop over the lines of the file. -/
def analyse_lines : assembly → List (List Char) → Except fault assembly
  | st, [] => .ok st
  | st, line :: rest =>
    match analyse_line st line with
    | .ok st' => analyse_lines st' rest
    | .error e => .error e

/-- The inner loop of the linking pass: `program[usage].second = first` for
every usage, an out-of-range `usage` being undefined. -/
def patch_usages (program : List (instruction_code × Int)) (first : Int) :
    List Int → Except fault (List (instruction_code × Int))
  | [] => .ok program
  | usage :: rest =>
    match modify_index program usage (fun p => (p.1, first)) with
    | none => .error .out_of_bounds
    | some program' => patch_usages program' first rest

/-- The linking pass over the entries of `labels` in key order. -/
def link_labels : assembly → List (List Char × Int × List Int) → Except fault assembly
  | st, [] => .ok st
  | st, (name, first, usages) :: rest =>
    if first = -1 then
      link_labels { st with error := true, cout := st.cout ++ [.unresolved_label name] } rest
    else
      match patch_usages st.program first usages with
      | .error e => .error e
      | .ok program' => link_labels { st with program := program' } rest

/-- The two checks that end `analyse_file`. -/
def validate (st : assembly) : assembly :=
  let no_jump_or_halt : Bool :=
    match st.program.getLast? with
    | none => true
    | some last_instruction =>
      decide (last_instruction.1 ≠ .jump ∧ last_instruction.1 ≠ .halt)
  let st := if no_jump_or_halt then
      { st with error := true, cout := st.cout ++ [.no_jump_or_halt] } else st
  if st.program.all (fun instruction => decide (instruction.1 ≠ .halt)) then
    { st with error := true, cout := st.cout ++ [.no_halt] }
  else st

/-- The state `analyse_file` starts from: the four tables cleared, the
accumulator of the session untouched. -/
def initial_assembly (s : session) : assembly :=
  { program := [], labels := [], named_storage := [], literal_texts := []
    accumulator := s.accumulator
    error := false, line_number := 0, instruction_number := -1, cout := [] }

/-- The function `analyse_file` on a session and the characters of the file:
the final state, whose field `error` is the value returned. -/
def analyse_file (s : session) (file : List Char) : Except fault assembly :=
  match analyse_lines (initial_assembly s) (getlines file) with
  | .error e => .error e
  | .ok st =>
    match link_labels st st.labels with
    | .error e => .error e
    | .ok st' => .ok (validate st')

/-! ## Virtual machine -/

/-- Reduction of an integer to the range of `int32_t`. -/
def wrap32 (x : Int) : Int := (x + 2147483648) % 4294967296 - 2147483648

/-- The globals together with the local `instruction_pointer` of `run` and
the two standard streams. -/
structure vm extends session where
  instruction_pointer : Nat
  cin : List Int
  cout : List String
  deriving DecidableEq, Repr

/-- What one turn of the `while (true)` loop of `run` leads to: the loop goes
on, `run` has returned, or the behaviour is undefined. -/
inductive outcome
  | running (s : vm)
  | returned (s : vm)
  | undefined (f : fault)
  deriving DecidableEq, Repr

/-- Conversion of an `int` to the 64-bit `size_t`: a negative value wraps. -/
def to_size_t (i : Int) : Nat :=
  if 0 ≤ i then i.toNat else (i + 18446744073709551616).toNat

/-- The division `accumulator /= divisor`: undefined for a zero divisor and
for the quotient that does not fit. -/
def divide_accumulator (s : vm) (divisor : Int) : outcome :=
  if divisor = 0 then .undefined .divide_by_zero
  else if s.accumulator = -2147483648 ∧ divisor = -1 then .undefined .divide_overflow
  else .running { s with accumulator := s.accumulator.tdiv divisor }

/-- An arithmetic instruction on a named store: `named_storage[i].second`
is read, out of range being undefined. -/
def with_store (s : vm) (instruction_data : Int) (f : Int → outcome) : outcome :=
  match at_index s.named_storage instruction_data with
  | none => .undefined .out_of_bounds
  | some slot => f slot.2

/-- One turn of the loop of `run`: fetch, advance the pointer, execute. A
fetch outside the instruction list is undefined. For `IN`, an exhausted input
makes the extraction fail and leaves the accumulator as it is. For `HALT`,
`std::cin.ignore()` drops one character of the input, none of its integers.
The five codes without a `case` (`load`, `add`, ...) only advance the pointer. -/
def step (s : vm) : outcome :=
  match s.program.get? s.instruction_pointer with
  | none => .undefined .out_of_bounds
  | some (instruction_type, instruction_data) =>
    let s := { s with instruction_pointer := s.instruction_pointer + 1 }
    match instruction_type with
    | .in_ =>
      match s.cin with
      | [] => .running { s with cout := s.cout ++ ["Please enter an integer "] }
      | x :: rest =>
        .running { s with cout := s.cout ++ ["Please enter an integer "]
                          accumulator := x, cin := rest }
    | .out => .running { s with cout := s.cout ++ [toString s.accumulator] }
    | .print =>
      match at_index s.literal_texts instruction_data with
      | none => .undefined .out_of_bounds
      | some text => .running { s with cout := s.cout ++ [String.mk text] }
    | .line => .running { s with cout := s.cout ++ ["\n"] }
    | .load_direct => .running { s with accumulator := instruction_data }
    | .load_indirect =>
      with_store s instruction_data (fun v => .running { s with accumulator := v })
    | .store =>
      match modify_index s.named_storage instruction_data (fun slot => (slot.1, s.accumulator)) with
      | none => .undefined .out_of_bounds
      | some named_storage => .running { s with named_storage := named_storage }
    | .add_direct => .running { s with accumulator := wrap32 (s.accumulator + instruction_data) }
    | .add_indirect =>
      with_store s instruction_data
        (fun v => .running { s with accumulator := wrap32 (s.accumulator + v) })
    | .subtract_direct =>
      .running { s with accumulator := wrap32 (s.accumulator - instruction_data) }
    | .subtract_indirect =>
      with_store s instruction_data
        (fun v => .running { s with accumulator := wrap32 (s.accumulator - v) })
    | .multiply_direct =>
      .running { s with accumulator := wrap32 (s.accumulator * instruction_data) }
    | .multiply_indirect =>
      with_store s instruction_data
        (fun v => .running { s with accumulator := wrap32 (s.accumulator * v) })
    | .divide_direct =>
      if instruction_data = 0 then
        .running { s with cout := s.cout ++ ["Run-time error - divide by zero\n"] }
      else divide_accumulator s instruction_data
    | .divide_indirect =>
      if instruction_data = 0 then
        .running { s with cout := s.cout ++ ["Run-time error - divide by zero\n"] }
      else with_store s instruction_data (fun v => divide_accumulator s v)
    | .jump => .running { s with instruction_pointer := to_size_t instruction_data }
    | .jineg =>
      if s.accumulator < 0 then
        .running { s with instruction_pointer := to_size_t instruction_data }
      else .running s
    | .jizero =>
      if s.accumulator = 0 then
        .running { s with instruction_pointer := to_size_t instruction_data }
      else .running s
    | .halt => .returned { s with cout := s.cout ++ ["Program halted.\n"] }
    | _ => .running s

/-- At most `fuel` turns of the loop of `run`; `running` is the loop still
going when the fuel is spent. -/
def run_loop : Nat → vm → outcome
  | 0, s => .running s
  | fuel + 1, s =>
    match step s with
    | .running s' => run_loop fuel s'
    | r => r

/-- The function `run` on a session and an input stream, the loop cut after
`fuel` turns. -/
def run (fuel : Nat) (s : session) (cin : List Int) : outcome :=
  if s.program = [] then
    .returned { s with instruction_pointer := 0, cin := cin, cout := ["Nothing to run.\n"] }
  else
    run_loop fuel { s with accumulator := 0, instruction_pointer := 0, cin := cin, cout := [] }

/-- The three codes of the jump family. -/
def jump_family (code : instruction_code) : Bool :=
  code = .jump ∨ code = .jineg ∨ code = .jizero

/-- A line that `analyse_file` counts as an instruction: it is not empty and
its instruction field is not empty. -/
def instruction_line (line : List Char) : Bool :=
  line ≠ [] ∧ (read_fields line).2.1 ≠ []

/-- The state of `analyse_line` on an instruction line once the two counters
are advanced and the label of the line, if any, is entered in the table. -/
def after_label (st : assembly) (line : List Char) : assembly :=
  if (read_fields line).1 ≠ [] then
    define_label { st with line_number := st.line_number + 1
                           instruction_number := st.instruction_number + 1 } (read_fields line).1
  else
    { st with line_number := st.line_number + 1, instruction_number := st.instruction_number + 1 }

/-- The label `name` has no definition yet in the table: it is absent or
carries the index -1. -/
def unresolved (labels : List (List Char × Int × List Int)) (name : List Char) : Prop :=
  ∀ first usages, labels_find labels name = some (first, usages) → first = -1

/-- The usage site `u` of a label is the place of a jump in `program`. -/
def usage_ok (program : List (instruction_code × Int)) (u : Int) : Prop :=
  0 ≤ u ∧ ∃ c d, program.get? u.toNat = some (c, d) ∧ jump_family c = true

/-- The state of an assembly that has written no message so far: every
instruction line has emitted its instruction, the keys of the label table
are distinct, and the usage sites recorded are the places of jumps. -/
def consistent (st : assembly) : Prop :=
  (st.program.length : Int) = st.instruction_number + 1 ∧
  (st.labels.map Prod.fst).Nodup ∧
  ∀ m f us, labels_find st.labels m = some (f, us) → ∀ u ∈ us, usage_ok st.program u

/-- The jump emitted at index `j` is recorded as a usage of the label `L`
and of no other label. -/
def pending_at (st : assembly) (L : List Char) (j : Int) : Prop :=
  j ≤ st.instruction_number ∧
  (∃ f us, labels_find st.labels L = some (f, us) ∧ j ∈ us) ∧
  ∀ m f us, labels_find st.labels m = some (f, us) → j ∈ us → m = L

/-- A letter, in the words of the specification: `A` to `Z` or `a` to `z`. -/
def letter (c : Char) : Prop := ('A' ≤ c ∧ c ≤ 'Z') ∨ ('a' ≤ c ∧ c ≤ 'z')

/-- A decimal digit, in the words of the specification: `0` to `9`. -/
def decimal_digit (c : Char) : Prop := '0' ≤ c ∧ c ≤ '9'

/-- An identifier in the words of the specification: not empty, a letter or
an underscore first, then letters, digits and underscores only. -/
def identifier_text (t : List Char) : Prop :=
  ∃ c cs, t = c :: cs ∧ (letter c ∨ c = '_') ∧ ∀ d ∈ cs, letter d ∨ decimal_digit d ∨ d = '_'

/-- An integer literal in the words of the specification: an optional single
`+` or `-`, then decimal digits and nothing else. -/
def integer_text (t : List Char) : Prop :=
  ∃ sign body, t = sign ++ body ∧ (sign = [] ∨ sign = ['+'] ∨ sign = ['-']) ∧
    ∀ d ∈ body, decimal_digit d

/-- The texts `is_integer` accepts: an optional single `+` or `-`, then
decimal digits and underscores and nothing else. -/
def integer_or_underscore_text (t : List Char) : Prop :=
  ∃ sign body, t = sign ++ body ∧ (sign = [] ∨ sign = ['+'] ∨ sign = ['-']) ∧
    ∀ d ∈ body, decimal_digit d ∨ d = '_'

/-- The bank of named stores as the assembler leaves it: distinct names,
each a well-formed identifier, every value 0. -/
def storage_ok (named_storage : List (List Char × Int)) : Prop :=
  (named_storage.map Prod.fst).Nodup ∧
  ∀ e ∈ named_storage, is_identifier e.1 = true ∧ e.2 = 0

/-- The six mnemonics whose operand may name a store. -/
def takes_store (code : instruction_code) : Bool :=
  code = .load ∨ code = .store ∨ code = .add ∨ code = .subtract ∨ code = .multiply ∨
    code = .divide

/-- The code emitted for a mnemonic whose operand is an identifier: `STORE`
itself, and the indirect form passed to `assemble` for the other five. -/
def indirect_form : instruction_code → instruction_code
  | .load => .load_indirect
  | .add => .add_indirect
  | .subtract => .subtract_indirect
  | .multiply => .multiply_indirect
  | .divide => .divide_indirect
  | code => code

/-- The assembly `st` with the accumulator of the session replaced by `a`. -/
def with_accumulator (a : Int) (st : assembly) : assembly :=
  { st with accumulator := a }

/-- The test the switch of `analyse_file` makes on the operand of a mnemonic:
whether the case appends an instruction to `program`. -/
def operand_accepted (code : instruction_code) (instruction_data : List Char) : Bool :=
  match code with
  | .in_ | .out | .line | .halt | .print => true
  | .load | .add | .subtract | .multiply | .divide =>
    is_identifier instruction_data || is_integer instruction_data
  | .store | .jump | .jineg | .jizero => is_identifier instruction_data
  | _ => false

/-- An instruction line whose mnemonic is not a key of the table `instructions`. -/
def unknown_mnemonic (line : List Char) : Bool :=
  instruction_line line && (instructions.lookup (read_fields line).2.1).isNone

/-- An instruction line for which `analyse_file` appends an instruction: the
label is absent or well-formed, the mnemonic is in the table and its operand
passes the test of its case. -/
def emitting_line (line : List Char) : Bool :=
  instruction_line line &&
  (decide ((read_fields line).1 = []) || is_identifier (read_fields line).1) &&
  match instructions.lookup (read_fields line).2.1 with
  | none => false
  | some code => operand_accepted code (read_quoted (read_fields line).2.2)

/-- The codes whose operand `run` uses as an index into `named_storage`. -/
def uses_store (code : instruction_code) : Bool :=
  code = .store ∨ code = .load_indirect ∨ code = .add_indirect ∨ code = .subtract_indirect ∨
    code = .multiply_indirect ∨ code = .divide_indirect

/-- The operand of an instruction is inside the table `run` uses it on:
`program` for a jump, `named_storage` for `STORE` and the indirect forms,
`literal_texts` for `PRINT`. -/
def operand_in_range (s : session) (instruction : instruction_code × Int) : Bool :=
  if jump_family instruction.1 then
    decide (0 ≤ instruction.2 ∧ instruction.2 < (s.program.length : Int))
  else if uses_store instruction.1 then
    decide (0 ≤ instruction.2 ∧ instruction.2 < (s.named_storage.length : Int))
  else if instruction.1 = .print then
    decide (0 ≤ instruction.2 ∧ instruction.2 < (s.literal_texts.length : Int))
  else true

/-- Every operand of the instruction list is inside its table. -/
def operands_in_range (s : session) : Bool := s.program.all (operand_in_range s)

/-- The last instruction of the list is a `JUMP` or a `HALT`. -/
def ends_in_jump_or_halt (program : List (instruction_code × Int)) : Bool :=
  match program.getLast? with
  | none => false
  | some last_instruction => decide (last_instruction.1 = .jump ∨ last_instruction.1 = .halt)

/-- The state of the machine after `n` turns of the loop of `run` from the
state `s`, when the loop is still going then. -/
def state_after : Nat → vm → Option vm
  | 0, s => some s
  | n + 1, s =>
    match step s with
    | .running s' => state_after n s'
    | _ => none

/-- Every index recorded in the label table is -1 or an instruction number
already given out. -/
def labels_in_range (st : assembly) : Prop :=
  -1 ≤ st.instruction_number ∧
  ∀ m f us, labels_find st.labels m = some (f, us) → f = -1 ∨ (0 ≤ f ∧ f ≤ st.instruction_number)

/-- A state of the machine whose pointer is inside the instruction list, whose
operands are inside their tables and whose list ends in a `JUMP` or a `HALT`. -/
def in_range_state (v : vm) : Bool :=
  operands_in_range v.tosession && ends_in_jump_or_halt v.program &&
    decide (v.instruction_pointer < v.program.length)

/-- The globals as `main` finds them: empty tables, accumulator 0. -/
def initial_session : session :=
  { program := [], labels := [], named_storage := [], literal_texts := [], accumulator := 0 }

/-! ## Theorems

The statements about `analyse_file` that start from a returned value
(`analyse_file s file = .ok r`) cover every file on which the function
returns; on the other files `std::stoi` throws or the linking pass writes
outside the instruction list, and there is no value returned.

### Defects shown on an input, and the division by a literal zero -/

/-- C1: a `JUMP` whose operand is not an identifier is reported but does not
make `analyse_file` fail. On the two lines `  JUMP 5` / `  HALT` the message
for the operand `5` of line 1 is written and the value returned is `false`,
although every other rejected label, mnemonic or operand sets the flag. -/
theorem analyse_file_jump_operand_not_failed :
    analyse_file initial_session "  JUMP 5\n  HALT\n".toList =
      .ok { program := [(.halt, 0)], labels := [], named_storage := [], literal_texts := []
            accumulator := 0, error := false, line_number := 2, instruction_number := 1
            cout := [.operand_format .jump ['5'] 1] } := by
  decide

/-- C2: a source on which `analyse_file` returns `false` while a `JUMP` of the
instruction list carries the operand 3, the length of the list. The rejected
`JUMP 5` of line 1 advances `instruction_number` without emitting, so the
label `L` is recorded one past the place of its `HALT`. -/
theorem analyse_file_jump_operand_past_end :
    analyse_file initial_session "  JUMP 5\n  JUMP L\n  JUMP L\nL HALT\n".toList =
      .ok { program := [(.jump, 0), (.jump, 3), (.halt, 3)], labels := [(['L'], 3, [1, 2])]
            named_storage := [], literal_texts := []
            accumulator := 0, error := false, line_number := 4, instruction_number := 3
            cout := [.operand_format .jump ['5'] 1] } := by
  decide

/-- C3: `DIVIDE b` on the store `b` of slot 1 holding 0. The program
`LOAD 7` / `STORE a` / `DIVIDE b` / `HALT` assembles without a message; the zero
test of `run` looks at the slot index 1, not at the value 0 of the slot, so no
fault is reported and the division by zero is carried out. -/
theorem run_divide_indirect_zero_slot_value :
    analyse_file initial_session "  LOAD 7\n  STORE a\n  DIVIDE b\n  HALT\n".toList =
      .ok { program := [(.load_direct, 7), (.store, 0), (.divide_indirect, 1), (.halt, 0)]
            labels := [], named_storage := [(['a'], 0), (['b'], 0)], literal_texts := []
            accumulator := 0, error := false, line_number := 4, instruction_number := 3
            cout := [] } ∧
    run 4 { program := [(.load_direct, 7), (.store, 0), (.divide_indirect, 1), (.halt, 0)]
            labels := [], named_storage := [(['a'], 0), (['b'], 0)], literal_texts := []
            accumulator := 0 } [] = .undefined .divide_by_zero := by
  constructor <;> decide

/-- C4: `DIVIDE a` on the store `a` of slot 0 holding 2, accumulator 7. The
program `LOAD 2` / `STORE a` / `LOAD 7` / `DIVIDE a` / `OUT` / `HALT` assembles
without a message; `run` reports a division by zero because the slot index is
0, and writes 7 where the quotient is 3. -/
theorem run_divide_indirect_slot_zero :
    analyse_file initial_session
        "  LOAD 2\n  STORE a\n  LOAD 7\n  DIVIDE a\n  OUT\n  HALT\n".toList =
      .ok { program := [(.load_direct, 2), (.store, 0), (.load_direct, 7),
                        (.divide_indirect, 0), (.out, 0), (.halt, 0)]
            labels := [], named_storage := [(['a'], 0)], literal_texts := []
            accumulator := 0, error := false, line_number := 6, instruction_number := 5
            cout := [] } ∧
    run 6 { program := [(.load_direct, 2), (.store, 0), (.load_direct, 7),
                        (.divide_indirect, 0), (.out, 0), (.halt, 0)]
            labels := [], named_storage := [(['a'], 0)], literal_texts := []
            accumulator := 0 } [] =
      .returned
        { program := [(.load_direct, 2), (.store, 0), (.load_direct, 7), (.divide_indirect, 0),
                      (.out, 0), (.halt, 0)]
          labels := [], named_storage := [(['a'], 2)], literal_texts := [], accumulator := 7
          instruction_pointer := 6, cin := []
          cout := ["Run-time error - divide by zero\n", "7", "Program halted.\n"] } := by
  constructor <;> decide

/-- C5: in every state of the machine whose next instruction is
`DIVIDE_DIRECT 0`, the turn of the loop reports the division by zero and
goes on (`running`) in the same state but for the message and the instruction
pointer, which is the index of the following instruction: the accumulator
and the stores are unchanged and the loop of `run` continues from there. The
source line `DIVIDE 0` is assembled into `DIVIDE_DIRECT 0`. -/
theorem step_divide_direct_zero (s : vm)
    (h : s.program.get? s.instruction_pointer = some (.divide_direct, 0)) :
    step s = .running { s with instruction_pointer := s.instruction_pointer + 1
                               cout := s.cout ++ ["Run-time error - divide by zero\n"] } ∧
    (∀ fuel, run_loop (fuel + 1) s =
      run_loop fuel { s with instruction_pointer := s.instruction_pointer + 1
                             cout := s.cout ++ ["Run-time error - divide by zero\n"] }) ∧
    (∀ st : assembly, assemble_instruction st .divide ['0'] =
      .ok { st with program := st.program ++ [(.divide_direct, 0)] }) := by
  have hs : step s = .running { s with instruction_pointer := s.instruction_pointer + 1,
                                       cout := s.cout ++ ["Run-time error - divide by zero\n"] } := by
    unfold step
    rw [h]
    rfl
  refine ⟨hs, ?_, ?_⟩
  · intro fuel
    simp [run_loop, hs]
  · intro st
    rfl

/-- Witness for C5: accumulator 42 in front of `DIVIDE_DIRECT 0` / `HALT`. -/
theorem step_divide_direct_zero_witness :
    (step { program := [(.divide_direct, 0), (.halt, 0)], labels := [], named_storage := []
            literal_texts := [], accumulator := 42, instruction_pointer := 0, cin := []
            cout := [] } =
      .running { program := [(.divide_direct, 0), (.halt, 0)], labels := [], named_storage := []
                 literal_texts := [], accumulator := 42, instruction_pointer := 1, cin := []
                 cout := ["Run-time error - divide by zero\n"] }) :=
  (step_divide_direct_zero
    { program := [(.divide_direct, 0), (.halt, 0)], labels := [], named_storage := []
      literal_texts := [], accumulator := 42, instruction_pointer := 0, cin := []
      cout := [] } (by decide)).1

/-! ### The final checks -/

theorem validate_program (st : assembly) : (validate st).program = st.program := by
  unfold validate
  simp only
  split <;> split <;> rfl

theorem validate_labels (st : assembly) : (validate st).labels = st.labels := by
  unfold validate
  simp only
  split <;> split <;> rfl

theorem validate_error_of_no_halt (st : assembly)
    (h : ∀ i ∈ st.program, i.1 ≠ instruction_code.halt) :
    (validate st).error = true ∧ diagnostic.no_halt ∈ (validate st).cout := by
  have h1 : (st.program.all fun instruction =>
      decide (instruction.1 ≠ instruction_code.halt)) = true := by
    simpa using h
  unfold validate
  simp only
  split
  · simp [h1]
  · simp [h1]

theorem validate_error_of_no_jump_or_halt (st : assembly)
    (h : st.program = [] ∨ ∃ i, st.program.getLast? = some i ∧
      i.1 ≠ instruction_code.jump ∧ i.1 ≠ instruction_code.halt) :
    (validate st).error = true ∧ diagnostic.no_jump_or_halt ∈ (validate st).cout := by
  have h1 : (match st.program.getLast? with
      | none => true
      | some last_instruction =>
        decide (last_instruction.1 ≠ instruction_code.jump ∧
          last_instruction.1 ≠ instruction_code.halt)) = true := by
    rcases h with h | ⟨i, hi, h2, h3⟩
    · simp [h]
    · simp [hi, h2, h3]
  unfold validate
  simp only [h1]
  simp only [if_true]
  split <;> simp

/-- The three stages of `analyse_file` when it returns. -/
theorem analyse_file_ok (s : session) (file : List Char) (r : assembly)
    (h : analyse_file s file = .ok r) :
    ∃ st st', analyse_lines (initial_assembly s) (getlines file) = .ok st ∧
      link_labels st st.labels = .ok st' ∧ r = validate st' := by
  unfold analyse_file at h
  split at h
  · cases h
  · rename_i st hst
    split at h
    · cases h
    · rename_i st' hst'
      exact ⟨st, st', hst, hst', by cases h; rfl⟩

/-- C8: whenever `analyse_file` returns, on any session and any file, with an
instruction list that is empty or whose last instruction is neither `JUMP`
nor `HALT`, the value returned is `true` (assembly failed) and the message
asking for a final `JUMP` or `HALT` has been written, whatever the rest of
the file. -/
theorem analyse_file_fails_without_final_jump_or_halt (s : session) (file : List Char)
    (r : assembly) (h : analyse_file s file = .ok r)
    (hlast : r.program = [] ∨ ∃ i, r.program.getLast? = some i ∧
      i.1 ≠ instruction_code.jump ∧ i.1 ≠ instruction_code.halt) :
    r.error = true ∧ diagnostic.no_jump_or_halt ∈ r.cout := by
  obtain ⟨st, st', -, -, rfl⟩ := analyse_file_ok s file r h
  rw [validate_program] at hlast
  exact validate_error_of_no_jump_or_halt st' hlast

/-- Witness for C8: the file `  HALT` / `  OUT` ends in `OUT`. -/
theorem analyse_file_fails_without_final_jump_or_halt_witness :
    ∃ r, analyse_file initial_session "  HALT\n  OUT\n".toList = .ok r ∧
      r.program = [(.halt, 0), (.out, 0)] ∧
      r.error = true ∧ diagnostic.no_jump_or_halt ∈ r.cout :=
  ⟨{ program := [(.halt, 0), (.out, 0)], labels := [], named_storage := []
     literal_texts := [], accumulator := 0, error := true, line_number := 2
     instruction_number := 1, cout := [.no_jump_or_halt] },
   by decide, rfl,
   analyse_file_fails_without_final_jump_or_halt initial_session "  HALT\n  OUT\n".toList
    { program := [(.halt, 0), (.out, 0)], labels := [], named_storage := []
      literal_texts := [], accumulator := 0, error := true, line_number := 2
      instruction_number := 1, cout := [.no_jump_or_halt] }
    (by decide) (Or.inr ⟨(.out, 0), by decide, by decide, by decide⟩)⟩

/-- C9: whenever `analyse_file` returns, on any session and any file, with an
instruction list that holds no `HALT`, the value returned is `true` and the
message asking for a `HALT` has been written; the last instruction may well
be a `JUMP`. -/
theorem analyse_file_fails_without_halt (s : session) (file : List Char)
    (r : assembly) (h : analyse_file s file = .ok r)
    (hhalt : ∀ i ∈ r.program, i.1 ≠ instruction_code.halt) :
    r.error = true ∧ diagnostic.no_halt ∈ r.cout := by
  obtain ⟨st, st', -, -, rfl⟩ := analyse_file_ok s file r h
  rw [validate_program] at hhalt
  exact validate_error_of_no_halt st' hhalt

/-- Witness for C9: the one-line file `L JUMP L` ends in a `JUMP` and fails
with the message for the missing `HALT` alone. -/
theorem analyse_file_fails_without_halt_witness :
    ∃ r, analyse_file initial_session "L JUMP L\n".toList = .ok r ∧
      r.program = [(.jump, 0)] ∧ r.error = true ∧ r.cout = [.no_halt] ∧
      diagnostic.no_halt ∈ r.cout :=
  ⟨{ program := [(.jump, 0)], labels := [(['L'], 0, [0])], named_storage := []
     literal_texts := [], accumulator := 0, error := true, line_number := 1
     instruction_number := 0, cout := [.no_halt] },
   by decide, rfl,
   (analyse_file_fails_without_halt initial_session "L JUMP L\n".toList
    { program := [(.jump, 0)], labels := [(['L'], 0, [0])], named_storage := []
      literal_texts := [], accumulator := 0, error := true, line_number := 1
      instruction_number := 0, cout := [.no_halt] }
    (by decide) (by decide)).1, rfl,
   (analyse_file_fails_without_halt initial_session "L JUMP L\n".toList
    { program := [(.jump, 0)], labels := [(['L'], 0, [0])], named_storage := []
      literal_texts := [], accumulator := 0, error := true, line_number := 1
      instruction_number := 0, cout := [.no_halt] }
    (by decide) (by decide)).2⟩

/-! ### The label table -/

theorem labels_find_insert (l : List (List Char × Int × List Int)) (name : List Char)
    (value : Int × List Int) (m : List Char) (hnone : labels_find l name = none) :
    labels_find (labels_insert l name value) m =
      if m = name then some value else labels_find l m := by
  induction l with
  | nil =>
    by_cases hm : m = name
    · simp [labels_insert, labels_find, hm]
    · simp [labels_insert, labels_find, hm, Ne.symm hm]
  | cons e rest ih =>
    obtain ⟨k, v⟩ := e
    by_cases hk : k = name
    · simp [labels_find, hk] at hnone
    · have hrest : labels_find rest name = none := by
        simpa [labels_find, hk] using hnone
      by_cases hlt : string_lt name k = true
      · by_cases hm : m = name
        · subst hm
          simp [labels_insert, labels_find, hk, hlt]
        · simp [labels_insert, labels_find, hk, hlt, hm, Ne.symm hm]
      · by_cases hm : m = name
        · subst hm
          simp [labels_insert, labels_find, hk, hlt, ih hrest]
        · by_cases hkm : k = m
          · subst hkm
            simp [labels_insert, labels_find, hk, hlt, hm]
          · simp [labels_insert, labels_find, hk, hlt, hm, hkm, ih hrest]

theorem labels_find_modify (l : List (List Char × Int × List Int)) (name : List Char)
    (f : Int × List Int → Int × List Int) (m : List Char) :
    labels_find (labels_modify l name f) m =
      if m = name then (labels_find l name).map f else labels_find l m := by
  induction l with
  | nil => simp [labels_modify, labels_find]
  | cons e rest ih =>
    obtain ⟨k, v⟩ := e
    by_cases hk : k = name
    · subst hk
      by_cases hm : m = k
      · simp [labels_modify, labels_find, hm]
      · simp [labels_modify, labels_find, hm, Ne.symm hm]
    · by_cases hm : m = name
      · subst hm
        simp [labels_modify, labels_find, hk, ih]
      · by_cases hkm : k = m
        · simp [labels_modify, labels_find, hk, hm, hkm]
        · simp [labels_modify, labels_find, hk, hm, hkm, ih]

/-! ### One line of the source -/

theorem lookup_mem_map_snd {α β : Type} [BEq α] (l : List (α × β)) (a : α) (b : β)
    (h : l.lookup a = some b) : b ∈ l.map Prod.snd := by
  induction l with
  | nil => simp [List.lookup] at h
  | cons e rest ih =>
    obtain ⟨k, v⟩ := e
    simp only [List.lookup] at h
    split at h
    · simp at h
      simp [h]
    · simp [ih h]

theorem assemble_ok {st st' : assembly} {data : List Char} {direct indirect : instruction_code}
    {identifier : Bool} (h : assemble st data direct indirect identifier = .ok st') :
    ∃ ins ns, ins.1 = (if identifier then indirect else direct) ∧
      st' = { st with program := st.program ++ [ins], named_storage := ns } := by
  unfold assemble at h
  split at h
  · rename_i hid
    cases h
    exact ⟨_, _, by simp [hid], rfl⟩
  · rename_i hid
    split at h
    · cases h
      exact ⟨_, st.named_storage, by simp [hid], rfl⟩
    · cases h

theorem arithmetic_case_ok {st st' : assembly} {code : instruction_code} {data : List Char}
    {direct indirect : instruction_code}
    (h : arithmetic_case st code data direct indirect = .ok st') :
    (∃ ins ns, (ins.1 = direct ∨ ins.1 = indirect) ∧
      st' = { st with program := st.program ++ [ins], named_storage := ns }) ∨
    (∃ d, st' = { st with error := true, cout := st.cout ++ [d] }) := by
  unfold arithmetic_case check_and_assemble at h
  by_cases hc : (is_identifier data || is_integer data) = true
  · rw [if_pos hc] at h
    cases ha : assemble st data direct indirect (is_identifier data) with
    | error e => rw [ha] at h; cases h
    | ok st1 =>
      rw [ha] at h
      cases h
      obtain ⟨ins, ns, h1, h2⟩ := assemble_ok ha
      refine Or.inl ⟨ins, ns, ?_, h2⟩
      rw [h1]
      split <;> simp
  · rw [if_neg hc] at h
    cases h
    exact Or.inr ⟨_, rfl⟩

theorem reference_label_eq (st : assembly) (data : List Char) :
    reference_label st data = { st with labels := (reference_label st data).labels } := by
  unfold reference_label
  split <;> rfl

theorem assemble_instruction_ok {st st' : assembly} {code : instruction_code}
    {data : List Char} (h : assemble_instruction st code data = .ok st') :
    (jump_family code = true ∧ is_identifier data = true ∧
      st' = { st with labels := (reference_label st data).labels,
                      program := st.program ++ [(code, 0)] }) ∨
    (jump_family code = false ∧ ∃ ins ns lt, jump_family ins.1 = false ∧
      st' = { st with program := st.program ++ [ins], named_storage := ns,
                      literal_texts := lt }) ∨
    (∃ d e, (st.error = true → e = true) ∧
      st' = { st with error := e, cout := st.cout ++ [d] }) ∨
    (st' = st ∧ ∀ i, instructions.lookup i ≠ some code) := by
  have hno : ∀ c, c ∉ instructions.map Prod.snd → ∀ i, instructions.lookup i ≠ some c :=
    fun c hc i hi => hc (lookup_mem_map_snd _ _ _ hi)
  have harith : ∀ direct indirect, jump_family direct = false → jump_family indirect = false →
      arithmetic_case st code data direct indirect = .ok st' →
      (∃ ins ns lt, jump_family ins.1 = false ∧
        st' = { st with program := st.program ++ [ins], named_storage := ns,
                        literal_texts := lt }) ∨
      (∃ d e, (st.error = true → e = true) ∧
        st' = { st with error := e, cout := st.cout ++ [d] }) := by
    intro direct indirect hd hi ha
    rcases arithmetic_case_ok ha with ⟨ins, ns, h1, h2⟩ | ⟨d, h2⟩
    · refine Or.inl ⟨ins, ns, st.literal_texts, ?_, h2⟩
      rcases h1 with h1 | h1 <;> rw [h1] <;> assumption
    · exact Or.inr ⟨d, true, fun _ => rfl, h2⟩
  cases code
  case in_ | out | line | halt =>
    all_goals
      simp only [assemble_instruction] at h
      cases h
      exact Or.inr (Or.inl ⟨rfl, _, st.named_storage, st.literal_texts, by rfl, rfl⟩)
  case print =>
    simp only [assemble_instruction] at h
    cases h
    exact Or.inr (Or.inl ⟨rfl, _, st.named_storage, _, by rfl, rfl⟩)
  case load =>
    simp only [assemble_instruction] at h
    split at h
    · obtain ⟨ins, ns, h1, h2⟩ := assemble_ok h
      refine Or.inr (Or.inl ⟨rfl, ins, ns, st.literal_texts, ?_, h2⟩)
      rw [h1]
      split <;> rfl
    · cases h
      exact Or.inr (Or.inr (Or.inl ⟨_, true, fun _ => rfl, rfl⟩))
  case store =>
    simp only [assemble_instruction] at h
    split at h
    · cases h
      exact Or.inr (Or.inl ⟨rfl, _, _, st.literal_texts, by rfl, rfl⟩)
    · cases h
      exact Or.inr (Or.inr (Or.inl ⟨_, true, fun _ => rfl, rfl⟩))
  case add | subtract | multiply | divide =>
    all_goals
      simp only [assemble_instruction] at h
      rcases harith _ _ (by rfl) (by rfl) h with h' | h'
      · exact Or.inr (Or.inl ⟨rfl, h'⟩)
      · exact Or.inr (Or.inr (Or.inl h'))
  case jump | jineg | jizero =>
    all_goals
      simp only [assemble_instruction] at h
      split at h
      · rename_i hid
        cases h
        refine Or.inl ⟨rfl, hid, ?_⟩
        rw [reference_label_eq]
      · cases h
        exact Or.inr (Or.inr (Or.inl ⟨_, st.error, fun he => he, rfl⟩))
  all_goals
    simp only [assemble_instruction] at h
    cases h
    exact Or.inr (Or.inr (Or.inr ⟨rfl, hno _ (by decide)⟩))

theorem define_label_eq (st : assembly) (label : List Char) :
    define_label st label =
      { st with labels := (define_label st label).labels, error := (define_label st label).error,
                cout := (define_label st label).cout } := by
  unfold define_label
  split
  · split <;> rfl
  · rfl

/-- The table after `define_label`, seen through `labels_find`. -/
theorem define_label_find (st : assembly) (label m : List Char) :
    labels_find (define_label st label).labels m =
      if m = label then
        (match labels_find st.labels label with
          | some (first, usages) =>
            if first ≠ -1 then some (first, usages) else some (st.instruction_number, usages)
          | none => some (st.instruction_number, []))
      else labels_find st.labels m := by
  unfold define_label
  split
  · rename_i first usages hf
    split
    · by_cases hm : m = label
      · simp [hm, hf, *]
      · simp [hm]
    · simp only [labels_find_modify, hf]
      by_cases hm : m = label
      · simp [hm, hf, *]
      · simp [hm]
  · rename_i hf
    simp [labels_find_insert _ _ _ _ hf, hf]

theorem define_label_cout (st : assembly) (label : List Char) :
    (define_label st label).cout = st.cout ++
      (match labels_find st.labels label with
        | some (first, _) =>
          if first ≠ -1 then [diagnostic.duplicate_label label st.line_number first] else []
        | none => []) := by
  unfold define_label
  split
  · split <;> simp [*]
  · simp [*]

theorem define_label_error (st : assembly) (label : List Char) :
    (define_label st label).error =
      (match labels_find st.labels label with
        | some (first, _) => if first ≠ -1 then true else st.error
        | none => st.error) := by
  unfold define_label
  split
  · split <;> simp [*]
  · simp [*]

theorem reference_label_find (st : assembly) (data m : List Char) :
    labels_find (reference_label st data).labels m =
      if m = data then
        (match labels_find st.labels data with
          | some (first, usages) => some (first, usages ++ [st.instruction_number])
          | none => some (-1, [st.instruction_number]))
      else labels_find st.labels m := by
  unfold reference_label
  split
  · rename_i hf
    simp [labels_find_insert _ _ _ _ hf, hf]
  · rename_i v hf
    simp only [labels_find_modify, hf]
    by_cases hm : m = data
    · simp [hm]
    · simp [hm]

/-- The branches of `analyse_line` when it returns. -/
theorem analyse_line_ok {st st' : assembly} {line : List Char}
    (h : analyse_line st line = .ok st') :
    (instruction_line line = false ∧ st' = { st with line_number := st.line_number + 1 }) ∨
    (instruction_line line = true ∧
      (((read_fields line).1 ≠ [] ∧ is_identifier (read_fields line).1 = false ∧
          st' = { st with line_number := st.line_number + 1,
                          instruction_number := st.instruction_number + 1,
                          error := true,
                          cout := st.cout ++
                            [.label_format (read_fields line).1 (st.line_number + 1)] }) ∨
       (((read_fields line).1 = [] ∨ is_identifier (read_fields line).1 = true) ∧
          ((instructions.lookup (read_fields line).2.1 = none ∧
              st' = { after_label st line with
                        error := true,
                        cout := (after_label st line).cout ++
                          [.not_recognised (read_fields line).2.1
                            (after_label st line).line_number] }) ∨
           (∃ code, instructions.lookup (read_fields line).2.1 = some code ∧
              assemble_instruction (after_label st line) code
                (read_quoted (read_fields line).2.2) = .ok st'))))) := by
  unfold analyse_line at h
  simp only at h
  by_cases hl : line = []
  · rw [if_pos hl] at h
    cases h
    exact Or.inl ⟨by simp [instruction_line, hl], rfl⟩
  · rw [if_neg hl] at h
    by_cases hi : (read_fields line).2.1 = []
    · rw [if_pos hi] at h
      cases h
      exact Or.inl ⟨by simp [instruction_line, hi], rfl⟩
    · rw [if_neg hi] at h
      refine Or.inr ⟨by simp [instruction_line, hi, hl], ?_⟩
      by_cases hlab : (read_fields line).1 ≠ [] ∧ is_identifier (read_fields line).1 = false
      · rw [if_pos hlab] at h
        cases h
        exact Or.inl ⟨hlab.1, hlab.2, rfl⟩
      · rw [if_neg hlab] at h
        refine Or.inr ⟨?_, ?_⟩
        · by_cases he : (read_fields line).1 = []
          · exact Or.inl he
          · right
            simpa [he] using hlab
        · cases hlk : instructions.lookup (read_fields line).2.1 with
          | none =>
            rw [hlk] at h
            cases h
            exact Or.inl ⟨rfl, rfl⟩
          | some code =>
            rw [hlk] at h
            exact Or.inr ⟨code, rfl, h⟩

theorem after_label_eq (st : assembly) (line : List Char) :
    after_label st line =
      { st with line_number := st.line_number + 1
                instruction_number := st.instruction_number + 1
                labels := (after_label st line).labels
                error := (after_label st line).error
                cout := (after_label st line).cout } := by
  unfold after_label
  split
  · rw [define_label_eq]
  · rfl

theorem after_label_find (st : assembly) (line m : List Char) :
    labels_find (after_label st line).labels m =
      if (read_fields line).1 ≠ [] ∧ m = (read_fields line).1 then
        (match labels_find st.labels m with
          | some (first, usages) =>
            if first ≠ -1 then some (first, usages) else some (st.instruction_number + 1, usages)
          | none => some (st.instruction_number + 1, []))
      else labels_find st.labels m := by
  unfold after_label
  by_cases hl : (read_fields line).1 ≠ []
  · rw [if_pos hl, define_label_find]
    by_cases hm : m = (read_fields line).1
    · subst hm
      simp only [hl, ne_eq, not_false_eq_true, and_self, if_true]
      try rfl
    · simp [hm]
  · rw [if_neg hl]
    simp [hl]

theorem after_label_cout (st : assembly) (line : List Char) :
    (after_label st line).cout = st.cout ++
      (if (read_fields line).1 ≠ [] then
        (match labels_find st.labels (read_fields line).1 with
          | some (first, _) =>
            if first ≠ -1 then
              [diagnostic.duplicate_label (read_fields line).1 (st.line_number + 1) first]
            else []
          | none => [])
      else []) := by
  unfold after_label
  by_cases hl : (read_fields line).1 ≠ []
  · rw [if_pos hl, define_label_cout, if_pos hl]
    try rfl
  · rw [if_neg hl, if_neg hl]
    simp

theorem after_label_error (st : assembly) (line : List Char) :
    (after_label st line).error =
      (if (read_fields line).1 ≠ [] then
        (match labels_find st.labels (read_fields line).1 with
          | some (first, _) => if first ≠ -1 then true else st.error
          | none => st.error)
      else st.error) := by
  unfold after_label
  by_cases hl : (read_fields line).1 ≠ []
  · rw [if_pos hl, define_label_error, if_pos hl]
    try rfl
  · rw [if_neg hl, if_neg hl]

/-- The five ways in which `analyse_line` returns: a line that is no instruction,
a malformed label, a jump to a label, another instruction, a rejected
instruction or operand. -/
theorem analyse_line_cases {st st' : assembly} {line : List Char}
    (h : analyse_line st line = .ok st') :
    (instruction_line line = false ∧ st' = { st with line_number := st.line_number + 1 }) ∨
    (instruction_line line = true ∧ (read_fields line).1 ≠ [] ∧
      is_identifier (read_fields line).1 = false ∧
      st' = { st with line_number := st.line_number + 1,
                      instruction_number := st.instruction_number + 1,
                      error := true,
                      cout := st.cout ++
                        [.label_format (read_fields line).1 (st.line_number + 1)] }) ∨
    (instruction_line line = true ∧
      ((read_fields line).1 = [] ∨ is_identifier (read_fields line).1 = true) ∧
      ((∃ code, instructions.lookup (read_fields line).2.1 = some code ∧
          jump_family code = true ∧ is_identifier (read_quoted (read_fields line).2.2) = true ∧
          st' = { after_label st line with
                    labels := (reference_label (after_label st line)
                                (read_quoted (read_fields line).2.2)).labels,
                    program := (after_label st line).program ++ [(code, 0)] }) ∨
       (∃ code ins ns lt, instructions.lookup (read_fields line).2.1 = some code ∧
          jump_family code = false ∧ jump_family ins.1 = false ∧
          st' = { after_label st line with
                    program := (after_label st line).program ++ [ins],
                    named_storage := ns, literal_texts := lt }) ∨
       (∃ d e, ((after_label st line).error = true → e = true) ∧
          st' = { after_label st line with
                    error := e, cout := (after_label st line).cout ++ [d] }))) := by
  rcases analyse_line_ok h with h1 | ⟨hi, h2 | ⟨hlab, h3 | ⟨code, hc, ha⟩⟩⟩
  · exact Or.inl h1
  · exact Or.inr (Or.inl ⟨hi, h2⟩)
  · exact Or.inr (Or.inr ⟨hi, hlab, Or.inr (Or.inr ⟨_, true, fun _ => rfl, h3.2⟩)⟩)
  · refine Or.inr (Or.inr ⟨hi, hlab, ?_⟩)
    rcases assemble_instruction_ok ha with ⟨hj, hid, he⟩ | ⟨hj, ins, ns, lt, h1, h2⟩ | hrep |
      ⟨-, hno⟩
    · exact Or.inl ⟨code, hc, hj, hid, he⟩
    · exact Or.inr (Or.inl ⟨code, ins, ns, lt, hc, hj, h1, h2⟩)
    · exact Or.inr (Or.inr hrep)
    · exact absurd hc (hno _)

@[simp] theorem after_label_line_number (st : assembly) (line : List Char) :
    (after_label st line).line_number = st.line_number + 1 := by
  rw [after_label_eq]

@[simp] theorem after_label_instruction_number (st : assembly) (line : List Char) :
    (after_label st line).instruction_number = st.instruction_number + 1 := by
  rw [after_label_eq]

@[simp] theorem after_label_program (st : assembly) (line : List Char) :
    (after_label st line).program = st.program := by
  rw [after_label_eq]

theorem after_label_error_mono (st : assembly) (line : List Char) (h : st.error = true) :
    (after_label st line).error = true := by
  rw [after_label_error]
  split
  · split
    · split <;> simp [h]
    · exact h
  · exact h

theorem after_label_cout_prefix (st : assembly) (line : List Char) :
    ∃ t, (after_label st line).cout = st.cout ++ t :=
  ⟨_, after_label_cout st line⟩

/-- The counters, the flag and the messages across one line. -/
theorem analyse_line_basic {st st' : assembly} {line : List Char}
    (h : analyse_line st line = .ok st') :
    st'.line_number = st.line_number + 1 ∧
    st'.instruction_number = st.instruction_number + (if instruction_line line = true then 1 else 0) ∧
    (st.error = true → st'.error = true) ∧ ∃ t, st'.cout = st.cout ++ t := by
  rcases analyse_line_cases h with ⟨hi, rfl⟩ | ⟨hi, -, -, rfl⟩ |
    ⟨hi, -, ⟨code, -, -, -, rfl⟩ | ⟨code, ins, ns, lt, -, -, -, rfl⟩ | ⟨d, e, he, rfl⟩⟩
  · simp [hi]
  · simp [hi]
  · simp [hi, after_label_cout_prefix]
    exact after_label_error_mono st line
  · simp [hi, after_label_cout_prefix]
    exact after_label_error_mono st line
  · simp only [hi, if_true, after_label_line_number, after_label_instruction_number, true_and]
    refine ⟨fun hs => he (after_label_error_mono st line hs), ?_⟩
    obtain ⟨t, ht⟩ := after_label_cout_prefix st line
    exact ⟨t ++ [d], by rw [ht, List.append_assoc]⟩

theorem after_label_resolved {st : assembly} {line L : List Char} {p : Int} {us : List Int}
    (hf : labels_find st.labels L = some (p, us)) (hp : p ≠ -1) :
    labels_find (after_label st line).labels L = some (p, us) := by
  rw [after_label_find]
  split
  · simp [hf, hp]
  · exact hf

theorem reference_label_resolved {st : assembly} {data L : List Char} {p : Int} {us : List Int}
    (hf : labels_find st.labels L = some (p, us)) :
    ∃ us', labels_find (reference_label st data).labels L = some (p, us') ∧
      ∀ u ∈ us, u ∈ us' := by
  rw [reference_label_find]
  by_cases hm : L = data
  · subst hm
    exact ⟨us ++ [st.instruction_number], by simp [hf], fun u hu => List.mem_append_left _ hu⟩
  · exact ⟨us, by simp [hm, hf], fun u hu => hu⟩

/-- A label that has its index keeps it across one line. -/
theorem analyse_line_resolved {st st' : assembly} {line L : List Char} {p : Int} {us : List Int}
    (h : analyse_line st line = .ok st')
    (hf : labels_find st.labels L = some (p, us)) (hp : p ≠ -1) :
    ∃ us', labels_find st'.labels L = some (p, us') ∧ ∀ u ∈ us, u ∈ us' := by
  rcases analyse_line_cases h with ⟨hi, rfl⟩ | ⟨hi, -, -, rfl⟩ |
    ⟨hi, -, ⟨code, -, -, -, rfl⟩ | ⟨code, ins, ns, lt, -, -, -, rfl⟩ | ⟨d, e, he, rfl⟩⟩
  · exact ⟨us, hf, fun u hu => hu⟩
  · exact ⟨us, hf, fun u hu => hu⟩
  · exact reference_label_resolved (after_label_resolved hf hp)
  · exact ⟨us, after_label_resolved hf hp, fun u hu => hu⟩
  · exact ⟨us, after_label_resolved hf hp, fun u hu => hu⟩

theorem reference_label_unresolved {st : assembly} {data L : List Char}
    (hu : unresolved st.labels L) : unresolved (reference_label st data).labels L := by
  intro first usages hf
  rw [reference_label_find] at hf
  by_cases hm : L = data
  · subst hm
    rw [if_pos rfl] at hf
    split at hf
    · rename_i f u hfu
      cases hf
      exact hu _ _ hfu
    · cases hf
      rfl
  · rw [if_neg hm] at hf
    exact hu _ _ hf

theorem after_label_unresolved {st : assembly} {line L : List Char}
    (hne : (read_fields line).1 ≠ L) (hu : unresolved st.labels L) :
    unresolved (after_label st line).labels L := by
  intro first usages hf
  rw [after_label_find, if_neg (fun hc => hne hc.2.symm)] at hf
  exact hu _ _ hf

/-- A label without definition stays so across a line that does not define it. -/
theorem analyse_line_unresolved {st st' : assembly} {line L : List Char}
    (h : analyse_line st line = .ok st')
    (hne : instruction_line line = true → (read_fields line).1 ≠ L)
    (hu : unresolved st.labels L) : unresolved st'.labels L := by
  rcases analyse_line_cases h with ⟨hi, rfl⟩ | ⟨hi, -, -, rfl⟩ |
    ⟨hi, -, ⟨code, -, -, -, rfl⟩ | ⟨code, ins, ns, lt, -, -, -, rfl⟩ | ⟨d, e, he, rfl⟩⟩
  · exact hu
  · exact hu
  · exact reference_label_unresolved (after_label_unresolved (hne hi) hu)
  · exact after_label_unresolved (hne hi) hu
  · exact after_label_unresolved (hne hi) hu

/-- A line that defines the well-formed label `L`: a first definition enters
the index of the line, a further one is reported as a duplicate. -/
theorem analyse_line_defines {st st' : assembly} {line L : List Char}
    (h : analyse_line st line = .ok st') (hi : instruction_line line = true)
    (hlab : (read_fields line).1 = L) (hL : is_identifier L = true) :
    (unresolved st.labels L →
      ∃ us, labels_find st'.labels L = some (st.instruction_number + 1, us)) ∧
    (∀ p us, labels_find st.labels L = some (p, us) → p ≠ -1 →
      diagnostic.duplicate_label L (st.line_number + 1) p ∈ st'.cout ∧ st'.error = true) := by
  have hne : (read_fields line).1 ≠ [] := by
    rw [hlab]
    intro hc
    rw [hc] at hL
    simp [is_identifier] at hL
  have ha : unresolved st.labels L →
      ∃ us, labels_find (after_label st line).labels L = some (st.instruction_number + 1, us) := by
    intro hu
    rw [after_label_find, if_pos ⟨hne, hlab.symm⟩]
    cases hf : labels_find st.labels L with
    | none => exact ⟨[], rfl⟩
    | some v =>
      obtain ⟨f, u⟩ := v
      have := hu f u hf
      subst this
      exact ⟨u, by simp⟩
  have hd : ∀ p us, labels_find st.labels L = some (p, us) → p ≠ -1 →
      diagnostic.duplicate_label L (st.line_number + 1) p ∈ (after_label st line).cout ∧
        (after_label st line).error = true := by
    intro p us hf hp
    rw [after_label_cout, after_label_error, if_pos hne, if_pos hne, hlab, hf]
    simp [hp]
  rcases analyse_line_cases h with ⟨hi', -⟩ | ⟨-, -, hbad, -⟩ |
    ⟨-, -, ⟨code, -, -, -, rfl⟩ | ⟨code, ins, ns, lt, -, -, -, rfl⟩ | ⟨d, e, he, rfl⟩⟩
  · rw [hi] at hi'
    cases hi'
  · rw [hlab, hL] at hbad
    cases hbad
  · refine ⟨fun hu => ?_, fun p us hf hp => hd p us hf hp⟩
    obtain ⟨us, hus⟩ := ha hu
    obtain ⟨us', hus', -⟩ := reference_label_resolved hus
    exact ⟨us', hus'⟩
  · exact ⟨fun hu => ha hu, fun p us hf hp => hd p us hf hp⟩
  · refine ⟨fun hu => ha hu, fun p us hf hp => ?_⟩
    obtain ⟨h1, h2⟩ := hd p us hf hp
    exact ⟨List.mem_append_left _ h1, he h2⟩

theorem analyse_lines_cons {st st' : assembly} {line : List Char} {rest : List (List Char)}
    (h : analyse_lines st (line :: rest) = .ok st') :
    ∃ m, analyse_line st line = .ok m ∧ analyse_lines m rest = .ok st' := by
  unfold analyse_lines at h
  split at h
  · rename_i m hm
    exact ⟨m, hm, h⟩
  · cases h

theorem analyse_lines_append {st st' : assembly} {a b : List (List Char)}
    (h : analyse_lines st (a ++ b) = .ok st') :
    ∃ m, analyse_lines st a = .ok m ∧ analyse_lines m b = .ok st' := by
  induction a generalizing st with
  | nil => exact ⟨st, rfl, h⟩
  | cons line rest ih =>
    obtain ⟨m, hm, hrest⟩ := analyse_lines_cons h
    obtain ⟨m', hm', hb⟩ := ih hrest
    refine ⟨m', ?_, hb⟩
    unfold analyse_lines
    rw [hm]
    exact hm'

/-- The counters, the flag and the messages across a run of lines. -/
theorem analyse_lines_basic {st st' : assembly} {lines : List (List Char)}
    (h : analyse_lines st lines = .ok st') :
    st'.line_number = st.line_number + lines.length ∧
    st'.instruction_number = st.instruction_number + (lines.countP instruction_line : Nat) ∧
    (st.error = true → st'.error = true) ∧ ∃ t, st'.cout = st.cout ++ t := by
  induction lines generalizing st with
  | nil =>
    cases h
    simp
  | cons line rest ih =>
    obtain ⟨m, hm, hrest⟩ := analyse_lines_cons h
    obtain ⟨h1, h2, h3, t1, h4⟩ := analyse_line_basic hm
    obtain ⟨k1, k2, k3, t2, k4⟩ := ih hrest
    refine ⟨?_, ?_, fun he => k3 (h3 he), t1 ++ t2, ?_⟩
    · rw [k1, h1]
      simp only [List.length_cons, Nat.cast_add, Nat.cast_one]
      ring
    · rw [k2, h2, List.countP_cons]
      split <;> simp
      ring
    · rw [k4, h4, List.append_assoc]

theorem analyse_lines_resolved {st st' : assembly} {lines : List (List Char)} {L : List Char}
    {p : Int} {us : List Int} (h : analyse_lines st lines = .ok st')
    (hf : labels_find st.labels L = some (p, us)) (hp : p ≠ -1) :
    ∃ us', labels_find st'.labels L = some (p, us') ∧ ∀ u ∈ us, u ∈ us' := by
  induction lines generalizing st us with
  | nil =>
    cases h
    exact ⟨us, hf, fun u hu => hu⟩
  | cons line rest ih =>
    obtain ⟨m, hm, hrest⟩ := analyse_lines_cons h
    obtain ⟨us', hus', hsub⟩ := analyse_line_resolved hm hf hp
    obtain ⟨us'', hus'', hsub'⟩ := ih hrest hus'
    exact ⟨us'', hus'', fun u hu => hsub' u (hsub u hu)⟩

theorem analyse_lines_unresolved {st st' : assembly} {lines : List (List Char)} {L : List Char}
    (h : analyse_lines st lines = .ok st')
    (hne : ∀ l ∈ lines, instruction_line l = true → (read_fields l).1 ≠ L)
    (hu : unresolved st.labels L) : unresolved st'.labels L := by
  induction lines generalizing st with
  | nil =>
    cases h
    exact hu
  | cons line rest ih =>
    obtain ⟨m, hm, hrest⟩ := analyse_lines_cons h
    exact ih hrest (fun l hl => hne l (List.mem_cons_of_mem _ hl))
      (analyse_line_unresolved hm (hne line (List.mem_cons_self _ _)) hu)

/-- The linking pass leaves the label table alone and only adds messages. -/
theorem link_labels_basic {st st' : assembly} {entries : List (List Char × Int × List Int)}
    (h : link_labels st entries = .ok st') :
    st'.labels = st.labels ∧ (st.error = true → st'.error = true) ∧
    ∃ t, st'.cout = st.cout ++ t := by
  induction entries generalizing st with
  | nil =>
    cases h
    simp
  | cons e rest ih =>
    obtain ⟨name, first, usages⟩ := e
    unfold link_labels at h
    split at h
    · obtain ⟨h1, h2, t, h3⟩ := ih h
      exact ⟨h1, fun _ => h2 rfl, _, by rw [h3, List.append_assoc]⟩
    · split at h
      · cases h
      · obtain ⟨h1, h2, t, h3⟩ := ih h
        exact ⟨h1, h2, t, h3⟩

theorem validate_basic (st : assembly) :
    (st.error = true → (validate st).error = true) ∧ ∃ t, (validate st).cout = st.cout ++ t := by
  unfold validate
  simp only
  split <;> split <;> simp

/-- C10: let `analyse_file` return on a file in which the well-formed label `L`
is the label of the instruction line `first_line`, of no instruction line
before it, and again of the later instruction line `second_line`. Then the
duplicate-label message for `L` at the line number of `second_line` has been
written, the value returned is `true`, and the label table still holds for
`L` the index given by the first definition, the number of instruction lines
before `first_line`; the message names that index as the first encounter. -/
theorem analyse_file_duplicate_label (s : session) (file : List Char) (r : assembly)
    (pre mid post : List (List Char)) (first_line second_line L : List Char)
    (h : analyse_file s file = .ok r)
    (hlines : getlines file = pre ++ first_line :: (mid ++ second_line :: post))
    (hL : is_identifier L = true)
    (hfirst : instruction_line first_line = true ∧ (read_fields first_line).1 = L)
    (hsecond : instruction_line second_line = true ∧ (read_fields second_line).1 = L)
    (hpre : ∀ l ∈ pre, instruction_line l = true → (read_fields l).1 ≠ L) :
    diagnostic.duplicate_label L ((pre.length + mid.length + 2 : Nat) : Int)
        ((pre.countP instruction_line : Nat) : Int) ∈ r.cout ∧
    r.error = true ∧
    ∃ usages, labels_find r.labels L =
      some (((pre.countP instruction_line : Nat) : Int), usages) := by
  obtain ⟨st, st', hrun, hlink, rfl⟩ := analyse_file_ok s file r h
  rw [hlines] at hrun
  obtain ⟨s1, hs1, hrun⟩ := analyse_lines_append hrun
  obtain ⟨s2, hs2, hrun⟩ := analyse_lines_cons hrun
  obtain ⟨s3, hs3, hrun⟩ := analyse_lines_append hrun
  obtain ⟨s4, hs4, hs5⟩ := analyse_lines_cons hrun
  -- the lines before the first definition
  have hu1 : unresolved s1.labels L :=
    analyse_lines_unresolved hs1 hpre (by intro f u hf; simp [initial_assembly, labels_find] at hf)
  obtain ⟨hl1, hn1, -, -⟩ := analyse_lines_basic hs1
  have hn1' : s1.instruction_number + 1 = ((pre.countP instruction_line : Nat) : Int) := by
    rw [hn1]
    simp [initial_assembly]
  have hl1' : s1.line_number = (pre.length : Int) := by
    rw [hl1]
    simp [initial_assembly]
  -- the first definition
  obtain ⟨us2, hf2⟩ := (analyse_line_defines hs2 hfirst.1 hfirst.2 hL).1 hu1
  rw [hn1'] at hf2
  have hp : ((pre.countP instruction_line : Nat) : Int) ≠ -1 := by omega
  obtain ⟨hl2, -, -, -⟩ := analyse_line_basic hs2
  -- the lines in between
  obtain ⟨us3, hf3, -⟩ := analyse_lines_resolved hs3 hf2 hp
  obtain ⟨hl3, -, -, -⟩ := analyse_lines_basic hs3
  -- the second definition
  obtain ⟨hd4, he4⟩ := (analyse_line_defines hs4 hsecond.1 hsecond.2 hL).2 _ _ hf3 hp
  obtain ⟨us4, hf4, -⟩ := analyse_line_resolved hs4 hf3 hp
  have hl4 : s3.line_number + 1 = ((pre.length + mid.length + 2 : Nat) : Int) := by
    rw [hl3, hl2, hl1']
    push_cast
    ring
  rw [hl4] at hd4
  -- the rest of the file, the linking pass and the final checks
  obtain ⟨us5, hf5, -⟩ := analyse_lines_resolved hs5 hf4 hp
  obtain ⟨-, -, he5, t5, hc5⟩ := analyse_lines_basic hs5
  obtain ⟨hlab6, he6, t6, hc6⟩ := link_labels_basic hlink
  obtain ⟨he7, t7, hc7⟩ := validate_basic st'
  refine ⟨?_, he7 (he6 (he5 he4)), us5, ?_⟩
  · rw [hc7, hc6, hc5]
    exact List.mem_append_left _ (List.mem_append_left _ (List.mem_append_left _ hd4))
  · rw [validate_labels, hlab6]
    exact hf5

/-- Witness for C10: the label `L` on lines 2 and 4 of
`  LOAD 1` / `L OUT` / `  LINE` / `L HALT`. -/
theorem analyse_file_duplicate_label_witness :
    ∃ r, analyse_file initial_session "  LOAD 1\nL OUT\n  LINE\nL HALT\n".toList = .ok r ∧
      diagnostic.duplicate_label ['L'] 4 1 ∈ r.cout ∧ r.error = true ∧
      ∃ usages, labels_find r.labels ['L'] = some (1, usages) :=
  ⟨{ program := [(.load_direct, 1), (.out, 0), (.line, 0), (.halt, 0)]
     labels := [(['L'], 1, [])], named_storage := [], literal_texts := []
     accumulator := 0, error := true, line_number := 4, instruction_number := 3
     cout := [.duplicate_label ['L'] 4 1] },
   by decide,
   analyse_file_duplicate_label initial_session "  LOAD 1\nL OUT\n  LINE\nL HALT\n".toList
    { program := [(.load_direct, 1), (.out, 0), (.line, 0), (.halt, 0)]
      labels := [(['L'], 1, [])], named_storage := [], literal_texts := []
      accumulator := 0, error := true, line_number := 4, instruction_number := 3
      cout := [.duplicate_label ['L'] 4 1] }
    ["  LOAD 1".toList] ["  LINE".toList] [] "L OUT".toList "L HALT".toList ['L']
    (by decide) (by decide) (by decide) (by decide) (by decide) (by decide)⟩

theorem labels_find_eq_none_iff (l : List (List Char × Int × List Int)) (name : List Char) :
    labels_find l name = none ↔ name ∉ l.map Prod.fst := by
  induction l with
  | nil => simp [labels_find]
  | cons e rest ih =>
    obtain ⟨k, v⟩ := e
    by_cases hk : k = name
    · simp [labels_find, hk]
    · simp [labels_find, hk, ih, Ne.symm hk]

theorem labels_find_mem {l : List (List Char × Int × List Int)} {name : List Char}
    {v : Int × List Int} (h : labels_find l name = some v) : (name, v) ∈ l := by
  induction l with
  | nil => simp [labels_find] at h
  | cons e rest ih =>
    obtain ⟨k, w⟩ := e
    by_cases hk : k = name
    · simp [labels_find, hk] at h
      simp [hk, h]
    · simp [labels_find, hk] at h
      exact List.mem_cons_of_mem _ (ih h)

theorem labels_find_of_mem {l : List (List Char × Int × List Int)} {name : List Char}
    {v : Int × List Int} (hn : (l.map Prod.fst).Nodup) (h : (name, v) ∈ l) :
    labels_find l name = some v := by
  induction l with
  | nil => simp at h
  | cons e rest ih =>
    obtain ⟨k, w⟩ := e
    simp only [List.map_cons, List.nodup_cons] at hn
    rcases List.mem_cons.mp h with heq | hmem
    · cases heq
      simp [labels_find]
    · have hk : k ≠ name := by
        intro hc
        subst hc
        exact hn.1 (List.mem_map_of_mem Prod.fst hmem)
      simp [labels_find, hk, ih hn.2 hmem]

theorem labels_modify_keys (l : List (List Char × Int × List Int)) (name : List Char)
    (f : Int × List Int → Int × List Int) :
    (labels_modify l name f).map Prod.fst = l.map Prod.fst := by
  induction l with
  | nil => rfl
  | cons e rest ih =>
    obtain ⟨k, w⟩ := e
    by_cases hk : k = name
    · simp [labels_modify, hk]
    · simp [labels_modify, hk, ih]

theorem labels_insert_nodup {l : List (List Char × Int × List Int)} {name : List Char}
    (value : Int × List Int) (hnone : labels_find l name = none)
    (hn : (l.map Prod.fst).Nodup) : ((labels_insert l name value).map Prod.fst).Nodup := by
  induction l with
  | nil => simp [labels_insert]
  | cons e rest ih =>
    obtain ⟨k, w⟩ := e
    have hk : k ≠ name := by
      intro hc
      simp [labels_find, hc] at hnone
    have hrest : labels_find rest name = none := by
      simpa [labels_find, hk] using hnone
    simp only [List.map_cons, List.nodup_cons] at hn
    by_cases hlt : string_lt name k = true
    · simp only [labels_insert, hk, if_false, hlt, if_true, List.map_cons, List.nodup_cons]
      refine ⟨?_, hn⟩
      have := (labels_find_eq_none_iff _ _).mp hnone
      simpa using this
    · have hlt' : string_lt name k = false := by simpa using hlt
      simp only [labels_insert, hk, if_false, hlt', Bool.false_eq_true, List.map_cons,
        List.nodup_cons]
      refine ⟨?_, ih hrest hn.2⟩
      intro hmem
      have h1 : labels_find (labels_insert rest name value) k ≠ none := by
        rw [Ne, labels_find_eq_none_iff]
        exact fun hc => hc hmem
      rw [labels_find_insert _ _ _ _ hrest, if_neg hk] at h1
      exact h1 ((labels_find_eq_none_iff _ _).mpr hn.1)

theorem define_label_nodup {st : assembly} (label : List Char)
    (hn : (st.labels.map Prod.fst).Nodup) :
    ((define_label st label).labels.map Prod.fst).Nodup := by
  unfold define_label
  split
  · split
    · exact hn
    · simp only [labels_modify_keys]
      exact hn
  · rename_i hf
    exact labels_insert_nodup _ hf hn

theorem after_label_nodup {st : assembly} (line : List Char)
    (hn : (st.labels.map Prod.fst).Nodup) :
    ((after_label st line).labels.map Prod.fst).Nodup := by
  unfold after_label
  split
  · exact define_label_nodup _ hn
  · exact hn

theorem reference_label_nodup {st : assembly} (data : List Char)
    (hn : (st.labels.map Prod.fst).Nodup) :
    ((reference_label st data).labels.map Prod.fst).Nodup := by
  unfold reference_label
  split
  · rename_i hf
    exact labels_insert_nodup _ hf hn
  · simp only [labels_modify_keys]
    exact hn

/-! ### The linking pass -/

theorem modify_index_some {α : Type} {v v' : List α} {i : Int} {f : α → α}
    (h : modify_index v i f = some v') :
    0 ≤ i ∧ v'.length = v.length ∧
    ∀ n : Nat, v'[n]? = if (n : Int) = i then (v[n]?).map f else v[n]? := by
  unfold modify_index at h
  split at h
  · cases h
  · rename_i x hx
    cases h
    unfold at_index at hx
    split at hx
    · rename_i hi
      refine ⟨hi, by simp, fun n => ?_⟩
      rw [List.get?_eq_getElem?] at hx
      have hn : ((n : Int) = i) ↔ i.toNat = n := by omega
      by_cases hc : i.toNat = n
      · subst hc
        have hlt : i.toNat < v.length := by
          by_contra hge
          rw [List.getElem?_eq_none (by omega)] at hx
          cases hx
        simp [hx, List.getElem?_set, hlt, hi]
      · simp [hn, hc, List.getElem?_set]
    · cases hx

theorem patch_usages_ok {program program' : List (instruction_code × Int)} {first : Int}
    {usages : List Int} (h : patch_usages program first usages = .ok program') :
    program'.length = program.length ∧
    ∀ n : Nat, program'[n]? =
      if (n : Int) ∈ usages then (program[n]?).map (fun p => (p.1, first)) else program[n]? := by
  induction usages generalizing program with
  | nil =>
    cases h
    simp
  | cons u rest ih =>
    unfold patch_usages at h
    split at h
    · cases h
    · rename_i program1 h1
      obtain ⟨-, hlen, hget⟩ := modify_index_some h1
      obtain ⟨hlen', hget'⟩ := ih h
      refine ⟨by rw [hlen', hlen], fun n => ?_⟩
      rw [hget' n, hget n]
      by_cases hu : (n : Int) = u
      · by_cases hr : (n : Int) ∈ rest
        · simp [hu, hr]
          cases program[n]? <;> simp
        · simp [hu, hr]
          subst hu
          simp [hr]
      · by_cases hr : (n : Int) ∈ rest
        · simp [hu, hr]
        · simp [hu, hr]

/-- What the linking pass leaves at index `n` of the instruction list: the
code is kept, and the operand is `k` when every entry that uses `n` carries
the index `k` and either some entry uses `n` or the operand was `k`. -/
theorem link_labels_get {st st' : assembly} {entries : List (List Char × Int × List Int)}
    (h : link_labels st entries = .ok st') (n : Nat) (c : instruction_code) (d : Int)
    (hget : st.program[n]? = some (c, d)) :
    (∃ d', st'.program[n]? = some (c, d')) ∧
    ((∀ e ∈ entries, (n : Int) ∉ e.2.2) → st'.program[n]? = some (c, d)) ∧
    ∀ k : Int, k ≠ -1 → (∀ e ∈ entries, (n : Int) ∈ e.2.2 → e.2.1 = k) →
      (d = k ∨ ∃ e ∈ entries, (n : Int) ∈ e.2.2) → st'.program[n]? = some (c, k) := by
  induction entries generalizing st d with
  | nil =>
    cases h
    refine ⟨⟨d, hget⟩, fun _ => hget, fun k _ _ hor => ?_⟩
    rcases hor with rfl | ⟨e, he, -⟩
    · exact hget
    · cases he
  | cons e rest ih =>
    obtain ⟨name, first, usages⟩ := e
    unfold link_labels at h
    split at h
    · rename_i hfirst
      obtain ⟨h1, h2, h3⟩ := ih h d hget
      refine ⟨h1, fun hno => h2 (fun e he => hno e (List.mem_cons_of_mem _ he)),
        fun k hk hall hor => ?_⟩
      have hnot : (n : Int) ∉ usages := by
        intro hc
        have := hall (name, first, usages) (List.mem_cons_self _ _) hc
        simp only at this
        exact hk (this ▸ hfirst)
      refine h3 k hk (fun e he => hall e (List.mem_cons_of_mem _ he)) ?_
      rcases hor with hd | ⟨e, he, hn⟩
      · exact Or.inl hd
      · rcases List.mem_cons.mp he with rfl | he'
        · exact absurd hn hnot
        · exact Or.inr ⟨e, he', hn⟩
    · split at h
      · cases h
      · rename_i program' hp
        obtain ⟨-, hpg⟩ := patch_usages_ok hp
        by_cases hu : (n : Int) ∈ usages
        · have hget' : program'[n]? = some (c, first) := by
            rw [hpg n, if_pos hu, hget]
            rfl
          obtain ⟨h1, h2, h3⟩ := ih h first hget'
          refine ⟨h1, fun hno => absurd hu (hno _ (List.mem_cons_self _ _)),
            fun k hk hall hor => ?_⟩
          have hfk : first = k := hall (name, first, usages) (List.mem_cons_self _ _) hu
          exact h3 k hk (fun e he => hall e (List.mem_cons_of_mem _ he)) (Or.inl hfk)
        · have hget' : program'[n]? = some (c, d) := by
            rw [hpg n, if_neg hu, hget]
          obtain ⟨h1, h2, h3⟩ := ih h d hget'
          refine ⟨h1, fun hno => h2 (fun e he => hno e (List.mem_cons_of_mem _ he)),
            fun k hk hall hor => ?_⟩
          refine h3 k hk (fun e he => hall e (List.mem_cons_of_mem _ he)) ?_
          rcases hor with hd | ⟨e, he, hn⟩
          · exact Or.inl hd
          · rcases List.mem_cons.mp he with rfl | he'
            · exact absurd hn hu
            · exact Or.inr ⟨e, he', hn⟩

/-! ### Assemblies without a message -/

theorem after_label_usages {st : assembly} {line m : List Char} {f : Int} {us : List Int}
    (h : labels_find (after_label st line).labels m = some (f, us)) :
    us = [] ∨ ∃ f', labels_find st.labels m = some (f', us) := by
  rw [after_label_find] at h
  split at h
  · split at h
    · rename_i f0 us0 hf0
      split at h
      · cases h
        exact Or.inr ⟨_, hf0⟩
      · cases h
        exact Or.inr ⟨_, hf0⟩
    · cases h
      exact Or.inl rfl
  · exact Or.inr ⟨f, h⟩

theorem reference_label_usages {st : assembly} {data m : List Char} {f : Int} {us : List Int}
    (h : labels_find (reference_label st data).labels m = some (f, us)) :
    labels_find st.labels m = some (f, us) ∨
    (m = data ∧ ∃ us0, us = us0 ++ [st.instruction_number] ∧
      (us0 = [] ∨ labels_find st.labels m = some (f, us0))) := by
  rw [reference_label_find] at h
  split at h
  · rename_i hm
    split at h
    · rename_i f0 us0 hf0
      cases h
      exact Or.inr ⟨hm, us0, rfl, Or.inr (hm ▸ hf0)⟩
    · cases h
      exact Or.inr ⟨hm, [], rfl, Or.inl rfl⟩
  · exact Or.inl h

theorem after_label_grow {st : assembly} {line m : List Char} {f : Int} {us : List Int}
    (h : labels_find st.labels m = some (f, us)) :
    ∃ f', labels_find (after_label st line).labels m = some (f', us) := by
  rw [after_label_find]
  split
  · rw [h]
    simp only
    split
    · exact ⟨_, rfl⟩
    · exact ⟨_, rfl⟩
  · exact ⟨f, h⟩

theorem reference_label_grow {st : assembly} {data m : List Char} {f : Int} {us : List Int}
    (h : labels_find st.labels m = some (f, us)) :
    ∃ us', labels_find (reference_label st data).labels m = some (f, us') ∧
      ∀ u ∈ us, u ∈ us' :=
  reference_label_resolved h

theorem usage_ok_append {program : List (instruction_code × Int)} {u : Int}
    (q : List (instruction_code × Int)) (h : usage_ok program u) : usage_ok (program ++ q) u := by
  obtain ⟨h0, c, d, hget, hj⟩ := h
  refine ⟨h0, c, d, ?_, hj⟩
  rw [List.get?_eq_getElem?] at hget ⊢
  have hlt : u.toNat < program.length := by
    by_contra hge
    rw [List.getElem?_eq_none (by omega)] at hget
    cases hget
  rw [List.getElem?_append_left hlt]
  exact hget

/-- The two ways in which `analyse_line` returns without having written a
message: a line that is no instruction, and an instruction line that emits
its instruction. -/
theorem analyse_line_quiet {st st' : assembly} {line : List Char}
    (h : analyse_line st line = .ok st') (hq : st'.cout = []) :
    st.cout = [] ∧
    ((instruction_line line = false ∧ st' = { st with line_number := st.line_number + 1 }) ∨
     (instruction_line line = true ∧ (after_label st line).cout = [] ∧
      ((∃ code, instructions.lookup (read_fields line).2.1 = some code ∧
          jump_family code = true ∧ is_identifier (read_quoted (read_fields line).2.2) = true ∧
          st' = { after_label st line with
                    labels := (reference_label (after_label st line)
                                (read_quoted (read_fields line).2.2)).labels,
                    program := (after_label st line).program ++ [(code, 0)] }) ∨
       (∃ code ins ns lt, instructions.lookup (read_fields line).2.1 = some code ∧
          jump_family code = false ∧ jump_family ins.1 = false ∧
          st' = { after_label st line with
                    program := (after_label st line).program ++ [ins],
                    named_storage := ns, literal_texts := lt })))) := by
  have hst : st.cout = [] := by
    obtain ⟨-, -, -, t, ht⟩ := analyse_line_basic h
    rw [hq] at ht
    exact (List.append_eq_nil.mp ht.symm).1
  refine ⟨hst, ?_⟩
  rcases analyse_line_cases h with ⟨hi, h1⟩ | ⟨hi, -, -, h2⟩ |
    ⟨hi, -, ⟨code, hc, hj, hid, h3⟩ | ⟨code, ins, ns, lt, hc, hj, h4, h5⟩ | ⟨d, e, -, h6⟩⟩
  · exact Or.inl ⟨hi, h1⟩
  · rw [h2] at hq
    simp at hq
  · have ha : (after_label st line).cout = [] := by
      rw [h3] at hq
      exact hq
    exact Or.inr ⟨hi, ha, Or.inl ⟨code, hc, hj, hid, h3⟩⟩
  · have ha : (after_label st line).cout = [] := by
      rw [h5] at hq
      exact hq
    exact Or.inr ⟨hi, ha, Or.inr ⟨code, ins, ns, lt, hc, hj, h4, h5⟩⟩
  · rw [h6] at hq
    simp at hq

theorem usage_ok_last (program : List (instruction_code × Int)) (code : instruction_code)
    (d : Int) (hj : jump_family code = true) :
    usage_ok (program ++ [(code, d)]) (program.length : Int) := by
  refine ⟨by omega, code, d, ?_, hj⟩
  rw [List.get?_eq_getElem?]
  simp

/-- An assembly without a message stays consistent across one line. -/
theorem analyse_line_consistent {st st' : assembly} {line : List Char}
    (h : analyse_line st line = .ok st') (hq : st'.cout = []) (hc : consistent st) :
    consistent st' := by
  obtain ⟨hlen, hn, hus⟩ := hc
  have hafter : ∀ m f us, labels_find (after_label st line).labels m = some (f, us) →
      ∀ u ∈ us, usage_ok st.program u := by
    intro m f us hf u hu
    rcases after_label_usages hf with rfl | ⟨f', hf'⟩
    · cases hu
    · exact hus m f' us hf' u hu
  rcases (analyse_line_quiet h hq).2 with ⟨-, rfl⟩ |
    ⟨-, -, ⟨code, -, hj, -, rfl⟩ | ⟨code, ins, ns, lt, -, -, -, rfl⟩⟩
  · exact ⟨hlen, hn, hus⟩
  · refine ⟨?_, reference_label_nodup _ (after_label_nodup _ hn), ?_⟩
    · simp only [after_label_program, after_label_instruction_number, List.length_append,
        List.length_singleton, Nat.cast_add, Nat.cast_one]
      omega
    · intro m f us hf u hu
      simp only [after_label_program]
      simp only at hf
      rcases reference_label_usages hf with hf' | ⟨-, us0, rfl, hus0⟩
      · exact usage_ok_append _ (hafter m f us hf' u hu)
      · rcases List.mem_append.mp hu with hu0 | hu1
        · rcases hus0 with rfl | hf0
          · cases hu0
          · exact usage_ok_append _ (hafter m f us0 hf0 u hu0)
        · simp only [List.mem_singleton, after_label_instruction_number] at hu1
          have : u = (st.program.length : Int) := by omega
          rw [this]
          exact usage_ok_last _ _ _ hj
  · refine ⟨?_, after_label_nodup _ hn, ?_⟩
    · simp only [after_label_program, after_label_instruction_number, List.length_append,
        List.length_singleton, Nat.cast_add, Nat.cast_one]
      omega
    · intro m f us hf u hu
      simp only [after_label_program]
      exact usage_ok_append _ (hafter m f us hf u hu)

theorem usage_ok_lt {program : List (instruction_code × Int)} {u : Int}
    (h : usage_ok program u) : u < (program.length : Int) := by
  obtain ⟨h0, c, d, hget, -⟩ := h
  rw [List.get?_eq_getElem?] at hget
  by_contra hge
  rw [List.getElem?_eq_none (by omega)] at hget
  cases hget

/-- A usage recorded for `L` alone stays so across one line. -/
theorem analyse_line_pending {st st' : assembly} {line L : List Char} {j : Int}
    (h : analyse_line st line = .ok st') (hp : pending_at st L j) : pending_at st' L j := by
  obtain ⟨hle, ⟨f0, us0, hf0, hj0⟩, honly⟩ := hp
  have hafter : ∀ m f us, labels_find (after_label st line).labels m = some (f, us) →
      j ∈ us → m = L := by
    intro m f us hf hj
    rcases after_label_usages hf with rfl | ⟨f', hf'⟩
    · cases hj
    · exact honly m f' us hf' hj
  obtain ⟨f1, hf1⟩ := @after_label_grow _ line _ _ _ hf0
  rcases analyse_line_cases h with ⟨hi, rfl⟩ | ⟨hi, -, -, rfl⟩ |
    ⟨hi, -, ⟨code, -, -, -, rfl⟩ | ⟨code, ins, ns, lt, -, -, -, rfl⟩ | ⟨d, e, he, rfl⟩⟩
  · exact ⟨hle, ⟨f0, us0, hf0, hj0⟩, honly⟩
  · exact ⟨by simp only; omega, ⟨f0, us0, hf0, hj0⟩, honly⟩
  · refine ⟨by simp only [after_label_instruction_number]; omega, ?_, ?_⟩
    · obtain ⟨us', hus', hsub⟩ := @reference_label_grow _
        (read_quoted (read_fields line).2.2) _ _ _ hf1
      exact ⟨f1, us', hus', hsub _ hj0⟩
    · intro m f us hf hj
      simp only at hf
      rcases reference_label_usages hf with hf' | ⟨-, us1, rfl, hus1⟩
      · exact hafter m f us hf' hj
      · rcases List.mem_append.mp hj with hj1 | hj2
        · rcases hus1 with rfl | hf1'
          · cases hj1
          · exact hafter m f us1 hf1' hj1
        · simp only [List.mem_singleton, after_label_instruction_number] at hj2
          omega
  · exact ⟨by simp only [after_label_instruction_number]; omega, ⟨f1, us0, hf1, hj0⟩, hafter⟩
  · exact ⟨by simp only [after_label_instruction_number]; omega, ⟨f1, us0, hf1, hj0⟩, hafter⟩

theorem analyse_line_program {st st' : assembly} {line : List Char}
    (h : analyse_line st line = .ok st') : ∃ p, st'.program = st.program ++ p := by
  rcases analyse_line_cases h with ⟨hi, rfl⟩ | ⟨hi, -, -, rfl⟩ |
    ⟨hi, -, ⟨code, -, -, -, rfl⟩ | ⟨code, ins, ns, lt, -, -, -, rfl⟩ | ⟨d, e, he, rfl⟩⟩
  · exact ⟨[], by simp⟩
  · exact ⟨[], by simp⟩
  · exact ⟨[(code, 0)], by simp only [after_label_program]⟩
  · exact ⟨[ins], by simp only [after_label_program]⟩
  · exact ⟨[], by simp⟩

theorem analyse_lines_program {st st' : assembly} {lines : List (List Char)}
    (h : analyse_lines st lines = .ok st') : ∃ p, st'.program = st.program ++ p := by
  induction lines generalizing st with
  | nil =>
    cases h
    exact ⟨[], by simp⟩
  | cons line rest ih =>
    obtain ⟨m, hm, hrest⟩ := analyse_lines_cons h
    obtain ⟨p, hp⟩ := analyse_line_program hm
    obtain ⟨q, hq⟩ := ih hrest
    exact ⟨p ++ q, by rw [hq, hp, List.append_assoc]⟩

theorem analyse_lines_quiet {st st' : assembly} {lines : List (List Char)}
    (h : analyse_lines st lines = .ok st') (hq : st'.cout = []) : st.cout = [] := by
  obtain ⟨-, -, -, t, ht⟩ := analyse_lines_basic h
  rw [hq] at ht
  exact (List.append_eq_nil.mp ht.symm).1

theorem analyse_lines_consistent {st st' : assembly} {lines : List (List Char)}
    (h : analyse_lines st lines = .ok st') (hq : st'.cout = []) (hc : consistent st) :
    consistent st' := by
  induction lines generalizing st with
  | nil =>
    cases h
    exact hc
  | cons line rest ih =>
    obtain ⟨m, hm, hrest⟩ := analyse_lines_cons h
    exact ih hrest (analyse_line_consistent hm (analyse_lines_quiet hrest hq) hc)

theorem analyse_lines_pending {st st' : assembly} {lines : List (List Char)} {L : List Char}
    {j : Int} (h : analyse_lines st lines = .ok st') (hp : pending_at st L j) :
    pending_at st' L j := by
  induction lines generalizing st with
  | nil =>
    cases h
    exact hp
  | cons line rest ih =>
    obtain ⟨m, hm, hrest⟩ := analyse_lines_cons h
    exact ih hrest (analyse_line_pending hm hp)

/-- The line of a jump to `L`, assembled without a message: the jump is
emitted at the end of the list and recorded as a usage of `L` alone. -/
theorem analyse_line_jump {st st' : assembly} {line L : List Char} {code : instruction_code}
    (h : analyse_line st line = .ok st') (hq : st'.cout = []) (hc : consistent st)
    (hi : instruction_line line = true)
    (hcode : instructions.lookup (read_fields line).2.1 = some code)
    (hj : jump_family code = true) (hL : read_quoted (read_fields line).2.2 = L) :
    st'.program = st.program ++ [(code, 0)] ∧ is_identifier L = true ∧
    pending_at st' L (st.program.length : Int) := by
  obtain ⟨hlen, hn, hus⟩ := hc
  rcases (analyse_line_quiet h hq).2 with ⟨hi', -⟩ |
    ⟨-, -, ⟨code', hc', -, hid, rfl⟩ | ⟨code', ins, ns, lt, hc', hj', -, -⟩⟩
  · rw [hi] at hi'
    cases hi'
  · rw [hcode] at hc'
    cases hc'
    rw [hL] at hid ⊢
    refine ⟨by simp only [after_label_program], hid, ?_, ?_, ?_⟩
    · simp only [after_label_instruction_number]
      omega
    · have hfind := reference_label_find (after_label st line) L L
      rw [if_pos rfl] at hfind
      split at hfind
      · exact ⟨_, _, hfind, by
          simp only [after_label_instruction_number, List.mem_append, List.mem_singleton]
          right
          omega⟩
      · exact ⟨_, _, hfind, by
          simp only [after_label_instruction_number, List.mem_singleton]
          omega⟩
    · intro m f us hf hmem
      simp only at hf
      rcases reference_label_usages hf with hf' | ⟨hm, -⟩
      · rcases after_label_usages hf' with rfl | ⟨f', hf''⟩
        · cases hmem
        · have := usage_ok_lt (hus m f' us hf'' _ hmem)
          omega
      · exact hm
  · rw [hcode] at hc'
    cases hc'
    rw [hj] at hj'
    cases hj'

/-- The line that defines `L`, assembled without a message while a jump to
`L` is pending: one instruction is emitted and `L` gets the index of the line. -/
theorem analyse_line_label {st st' : assembly} {line L : List Char} {j : Int}
    (h : analyse_line st line = .ok st') (hq : st'.cout = [])
    (hi : instruction_line line = true) (hlab : (read_fields line).1 = L) (hL : L ≠ [])
    (hp : pending_at st L j) :
    ∃ ins us, st'.program = st.program ++ [ins] ∧
      labels_find st'.labels L = some (st.instruction_number + 1, us) ∧ j ∈ us := by
  obtain ⟨-, ⟨f0, us0, hf0, hj0⟩, -⟩ := hp
  have hne : (read_fields line).1 ≠ [] := by
    rw [hlab]
    exact hL
  have hquiet := analyse_line_quiet h hq
  have ha : (after_label st line).cout = [] := by
    rcases hquiet.2 with ⟨hi', -⟩ | ⟨-, ha, -⟩
    · rw [hi] at hi'
      cases hi'
    · exact ha
  have hf0' : f0 = -1 := by
    rw [after_label_cout, if_pos hne, hlab, hf0] at ha
    by_contra hc
    simp [hc] at ha
  subst hf0'
  have hfa : labels_find (after_label st line).labels L =
      some (st.instruction_number + 1, us0) := by
    rw [after_label_find, if_pos ⟨hne, hlab.symm⟩, hf0]
    simp
  rcases hquiet.2 with ⟨hi', -⟩ |
    ⟨-, -, ⟨code', hc', -, hid, rfl⟩ | ⟨code', ins, ns, lt, hc', hj', -, rfl⟩⟩
  · rw [hi] at hi'
    cases hi'
  · obtain ⟨us', hus', hsub⟩ := @reference_label_resolved _
      (read_quoted (read_fields line).2.2) _ _ _ hfa
    exact ⟨(code', 0), us', by simp only [after_label_program], hus', hsub _ hj0⟩
  · exact ⟨ins, us0, by simp only [after_label_program], hfa, hj0⟩

theorem analyse_lines_append_eq {st m : assembly} {a : List (List Char)} (b : List (List Char))
    (h : analyse_lines st a = .ok m) : analyse_lines st (a ++ b) = analyse_lines m b := by
  induction a generalizing st with
  | nil =>
    cases h
    rfl
  | cons line rest ih =>
    obtain ⟨m', hm', hrest⟩ := analyse_lines_cons h
    simp only [List.cons_append, analyse_lines, hm']
    exact ih hrest

theorem consistent_initial (s : session) : consistent (initial_assembly s) := by
  refine ⟨by simp [initial_assembly], by simp [initial_assembly], ?_⟩
  intro m f us hf
  simp [initial_assembly, labels_find] at hf

/-- A taken jump of the family moves the instruction pointer to its operand. -/
theorem step_jump_taken (v : vm) (code : instruction_code) (k : Nat)
    (hget : v.program.get? v.instruction_pointer = some (code, (k : Int)))
    (hj : jump_family code = true)
    (hneg : code = .jineg → v.accumulator < 0) (hzero : code = .jizero → v.accumulator = 0) :
    step v = .running { v with instruction_pointer := k } := by
  have hk : to_size_t (k : Int) = k := by
    simp [to_size_t]
  unfold step
  rw [hget]
  cases code <;> simp [jump_family] at hj
  · simp only [hk]
  · simp only [hk, if_pos (hneg rfl)]
  · simp only [hk, if_pos (hzero rfl)]

/-- C6: let `analyse_file` return without any message on a file in which the
instruction line `jump_line` holds a `JUMP`, `JINEG` or `JIZERO` (`code`) with
operand `L` and a later instruction line `label_line` has the label `L`. With
`j` the number of instruction lines before `jump_line` and `k` the number of
instruction lines before `label_line`: the instruction list holds `(code, k)`
at index `j`; the instruction at index `k` is the one `analyse_line` appended
for `label_line` (its code, and its operand too unless it is itself a jump);
and one turn of `run` at pointer `j`, the condition of the jump being true,
leaves the pointer at `k`. -/
theorem analyse_file_forward_jump (s : session) (file : List Char) (r : assembly)
    (pre mid post : List (List Char)) (jump_line label_line L : List Char)
    (code : instruction_code)
    (h : analyse_file s file = .ok r) (hquiet : r.cout = [])
    (hlines : getlines file = pre ++ jump_line :: (mid ++ label_line :: post))
    (hjump : instruction_line jump_line = true ∧
      instructions.lookup (read_fields jump_line).2.1 = some code ∧
      jump_family code = true ∧ read_quoted (read_fields jump_line).2.2 = L)
    (hlabel : instruction_line label_line = true ∧ (read_fields label_line).1 = L) :
    r.program.get? (pre.countP instruction_line) =
      some (code, (((pre ++ jump_line :: mid).countP instruction_line : Nat) : Int)) ∧
    (∃ st st' ins,
      analyse_lines (initial_assembly s) (pre ++ jump_line :: mid) = .ok st ∧
      analyse_line st label_line = .ok st' ∧ st'.program = st.program ++ [ins] ∧
      st.program.length = (pre ++ jump_line :: mid).countP instruction_line ∧
      (∃ d, r.program.get? ((pre ++ jump_line :: mid).countP instruction_line) =
        some (ins.1, d)) ∧
      (jump_family ins.1 = false →
        r.program.get? ((pre ++ jump_line :: mid).countP instruction_line) = some ins)) ∧
    ∀ v : vm, v.program = r.program → v.instruction_pointer = pre.countP instruction_line →
      (code = .jineg → v.accumulator < 0) → (code = .jizero → v.accumulator = 0) →
      step v = .running
        { v with instruction_pointer := (pre ++ jump_line :: mid).countP instruction_line } := by
  obtain ⟨hji, hjc, hjf, hjL⟩ := hjump
  obtain ⟨st5, st6, hrun, hlink, rfl⟩ := analyse_file_ok s file r h
  -- no message at any stage
  have hq6 : st6.cout = [] := by
    obtain ⟨-, t, ht⟩ := validate_basic st6
    rw [hquiet] at ht
    exact (List.append_eq_nil.mp ht.symm).1
  have hq5 : st5.cout = [] := by
    obtain ⟨-, -, t, ht⟩ := link_labels_basic hlink
    rw [hq6] at ht
    exact (List.append_eq_nil.mp ht.symm).1
  rw [hlines] at hrun
  have hrun0 := hrun
  obtain ⟨s1, hs1, hrun⟩ := analyse_lines_append hrun
  obtain ⟨s2, hs2, hrun⟩ := analyse_lines_cons hrun
  obtain ⟨s3, hs3, hrun⟩ := analyse_lines_append hrun
  obtain ⟨s4, hs4, hs5⟩ := analyse_lines_cons hrun
  have hq4 : s4.cout = [] := analyse_lines_quiet hs5 hq5
  have hq3 : s3.cout = [] := (analyse_line_quiet hs4 hq4).1
  have hq2 : s2.cout = [] := analyse_lines_quiet hs3 hq3
  have hq1 : s1.cout = [] := (analyse_line_quiet hs2 hq2).1
  -- the lines before the jump
  have hc1 : consistent s1 := analyse_lines_consistent hs1 hq1 (consistent_initial s)
  have hn1 : s1.instruction_number = -1 + ((pre.countP instruction_line : Nat) : Int) := by
    rw [(analyse_lines_basic hs1).2.1]
    simp [initial_assembly]
  have hlen1 : s1.program.length = pre.countP instruction_line := by
    have := hc1.1
    omega
  -- the jump
  obtain ⟨hp2, hid, hpend2⟩ := analyse_line_jump hs2 hq2 hc1 hji hjc hjf hjL
  rw [hlen1] at hpend2
  have hc2 : consistent s2 := analyse_line_consistent hs2 hq2 hc1
  have hn2 : s2.instruction_number = ((pre.countP instruction_line : Nat) : Int) := by
    rw [(analyse_line_basic hs2).2.1, hn1, if_pos hji]
    omega
  -- the lines between the jump and the label
  have hc3 : consistent s3 := analyse_lines_consistent hs3 hq3 hc2
  have hpend3 := analyse_lines_pending hs3 hpend2
  have hn3 : s3.instruction_number + 1 =
      (((pre ++ jump_line :: mid).countP instruction_line : Nat) : Int) := by
    rw [(analyse_lines_basic hs3).2.1, hn2]
    simp [List.countP_append, List.countP_cons, hji]
    ring
  have hlen3 : s3.program.length = (pre ++ jump_line :: mid).countP instruction_line := by
    have := hc3.1
    omega
  obtain ⟨p3, hp3⟩ := analyse_lines_program hs3
  -- the line of the label
  have hLne : L ≠ [] := by
    intro hc
    rw [hc] at hid
    simp [is_identifier] at hid
  obtain ⟨ins, us4, hp4, hf4, hj4⟩ := analyse_line_label hs4 hq4 hlabel.1 hlabel.2 hLne hpend3
  rw [hn3] at hf4
  have hk : (((pre ++ jump_line :: mid).countP instruction_line : Nat) : Int) ≠ -1 := by omega
  have hc4 : consistent s4 := analyse_line_consistent hs4 hq4 hc3
  have hpend4 := analyse_line_pending hs4 hpend3
  -- the rest of the file
  have hc5 : consistent st5 := analyse_lines_consistent hs5 hq5 hc4
  have hpend5 := analyse_lines_pending hs5 hpend4
  obtain ⟨us5, hf5, hsub5⟩ := analyse_lines_resolved hs5 hf4 hk
  obtain ⟨p5, hp5⟩ := analyse_lines_program hs5
  have hgetj : st5.program[pre.countP instruction_line]? = some (code, 0) := by
    rw [hp5, hp4, hp3, hp2, List.append_assoc, List.append_assoc, List.append_assoc,
      List.getElem?_append_right (by omega)]
    simp [hlen1]
  have hgetk : st5.program[(pre ++ jump_line :: mid).countP instruction_line]? = some ins := by
    rw [hp5, hp4, List.append_assoc, List.getElem?_append_right (by omega)]
    simp [hlen3]
  -- the linking pass
  have hall : ∀ e ∈ st5.labels, ((pre.countP instruction_line : Nat) : Int) ∈ e.2.2 →
      e.2.1 = (((pre ++ jump_line :: mid).countP instruction_line : Nat) : Int) := by
    intro e he hmem
    obtain ⟨m, f, us⟩ := e
    have hfind := labels_find_of_mem hc5.2.1 he
    have hm := hpend5.2.2 m f us hfind hmem
    subst hm
    rw [hf5] at hfind
    cases hfind
    rfl
  have hex : ∃ e ∈ st5.labels, ((pre.countP instruction_line : Nat) : Int) ∈ e.2.2 :=
    ⟨_, labels_find_mem hf5, hsub5 _ hj4⟩
  have hresj := (link_labels_get hlink _ code 0 hgetj).2.2 _ hk hall (Or.inr hex)
  obtain ⟨hresk1, hresk2, -⟩ := link_labels_get hlink _ ins.1 ins.2 hgetk
  have hunused : jump_family ins.1 = false → ∀ e ∈ st5.labels,
      ((((pre ++ jump_line :: mid).countP instruction_line : Nat) : Int)) ∉ e.2.2 := by
    intro hnj e he hmem
    obtain ⟨m, f, us⟩ := e
    have hfind := labels_find_of_mem hc5.2.1 he
    obtain ⟨-, c, d, hget, hjc'⟩ := hc5.2.2 m f us hfind _ hmem
    rw [List.get?_eq_getElem?] at hget
    simp only [Int.toNat_ofNat] at hget
    rw [hgetk] at hget
    cases hget
    rw [hnj] at hjc'
    cases hjc'
  refine ⟨?_, ⟨s3, s4, ins, ?_, hs4, hp4, hlen3, ?_, ?_⟩, ?_⟩
  · rw [validate_program, List.get?_eq_getElem?]
    exact hresj
  · rw [analyse_lines_append_eq _ hs1]
    simp only [analyse_lines, hs2]
    exact hs3
  · rw [validate_program, List.get?_eq_getElem?]
    exact hresk1
  · intro hnj
    rw [validate_program, List.get?_eq_getElem?]
    exact hresk2 (hunused hnj)
  · intro v hv hip hneg hzero
    refine step_jump_taken v code _ ?_ hjf hneg hzero
    rw [hv, hip, validate_program, List.get?_eq_getElem?]
    exact hresj

/-- Witness for C6: the file `  JUMP L` / `  OUT` / `L HALT`, whose jump at
index 0 gets the operand 2, the index of the `HALT` of the line of `L`. -/
theorem analyse_file_forward_jump_witness :
    ∃ r, analyse_file initial_session "  JUMP L\n  OUT\nL HALT\n".toList = .ok r ∧
      r.cout = [] ∧ r.program.get? 0 = some (.jump, 2) ∧
      (∀ v : vm, v.program = r.program → v.instruction_pointer = 0 →
        (instruction_code.jump = .jineg → v.accumulator < 0) →
        (instruction_code.jump = .jizero → v.accumulator = 0) →
        step v = .running { v with instruction_pointer := 2 }) :=
  ⟨{ program := [(.jump, 2), (.out, 0), (.halt, 0)], labels := [(['L'], 2, [0])]
     named_storage := [], literal_texts := [], accumulator := 0, error := false
     line_number := 3, instruction_number := 2, cout := [] },
   by decide, rfl,
   (analyse_file_forward_jump initial_session "  JUMP L\n  OUT\nL HALT\n".toList
     { program := [(.jump, 2), (.out, 0), (.halt, 0)], labels := [(['L'], 2, [0])]
       named_storage := [], literal_texts := [], accumulator := 0, error := false
       line_number := 3, instruction_number := 2, cout := [] }
     [] ["  OUT".toList] [] "  JUMP L".toList "L HALT".toList ['L'] .jump
     (by decide) (by decide) (by decide) (by decide) (by decide)).1,
   (analyse_file_forward_jump initial_session "  JUMP L\n  OUT\nL HALT\n".toList
     { program := [(.jump, 2), (.out, 0), (.halt, 0)], labels := [(['L'], 2, [0])]
       named_storage := [], literal_texts := [], accumulator := 0, error := false
       line_number := 3, instruction_number := 2, cout := [] }
     [] ["  OUT".toList] [] "  JUMP L".toList "L HALT".toList ['L'] .jump
     (by decide) (by decide) (by decide) (by decide) (by decide)).2.2⟩

/-! ### Decimal numerals -/

theorem digitChar_spec (r : Nat) (h : r < 10) :
    Nat.digitChar r ∈ "0123456789".toList ∧ digit_value (Nat.digitChar r) = r := by
  interval_cases r <;> decide

theorem digits_value_nil (acc : Nat) : digits_value acc [] = acc := rfl

theorem digits_value_cons (acc : Nat) (c : Char) (cs : List Char) :
    digits_value acc (c :: cs) = digits_value (acc * 10 + digit_value c) cs := rfl

theorem digits_value_append (acc : Nat) (xs ys : List Char) :
    digits_value acc (xs ++ ys) = digits_value (digits_value acc xs) ys := by
  induction xs generalizing acc with
  | nil => rw [List.nil_append, digits_value_nil]
  | cons c cs ih =>
    rw [List.cons_append, digits_value_cons, digits_value_cons]
    exact ih _

theorem toDigitsCore_spec (fuel n : Nat) (ds : List Char) (h : n < fuel) :
    ∃ xs, Nat.toDigitsCore 10 fuel n ds = xs ++ ds ∧ xs ≠ [] ∧
      (∀ c ∈ xs, c ∈ "0123456789".toList) ∧
      ∀ acc, digits_value acc xs = acc * 10 ^ xs.length + n := by
  induction fuel generalizing n ds with
  | zero => omega
  | succ fuel ih =>
    have hd := digitChar_spec (n % 10) (Nat.mod_lt _ (by decide))
    unfold Nat.toDigitsCore
    simp only
    by_cases h0 : n / 10 = 0
    · rw [if_pos h0]
      refine ⟨[Nat.digitChar (n % 10)], rfl, by simp, ?_, fun acc => ?_⟩
      · intro c hc
        rw [List.mem_singleton.mp hc]
        exact hd.1
      rw [digits_value_cons, digits_value_nil, hd.2, List.length_singleton, pow_one]
      omega
    · rw [if_neg h0]
      obtain ⟨xs, hxs, hne, hall, hval⟩ := ih (n / 10) (Nat.digitChar (n % 10) :: ds) (by omega)
      refine ⟨xs ++ [Nat.digitChar (n % 10)], by simp [hxs], by simp, ?_, fun acc => ?_⟩
      · intro c hc
        rcases List.mem_append.mp hc with hc | hc
        · exact hall c hc
        · simp only [List.mem_singleton] at hc
          rw [hc]
          exact hd.1
      · rw [digits_value_append, hval]
        rw [digits_value_cons, digits_value_nil, hd.2, List.length_append, List.length_singleton,
          pow_succ]
        have := Nat.div_add_mod n 10
        nlinarith [this]

/-- The decimal text of a natural number: a non-empty run of digits whose
value is the number. -/
theorem toDigits_spec (n : Nat) :
    Nat.toDigits 10 n ≠ [] ∧ (∀ c ∈ Nat.toDigits 10 n, c ∈ "0123456789".toList) ∧
    digits_value 0 (Nat.toDigits 10 n) = n := by
  obtain ⟨xs, hxs, hne, hall, hval⟩ := toDigitsCore_spec (n + 1) n [] (by omega)
  unfold Nat.toDigits
  rw [hxs, List.append_nil]
  exact ⟨hne, hall, by simpa using hval 0⟩


theorem digit_facts : ∀ c ∈ "0123456789".toList,
    c.isDigit = true ∧ is_space c = false ∧ alpha_or_underscore c = false ∧
    digit_or_underscore c = true ∧ c ≠ '"' ∧ c ≠ '\n' ∧ c ≠ '-' ∧ c ≠ '+' := by
  decide

theorem stoi_digits (ds : List Char) (hne : ds ≠ [])
    (hall : ∀ c ∈ ds, c ∈ "0123456789".toList) :
    stoi ds = (if 2147483647 < (digits_value 0 ds : Int) then .error .out_of_range
      else .ok (digits_value 0 ds : Int)) ∧
    stoi ('-' :: ds) = (if -(digits_value 0 ds : Int) < -2147483648 then .error .out_of_range
      else .ok (-(digits_value 0 ds : Int))) := by
  obtain ⟨c, cs, rfl⟩ := List.exists_cons_of_ne_nil hne
  have hc := digit_facts c (hall c (List.mem_cons_self _ _))
  have htake : (c :: cs).takeWhile Char.isDigit = c :: cs := by
    rw [List.takeWhile_eq_self_iff]
    intro d hd
    exact (digit_facts d (hall d hd)).1
  constructor
  · unfold stoi
    have hdrop : (c :: cs).dropWhile is_space = c :: cs := by
      rw [List.dropWhile_cons_of_neg (by simp [hc.2.1])]
    simp only [hdrop, List.head?_cons, Option.some.injEq, hc.2.2.2.2.2.2.1, hc.2.2.2.2.2.2.2,
      or_self, if_false, htake, reduceCtorEq, decide_False, Bool.false_eq_true]
    have h0 : (0 : Int) ≤ (digits_value 0 (c :: cs) : Int) := Int.ofNat_nonneg _
    have h1 : ¬ ((digits_value 0 (c :: cs) : Int) < -2147483648) := by omega
    simp only [h1, false_or]
  · unfold stoi
    have hdrop : ('-' :: c :: cs).dropWhile is_space = '-' :: c :: cs := by
      rw [List.dropWhile_cons_of_neg (by decide)]
    simp only [hdrop, List.head?_cons, true_or, if_true, List.tail_cons, htake, reduceCtorEq,
      if_false, decide_True]
    have h0 : (0 : Int) ≤ (digits_value 0 (c :: cs) : Int) := Int.ofNat_nonneg _
    have h1 : ¬ (2147483647 < -(digits_value 0 (c :: cs) : Int)) := by omega
    simp only [h1, or_false]

theorem int_text_cases (n : Int) :
    (0 ≤ n ∧ (toString n).toList = Nat.toDigits 10 n.toNat) ∨
    (n < 0 ∧ (toString n).toList = '-' :: Nat.toDigits 10 (-n).toNat) := by
  cases n with
  | ofNat m =>
    left
    exact ⟨Int.ofNat_nonneg m, rfl⟩
  | negSucc m =>
    right
    refine ⟨Int.negSucc_lt_zero m, ?_⟩
    have : (-Int.negSucc m).toNat = m + 1 := by
      simp [Int.neg_negSucc]
    rw [this]
    rfl

/-- The decimal text of a 32-bit integer as an operand: a token without
white space that `is_integer` accepts, `is_identifier` rejects and `std::stoi`
reads back. -/
theorem int_text_spec (n : Int) (hn : -2147483648 ≤ n ∧ n ≤ 2147483647) :
    ∃ c cs, (toString n).toList = c :: cs ∧ is_space c = false ∧ c ≠ '"' ∧
      (∀ d ∈ (toString n).toList, is_space d = false ∧ d ≠ '\n') ∧
      is_identifier (toString n).toList = false ∧ is_integer (toString n).toList = true ∧
      stoi (toString n).toList = .ok n := by
  rcases int_text_cases n with ⟨h0, htext⟩ | ⟨h0, htext⟩
  · obtain ⟨hne, hall, hval⟩ := toDigits_spec n.toNat
    obtain ⟨c, cs, hcs⟩ := List.exists_cons_of_ne_nil hne
    have hc := digit_facts c (hall c (by rw [hcs]; exact List.mem_cons_self _ _))
    refine ⟨c, cs, by rw [htext, hcs], hc.2.1, hc.2.2.2.2.1, ?_, ?_, ?_, ?_⟩
    · intro d hd
      rw [htext] at hd
      have := digit_facts d (hall d hd)
      exact ⟨this.2.1, this.2.2.2.2.2.1⟩
    · rw [htext, hcs]
      simp [is_identifier, hc.2.2.1]
    · rw [htext]
      have hall' : (Nat.toDigits 10 n.toNat).all digit_or_underscore = true := by
        rw [List.all_eq_true]
        intro d hd
        exact (digit_facts d (hall d hd)).2.2.2.1
      rw [hcs] at hall' ⊢
      simp only [is_integer, hc.2.2.2.2.2.2.1, hc.2.2.2.2.2.2.2, or_self, if_false]
      exact hall'
    · rw [htext, (stoi_digits _ hne hall).1, hval]
      have : ((n.toNat : Nat) : Int) = n := Int.toNat_of_nonneg h0
      rw [this, if_neg (by omega)]
  · obtain ⟨hne, hall, hval⟩ := toDigits_spec (-n).toNat
    refine ⟨'-', _, htext, by decide, by decide, ?_, ?_, ?_, ?_⟩
    · intro d hd
      rw [htext] at hd
      rcases List.mem_cons.mp hd with rfl | hd
      · decide
      · have := digit_facts d (hall d hd)
        exact ⟨this.2.1, this.2.2.2.2.2.1⟩
    · rw [htext]
      have : alpha_or_underscore '-' = false := by decide
      simp [is_identifier, this]
    · rw [htext]
      simp only [is_integer, or_true, if_true]
      rw [List.all_eq_true]
      intro d hd
      exact (digit_facts d (hall d hd)).2.2.2.1
    · rw [htext, (stoi_digits _ hne hall).2, hval]
      have : (((-n).toNat : Nat) : Int) = -n := Int.toNat_of_nonneg (by omega)
      rw [this, if_neg (by omega), neg_neg]

theorem dropWhile_indent (indent body : List Char) (h : ∀ c ∈ indent, c = ' ' ∨ c = '\t') :
    (indent ++ body).dropWhile is_space = body.dropWhile is_space := by
  induction indent with
  | nil => rfl
  | cons c cs ih =>
    have hc : is_space c = true := by
      rcases h c (List.mem_cons_self _ _) with rfl | rfl <;> decide
    rw [List.cons_append, List.dropWhile_cons_of_pos hc]
    exact ih (fun d hd => h d (List.mem_cons_of_mem _ hd))

/-- The fields of an indented line: no label, the first token of the body is
the instruction. -/
theorem read_fields_indented (indent body : List Char) (hne : indent ≠ [])
    (h : ∀ c ∈ indent, c = ' ' ∨ c = '\t') :
    read_fields (indent ++ body) = ([], read_token body) := by
  obtain ⟨c, cs, rfl⟩ := List.exists_cons_of_ne_nil hne
  have hhead : ((c :: cs) ++ body).head? = some ' ' ∨ ((c :: cs) ++ body).head? = some '\t' := by
    rcases h c (List.mem_cons_self _ _) with rfl | rfl
    · exact Or.inl rfl
    · exact Or.inr rfl
  unfold read_fields
  rw [if_pos hhead]
  unfold read_token
  simp only [dropWhile_indent _ _ h]

theorem getlines_append_newline (l rest : List Char) (h : ∀ c ∈ l, c ≠ '\n') :
    getlines (l ++ '\n' :: rest) = l :: getlines rest := by
  induction l with
  | nil => simp [getlines]
  | cons c cs ih =>
    have hc : c ≠ '\n' := h c (List.mem_cons_self _ _)
    rw [List.cons_append, getlines, if_neg hc, ih (fun d hd => h d (List.mem_cons_of_mem _ hd))]

theorem read_token_load (rest : List Char) :
    read_token ("LOAD ".toList ++ rest) = ("LOAD".toList, ' ' :: rest) := by
  have h : "LOAD ".toList ++ rest = 'L' :: 'O' :: 'A' :: 'D' :: ' ' :: rest := rfl
  rw [h]
  unfold read_token
  simp [List.dropWhile, List.takeWhile, is_space]
  try rfl

theorem read_quoted_token (c : Char) (cs : List Char) (hc : is_space c = false) (hq : c ≠ '"')
    (hall : ∀ d ∈ c :: cs, is_space d = false) : read_quoted (' ' :: c :: cs) = c :: cs := by
  unfold read_quoted
  have h1 : (' ' :: c :: cs).dropWhile is_space = c :: cs := by
    rw [List.dropWhile_cons_of_pos (by decide), List.dropWhile_cons_of_neg (by simp [hc])]
  rw [h1]
  simp only [hq, if_false]
  rw [List.takeWhile_eq_self_iff]
  intro d hd
  simp [hall d hd]

/-- The line `LOAD n`, indented, for a 32-bit integer `n` in decimal: one
`LOAD_DIRECT n` is emitted. -/
theorem analyse_line_load_integer (st : assembly) (indent : List Char) (n : Int)
    (hn : -2147483648 ≤ n ∧ n ≤ 2147483647) (hne : indent ≠ [])
    (hind : ∀ c ∈ indent, c = ' ' ∨ c = '\t') :
    analyse_line st (indent ++ ("LOAD ".toList ++ (toString n).toList)) =
      .ok { st with line_number := st.line_number + 1
                    instruction_number := st.instruction_number + 1
                    program := st.program ++ [(.load_direct, n)] } := by
  obtain ⟨c, cs, hdec, hsp, hq, hall, hid, hint, hstoi⟩ := int_text_spec n hn
  have hline : indent ++ ("LOAD ".toList ++ (toString n).toList) ≠ [] := by
    intro hc
    exact hne (List.append_eq_nil.mp hc).1
  have hfields : read_fields (indent ++ ("LOAD ".toList ++ (toString n).toList)) =
      ([], "LOAD".toList, ' ' :: (toString n).toList) := by
    rw [read_fields_indented _ _ hne hind, read_token_load]
  have hdata : read_quoted (' ' :: (toString n).toList) = (toString n).toList := by
    rw [hdec]
    exact read_quoted_token c cs hsp hq (fun d hd => (hall d (hdec ▸ hd)).1)
  have hlookup : instructions.lookup "LOAD".toList = some instruction_code.load := by decide
  unfold analyse_line
  simp only [hfields, hdata, hlookup, if_neg hline]
  have hload : "LOAD".toList ≠ [] := by decide
  simp only [assemble_instruction, assemble, hid, hint, hstoi, Bool.false_or, if_true,
    Bool.false_eq_true, if_false, if_neg hload, ne_eq, not_true_eq_false, false_and]

theorem analyse_line_out (st : assembly) (indent : List Char) (hne : indent ≠ [])
    (hind : ∀ c ∈ indent, c = ' ' ∨ c = '\t') :
    analyse_line st (indent ++ "OUT".toList) =
      .ok { st with line_number := st.line_number + 1
                    instruction_number := st.instruction_number + 1
                    program := st.program ++ [(.out, 0)] } := by
  have hline : indent ++ "OUT".toList ≠ [] := by
    intro hc
    exact hne (List.append_eq_nil.mp hc).1
  have hfields : read_fields (indent ++ "OUT".toList) = ([], "OUT".toList, []) := by
    rw [read_fields_indented _ _ hne hind]
    decide
  have hlookup : instructions.lookup "OUT".toList = some instruction_code.out := by decide
  unfold analyse_line
  simp only [hfields, hlookup, if_neg hline]
  simp [assemble_instruction]

theorem analyse_line_halt (st : assembly) (indent : List Char) (hne : indent ≠ [])
    (hind : ∀ c ∈ indent, c = ' ' ∨ c = '\t') :
    analyse_line st (indent ++ "HALT".toList) =
      .ok { st with line_number := st.line_number + 1
                    instruction_number := st.instruction_number + 1
                    program := st.program ++ [(.halt, 0)] } := by
  have hline : indent ++ "HALT".toList ≠ [] := by
    intro hc
    exact hne (List.append_eq_nil.mp hc).1
  have hfields : read_fields (indent ++ "HALT".toList) = ([], "HALT".toList, []) := by
    rw [read_fields_indented _ _ hne hind]
    decide
  have hlookup : instructions.lookup "HALT".toList = some instruction_code.halt := by decide
  unfold analyse_line
  simp only [hfields, hlookup, if_neg hline]
  simp [assemble_instruction]

/-- C7: for every 32-bit integer `n` written in decimal and every indentation
by spaces and tabs, the file of the three lines `LOAD n`, `OUT`, `HALT`
assembles on any session without a message, `analyse_file` returning `false`
with the instruction list `[LOAD_DIRECT n, OUT, HALT]`; `run` on it, on any
input and with three turns of the loop or more, writes the decimal text of `n`
then the halt notice and returns with the accumulator equal to `n`. -/
theorem analyse_file_run_load_out_halt (s : session) (cin : List Int) (n : Int)
    (i1 i2 i3 : List Char) (hn : -2147483648 ≤ n ∧ n ≤ 2147483647)
    (h1 : i1 ≠ [] ∧ ∀ c ∈ i1, c = ' ' ∨ c = '\t')
    (h2 : i2 ≠ [] ∧ ∀ c ∈ i2, c = ' ' ∨ c = '\t')
    (h3 : i3 ≠ [] ∧ ∀ c ∈ i3, c = ' ' ∨ c = '\t') :
    analyse_file s
        ((i1 ++ ("LOAD ".toList ++ (toString n).toList)) ++
          '\n' :: ((i2 ++ "OUT".toList) ++ '\n' :: ((i3 ++ "HALT".toList) ++ ['\n']))) =
      .ok { program := [(.load_direct, n), (.out, 0), (.halt, 0)], labels := []
            named_storage := [], literal_texts := [], accumulator := s.accumulator
            error := false, line_number := 3, instruction_number := 2, cout := [] } ∧
    ∀ fuel, 3 ≤ fuel →
      run fuel { program := [(.load_direct, n), (.out, 0), (.halt, 0)], labels := []
                 named_storage := [], literal_texts := [], accumulator := s.accumulator } cin =
        .returned { program := [(.load_direct, n), (.out, 0), (.halt, 0)], labels := []
                    named_storage := [], literal_texts := [], accumulator := n
                    instruction_pointer := 3, cin := cin
                    cout := [toString n, "Program halted.\n"] } := by
  constructor
  · obtain ⟨c, cs, hdec, hsp, hq, hall, -⟩ := int_text_spec n hn
    have hnl : ∀ i : List Char, (∀ c ∈ i, c = ' ' ∨ c = '\t') → ∀ c ∈ i, c ≠ '\n' := by
      intro i hi c hc
      rcases hi c hc with rfl | rfl <;> decide
    have hl1 : ∀ c ∈ i1 ++ ("LOAD ".toList ++ (toString n).toList), c ≠ '\n' := by
      intro c hc
      rcases List.mem_append.mp hc with hc | hc
      · exact hnl i1 h1.2 c hc
      · rcases List.mem_append.mp hc with hc | hc
        · exact (by decide : ∀ c ∈ "LOAD ".toList, c ≠ '\n') c hc
        · exact (hall c hc).2
    have hl2 : ∀ c ∈ i2 ++ "OUT".toList, c ≠ '\n' := by
      intro c hc
      rcases List.mem_append.mp hc with hc | hc
      · exact hnl i2 h2.2 c hc
      · exact (by decide : ∀ c ∈ "OUT".toList, c ≠ '\n') c hc
    have hl3 : ∀ c ∈ i3 ++ "HALT".toList, c ≠ '\n' := by
      intro c hc
      rcases List.mem_append.mp hc with hc | hc
      · exact hnl i3 h3.2 c hc
      · exact (by decide : ∀ c ∈ "HALT".toList, c ≠ '\n') c hc
    unfold analyse_file
    rw [getlines_append_newline _ _ hl1, getlines_append_newline _ _ hl2,
      getlines_append_newline _ _ hl3]
    simp only [getlines, analyse_lines, analyse_line_load_integer _ _ _ hn h1.1 h1.2,
      analyse_line_out _ _ h2.1 h2.2, analyse_line_halt _ _ h3.1 h3.2]
    simp [initial_assembly, link_labels, validate]
  · intro fuel hfuel
    obtain ⟨k, rfl⟩ : ∃ k, fuel = k + 3 := ⟨fuel - 3, by omega⟩
    simp [run, run_loop, step]

/-- Witness for C7: `n = 5`, two spaces in front of each line. -/
theorem analyse_file_run_load_out_halt_witness :
    analyse_file initial_session "  LOAD 5\n  OUT\n  HALT\n".toList =
      .ok { program := [(.load_direct, 5), (.out, 0), (.halt, 0)], labels := []
            named_storage := [], literal_texts := [], accumulator := 0
            error := false, line_number := 3, instruction_number := 2, cout := [] } ∧
    ∀ fuel, 3 ≤ fuel →
      run fuel { program := [(.load_direct, 5), (.out, 0), (.halt, 0)], labels := []
                 named_storage := [], literal_texts := [], accumulator := 0 } [] =
        .returned { program := [(.load_direct, 5), (.out, 0), (.halt, 0)], labels := []
                    named_storage := [], literal_texts := [], accumulator := 5
                    instruction_pointer := 3, cin := []
                    cout := ["5", "Program halted.\n"] } :=
  analyse_file_run_load_out_halt initial_session [] 5 "  ".toList "  ".toList "  ".toList
    (by decide) (by decide) (by decide) (by decide)

/-! ### Claims on single messages, on `run` and on one turn of its loop -/

/-- C11: the label `L` defined on line 2 and again on line 4 of the file
(empty line) / `L OUT` / (empty line) / `L HALT`. The message names line 4 as
the place of the duplicate and 0, the instruction index kept in the label
table, as the line of the first encounter, where the first definition stands
on line 2. -/
theorem analyse_file_duplicate_label_origin :
    analyse_file initial_session "\nL OUT\n\nL HALT\n".toList =
      .ok { program := [(.out, 0), (.halt, 0)], labels := [(['L'], 0, [])]
            named_storage := [], literal_texts := [], accumulator := 0
            error := true, line_number := 4, instruction_number := 1
            cout := [.duplicate_label ['L'] 4 0] } ∧
    (diagnostic.duplicate_label ['L'] 4 0).text =
      "Duplicate Label L found at line 4 first encountered at line 0.\n" := by
  constructor <;> decide

/-- C13: the line `LOAD` without operand. The empty operand is accepted by
`is_integer` and not by `is_identifier`, so `assemble` calls `std::stoi("")`,
which throws `std::invalid_argument`: `analyse_file` does not return. The
operands `+` and `99999999999` are accepted in the same way and make
`std::stoi` throw, and `12_3` is assembled as `LOAD_DIRECT 12`. -/
theorem analyse_file_load_without_operand :
    (is_integer [] = true ∧ is_identifier [] = false ∧
      analyse_file initial_session "  LOAD\n  HALT\n".toList = .error .invalid_argument) ∧
    (is_integer ['+'] = true ∧ is_identifier ['+'] = false ∧
      analyse_file initial_session "  ADD +\n  HALT\n".toList = .error .invalid_argument) ∧
    (is_integer "99999999999".toList = true ∧ is_identifier "99999999999".toList = false ∧
      analyse_file initial_session "  LOAD 99999999999\n  HALT\n".toList =
        .error .out_of_range) ∧
    (is_integer "12_3".toList = true ∧ is_identifier "12_3".toList = false ∧
      analyse_file initial_session "  LOAD 12_3\n  HALT\n".toList =
        .ok { program := [(.load_direct, 12), (.halt, 0)], labels := []
              named_storage := [], literal_texts := [], accumulator := 0
              error := false, line_number := 2, instruction_number := 1, cout := [] }) := by
  refine ⟨?_, ?_, ?_, ?_⟩ <;> decide

/-- C16: on a session whose instruction list is not empty, `run` enters its
loop at pointer 0 with the accumulator set to 0, whatever the accumulator
held; so two sessions that differ in the accumulator alone give the same
outcome of `run` (output, final accumulator, final stores and all the rest)
for every input and every number of turns. -/
theorem run_resets_accumulator (fuel : Nat) (s : session) (cin : List Int) (a b : Int)
    (h : s.program ≠ []) :
    run fuel { s with accumulator := a } cin =
      run_loop fuel { s with accumulator := 0, instruction_pointer := 0, cin := cin, cout := [] } ∧
    run fuel { s with accumulator := a } cin = run fuel { s with accumulator := b } cin := by
  have key : ∀ x : Int, run fuel { s with accumulator := x } cin =
      run_loop fuel { s with accumulator := 0, instruction_pointer := 0, cin := cin,
                             cout := [] } := by
    intro x
    unfold run
    rw [if_neg h]
  exact ⟨key a, by rw [key a, key b]⟩

/-- Witness for C16: the program `OUT` / `HALT` after accumulators 7 and -3. -/
theorem run_resets_accumulator_witness :
    run 2 { program := [(.out, 0), (.halt, 0)], labels := [], named_storage := []
            literal_texts := [], accumulator := 7 } [] =
      run 2 { program := [(.out, 0), (.halt, 0)], labels := [], named_storage := []
              literal_texts := [], accumulator := -3 } [] :=
  (run_resets_accumulator 2
    { program := [(.out, 0), (.halt, 0)], labels := [], named_storage := []
      literal_texts := [], accumulator := 0 } [] 7 (-3) (by decide)).2

/-- What a turn of the loop of `run` leaves alone: the instruction list, the
literal texts and the labels always, the named stores unless the instruction
is a `STORE`; and the pointer is one past the fetch unless the instruction is
a jump. -/
theorem step_frame {v v' : vm} {c : instruction_code} {d : Int}
    (hget : v.program.get? v.instruction_pointer = some (c, d))
    (h : step v = .running v' ∨ step v = .returned v') :
    v'.program = v.program ∧ v'.literal_texts = v.literal_texts ∧ v'.labels = v.labels ∧
    (c ≠ .store → v'.named_storage = v.named_storage) ∧
    (jump_family c = false → v'.instruction_pointer = v.instruction_pointer + 1) := by
  unfold step at h
  rw [hget] at h
  cases c <;> simp only [with_store, divide_accumulator] at h <;>
    (repeat' split at h) <;> rcases h with h | h <;> cases h <;> simp [jump_family]


/-- C19: in every state of the machine, `STORE s` on an existing slot `s`
goes on with that slot holding the accumulator under its old name, every other
slot, the accumulator, the instruction list and the literal texts as they
were; a turn of the loop on any other instruction leaves the whole bank of
named stores as it was; and no instruction changes the instruction list or
the literal texts. -/
theorem step_store_only_writes_slot (v : vm) :
    (∀ (s : Int) (name : List Char) (old : Int),
      v.program.get? v.instruction_pointer = some (.store, s) →
      at_index v.named_storage s = some (name, old) →
      step v = .running
          { v with instruction_pointer := v.instruction_pointer + 1
                   named_storage := v.named_storage.set s.toNat (name, v.accumulator) } ∧
        at_index (v.named_storage.set s.toNat (name, v.accumulator)) s =
          some (name, v.accumulator) ∧
        (∀ n : Nat, n ≠ s.toNat →
          (v.named_storage.set s.toNat (name, v.accumulator)).get? n = v.named_storage.get? n) ∧
        (v.named_storage.set s.toNat (name, v.accumulator)).map Prod.fst =
          v.named_storage.map Prod.fst) ∧
    (∀ (c : instruction_code) (d : Int) (v' : vm),
      v.program.get? v.instruction_pointer = some (c, d) →
      (step v = .running v' ∨ step v = .returned v') →
      v'.program = v.program ∧ v'.literal_texts = v.literal_texts ∧
        (c ≠ .store → v'.named_storage = v.named_storage)) := by
  refine ⟨fun s name old hget hslot => ?_, fun c d v' hget h => ?_⟩
  · have h0 : 0 ≤ s := by
      unfold at_index at hslot
      by_contra hc
      rw [if_neg hc] at hslot
      cases hslot
    have hslot' : v.named_storage[s.toNat]? = some (name, old) := by
      unfold at_index at hslot
      rw [if_pos h0, List.get?_eq_getElem?] at hslot
      exact hslot
    have hlt : s.toNat < v.named_storage.length := by
      by_contra hge
      rw [List.getElem?_eq_none (by omega)] at hslot'
      cases hslot'
    refine ⟨?_, ?_, ?_, ?_⟩
    · unfold step
      rw [hget]
      simp only [modify_index, hslot]
    · unfold at_index
      rw [if_pos h0, List.get?_eq_getElem?]
      simp [List.getElem?_set, hlt]
    · intro n hn
      rw [List.get?_eq_getElem?, List.get?_eq_getElem?]
      simp [List.getElem?_set, Ne.symm hn]
    · apply List.ext_getElem?
      intro n
      by_cases hn : s.toNat = n
      · subst hn
        have hname : v.named_storage[s.toNat].1 = name := by
          rw [List.getElem?_eq_getElem hlt] at hslot'
          rw [Option.some.inj hslot']
        simp [List.getElem?_set, hlt, hname]
      · simp [List.getElem?_set, hn]
  · obtain ⟨h1, h2, -, h3, -⟩ := step_frame hget h
    exact ⟨h1, h2, h3⟩

/-- Witness for C19: `STORE 1` with accumulator 9 on the stores `a = 1`, `b = 2`. -/
theorem step_store_only_writes_slot_witness :
    step { program := [(.store, 1), (.halt, 0)], labels := []
           named_storage := [(['a'], 1), (['b'], 2)], literal_texts := [], accumulator := 9
           instruction_pointer := 0, cin := [], cout := [] } =
      .running { program := [(.store, 1), (.halt, 0)], labels := []
                 named_storage := [(['a'], 1), (['b'], 9)], literal_texts := []
                 accumulator := 9, instruction_pointer := 1, cin := [], cout := [] } :=
  ((step_store_only_writes_slot
    { program := [(.store, 1), (.halt, 0)], labels := []
      named_storage := [(['a'], 1), (['b'], 2)], literal_texts := [], accumulator := 9
      instruction_pointer := 0, cin := [], cout := [] }).1 1 ['b'] 2 (by decide) (by decide)).1

/-- The instructions whose turn of the loop is defined in every state go on:
`IN`, `OUT`, `LINE` and the direct forms of `LOAD`, `ADD`, `SUBTRACT` and
`MULTIPLY`; so do `STORE` and the indirect forms of these four on an existing
slot. -/
theorem step_progress {v : vm} {c : instruction_code} {i : Int}
    (hget : v.program.get? v.instruction_pointer = some (c, i)) :
    (c = .in_ ∨ c = .out ∨ c = .line ∨ c = .load_direct ∨ c = .add_direct ∨
        c = .subtract_direct ∨ c = .multiply_direct → ∃ v', step v = .running v') ∧
    (c = .store ∨ c = .load_indirect ∨ c = .add_indirect ∨ c = .subtract_indirect ∨
        c = .multiply_indirect →
      (at_index v.named_storage i).isSome = true → ∃ v', step v = .running v') := by
  constructor
  · intro hc
    unfold step
    rw [hget]
    rcases hc with rfl | rfl | rfl | rfl | rfl | rfl | rfl
    · simp only
      split <;> exact ⟨_, rfl⟩
    all_goals exact ⟨_, rfl⟩
  · intro hc hs
    obtain ⟨slot, hslot⟩ := Option.isSome_iff_exists.mp hs
    unfold step
    rw [hget]
    rcases hc with rfl | rfl | rfl | rfl | rfl
    · simp only [modify_index, hslot]
      exact ⟨_, rfl⟩
    all_goals
      simp only [with_store, hslot]
      exact ⟨_, rfl⟩

/-- C20: in every state of the machine with pointer `p` and fetched
instruction `(c, i)`: `JUMP` goes on at the pointer `i` converted to `size_t`,
which is `i` itself for `0 ≤ i`; `JINEG` and `JIZERO` do so when the
accumulator is negative, respectively zero, and go on at `p + 1` otherwise;
in all three cases nothing but the pointer changes. An instruction that is
neither a jump nor `HALT` never returns from `run` and, when it goes on, goes
on at `p + 1`; and it does go on, at `p + 1`, when it is `IN`, `OUT`, `LINE` or
the direct form of `LOAD`, `ADD`, `SUBTRACT` or `MULTIPLY`, and when it is
`STORE` or the indirect form of one of these four on an existing slot. -/
theorem step_instruction_pointer (v : vm) (c : instruction_code) (i : Int)
    (hget : v.program.get? v.instruction_pointer = some (c, i)) :
    (c = .jump → step v = .running { v with instruction_pointer := to_size_t i }) ∧
    (c = .jineg → step v = .running
      { v with instruction_pointer :=
          if v.accumulator < 0 then to_size_t i else v.instruction_pointer + 1 }) ∧
    (c = .jizero → step v = .running
      { v with instruction_pointer :=
          if v.accumulator = 0 then to_size_t i else v.instruction_pointer + 1 }) ∧
    (0 ≤ i → ((to_size_t i : Nat) : Int) = i) ∧
    (jump_family c = false → c ≠ .halt →
      (∀ v', step v ≠ .returned v') ∧
      ∀ v', step v = .running v' → v'.instruction_pointer = v.instruction_pointer + 1) ∧
    (c = .in_ ∨ c = .out ∨ c = .line ∨ c = .load_direct ∨ c = .add_direct ∨
        c = .subtract_direct ∨ c = .multiply_direct →
      ∃ v', step v = .running v' ∧ v'.instruction_pointer = v.instruction_pointer + 1) ∧
    (c = .store ∨ c = .load_indirect ∨ c = .add_indirect ∨ c = .subtract_indirect ∨
        c = .multiply_indirect →
      (at_index v.named_storage i).isSome = true →
      ∃ v', step v = .running v' ∧ v'.instruction_pointer = v.instruction_pointer + 1) := by
  refine ⟨?_, ?_, ?_, ?_, ?_, ?_, ?_⟩
  · rintro rfl
    unfold step
    rw [hget]
  · rintro rfl
    unfold step
    rw [hget]
    simp only
    split <;> rfl
  · rintro rfl
    unfold step
    rw [hget]
    simp only
    split <;> rfl
  · intro h0
    unfold to_size_t
    rw [if_pos h0]
    exact Int.toNat_of_nonneg h0
  · intro hj hh
    refine ⟨fun v' hret => ?_, fun v' hrun => (step_frame hget (Or.inl hrun)).2.2.2.2 hj⟩
    unfold step at hret
    rw [hget] at hret
    cases c <;> simp only [with_store, divide_accumulator] at hret <;>
      (repeat' split at hret) <;> first | exact absurd rfl hh | cases hret
  · intro hc
    obtain ⟨v', hv'⟩ := (step_progress hget).1 hc
    refine ⟨v', hv', (step_frame hget (Or.inl hv')).2.2.2.2 ?_⟩
    rcases hc with rfl | rfl | rfl | rfl | rfl | rfl | rfl <;> decide
  · intro hc hs
    obtain ⟨v', hv'⟩ := (step_progress hget).2 hc hs
    refine ⟨v', hv', (step_frame hget (Or.inl hv')).2.2.2.2 ?_⟩
    rcases hc with rfl | rfl | rfl | rfl | rfl <;> decide

/-- Witness for C20: `JINEG 5` at pointer 2 with accumulator -1 goes on at 5. -/
theorem step_instruction_pointer_witness :
    step { program := [(.out, 0), (.out, 0), (.jineg, 5)], labels := [], named_storage := []
           literal_texts := [], accumulator := -1, instruction_pointer := 2, cin := []
           cout := [] } =
      .running { program := [(.out, 0), (.out, 0), (.jineg, 5)], labels := []
                 named_storage := [], literal_texts := [], accumulator := -1
                 instruction_pointer := 5, cin := [], cout := [] } :=
  (step_instruction_pointer
    { program := [(.out, 0), (.out, 0), (.jineg, 5)], labels := [], named_storage := []
      literal_texts := [], accumulator := -1, instruction_pointer := 2, cin := []
      cout := [] } .jineg 5 (by decide)).2.1 rfl

/-! ### The accumulator of the session during a load -/

theorem define_label_accumulator (a : Int) (st : assembly) (label : List Char) :
    define_label (with_accumulator a st) label = with_accumulator a (define_label st label) := by
  unfold define_label with_accumulator
  simp only
  split
  · split <;> rfl
  · rfl

theorem reference_label_accumulator (a : Int) (st : assembly) (data : List Char) :
    reference_label (with_accumulator a st) data =
      with_accumulator a (reference_label st data) := by
  unfold reference_label with_accumulator
  simp only
  split <;> rfl

theorem assemble_accumulator (a : Int) (st : assembly) (data : List Char)
    (direct indirect : instruction_code) (identifier : Bool) :
    assemble (with_accumulator a st) data direct indirect identifier =
      (assemble st data direct indirect identifier).map (with_accumulator a) := by
  unfold assemble with_accumulator
  simp only
  split
  · rfl
  · split <;> rfl

theorem arithmetic_case_accumulator (a : Int) (st : assembly) (code : instruction_code)
    (data : List Char) (direct indirect : instruction_code) :
    arithmetic_case (with_accumulator a st) code data direct indirect =
      (arithmetic_case st code data direct indirect).map (with_accumulator a) := by
  unfold arithmetic_case check_and_assemble
  rw [assemble_accumulator]
  by_cases hc : (is_identifier data || is_integer data) = true
  · rw [if_pos hc, if_pos hc]
    cases assemble st data direct indirect (is_identifier data) <;> rfl
  · rw [if_neg hc, if_neg hc]
    rfl

theorem assemble_instruction_accumulator (a : Int) (st : assembly) (code : instruction_code)
    (data : List Char) :
    assemble_instruction (with_accumulator a st) code data =
      (assemble_instruction st code data).map (with_accumulator a) := by
  cases code <;>
    simp only [assemble_instruction, arithmetic_case_accumulator, assemble_accumulator,
      reference_label_accumulator] <;>
    first
    | rfl
    | (split <;> rfl)


theorem analyse_line_accumulator (a : Int) (st : assembly) (line : List Char) :
    analyse_line (with_accumulator a st) line =
      (analyse_line st line).map (with_accumulator a) := by
  have hw : ∀ (ln inum : Int),
      ({ with_accumulator a st with line_number := ln, instruction_number := inum } : assembly) =
        with_accumulator a { st with line_number := ln, instruction_number := inum } :=
    fun _ _ => rfl
  unfold analyse_line
  by_cases hl : line = []
  · simp only [if_pos hl]
    rfl
  · by_cases hi : (read_fields line).2.1 = []
    · simp only [if_neg hl, if_pos hi]
      rfl
    · by_cases hlab : (read_fields line).1 ≠ [] ∧ is_identifier (read_fields line).1 = false
      · simp only [if_neg hl, if_neg hi, if_pos hlab]
        rfl
      · by_cases hne : (read_fields line).1 ≠ []
        · simp only [if_neg hl, if_neg hi, if_neg hlab, if_pos hne, hw, define_label_accumulator]
          cases instructions.lookup (read_fields line).2.1 with
          | none => rfl
          | some code => exact assemble_instruction_accumulator _ _ _ _
        · simp only [if_neg hl, if_neg hi, if_neg hlab, if_neg hne, hw]
          cases instructions.lookup (read_fields line).2.1 with
          | none => rfl
          | some code => exact assemble_instruction_accumulator _ _ _ _

theorem analyse_lines_accumulator (a : Int) (st : assembly) (lines : List (List Char)) :
    analyse_lines (with_accumulator a st) lines =
      (analyse_lines st lines).map (with_accumulator a) := by
  induction lines generalizing st with
  | nil => rfl
  | cons line rest ih =>
    simp only [analyse_lines, analyse_line_accumulator]
    cases analyse_line st line with
    | error e => rfl
    | ok st' => exact ih st'

theorem link_labels_accumulator (a : Int) (st : assembly)
    (entries : List (List Char × Int × List Int)) :
    link_labels (with_accumulator a st) entries =
      (link_labels st entries).map (with_accumulator a) := by
  induction entries generalizing st with
  | nil => rfl
  | cons e rest ih =>
    obtain ⟨name, first, usages⟩ := e
    simp only [link_labels]
    split
    · exact ih { st with error := true, cout := st.cout ++ [.unresolved_label name] }
    · have hp : (with_accumulator a st).program = st.program := rfl
      rw [hp]
      cases patch_usages st.program first usages with
      | error e => rfl
      | ok program' => exact ih { st with program := program' }

theorem validate_accumulator (a : Int) (st : assembly) :
    validate (with_accumulator a st) = with_accumulator a (validate st) := by
  unfold validate with_accumulator
  simp only
  split <;> split <;> rfl

/-- The session enters `analyse_file` through its accumulator alone, which
is handed on untouched. -/
theorem analyse_file_accumulator (s : session) (file : List Char) :
    analyse_file s file =
      (analyse_file initial_session file).map (with_accumulator s.accumulator) := by
  have hinit : initial_assembly s = with_accumulator s.accumulator (initial_assembly initial_session) :=
    rfl
  unfold analyse_file
  rw [hinit, analyse_lines_accumulator]
  cases analyse_lines (initial_assembly initial_session) (getlines file) with
  | error e => rfl
  | ok st =>
    have hl : (with_accumulator s.accumulator st).labels = st.labels := rfl
    simp only [Except.map, hl, link_labels_accumulator]
    cases link_labels st st.labels with
    | error e => rfl
    | ok st' =>
      simp only [Except.map, validate_accumulator]

/-- C17: on every file, `analyse_file` started from any two sessions comes to
the same end: it fails to return in the same way for both, or it returns for
both with the same instruction list, label table, named stores, literal
texts, messages and returned flag. Nothing of the tables of the session it
starts from enters the result. -/
theorem analyse_file_forgets_session (s1 s2 : session) (file : List Char) :
    (analyse_file s1 file).map (fun r =>
        (r.program, r.labels, r.named_storage, r.literal_texts, r.error, r.cout)) =
      (analyse_file s2 file).map (fun r =>
        (r.program, r.labels, r.named_storage, r.literal_texts, r.error, r.cout)) := by
  rw [analyse_file_accumulator s1, analyse_file_accumulator s2]
  cases analyse_file initial_session file with
  | error e => rfl
  | ok r => rfl

/-! ### A rejected operand of `STORE` -/

/-- An instruction line with the mnemonic `STORE` whose operand is no
identifier: the line is reported, for its label if that is malformed and for
its operand otherwise, and the flag is set. -/
theorem analyse_line_store_rejected (st : assembly) (line : List Char)
    (hi : instruction_line line = true) (hm : (read_fields line).2.1 = "STORE".toList)
    (hop : is_identifier (read_quoted (read_fields line).2.2) = false) :
    analyse_line st line = .ok
      (if (read_fields line).1 ≠ [] ∧ is_identifier (read_fields line).1 = false then
        { st with line_number := st.line_number + 1
                  instruction_number := st.instruction_number + 1
                  error := true
                  cout := st.cout ++ [.label_format (read_fields line).1 (st.line_number + 1)] }
      else
        { after_label st line with
            error := true
            cout := (after_label st line).cout ++
              [.operand_format .store (read_quoted (read_fields line).2.2)
                (st.line_number + 1)] }) := by
  have hl : line ≠ [] := by
    intro hc
    simp [instruction_line, hc] at hi
  have hne : (read_fields line).2.1 ≠ [] := by
    rw [hm]
    decide
  have hlookup : instructions.lookup "STORE".toList = some instruction_code.store := by decide
  unfold analyse_line
  simp only [if_neg hl, if_neg hne]
  by_cases hlab : (read_fields line).1 ≠ [] ∧ is_identifier (read_fields line).1 = false
  · simp only [if_pos hlab]
  · simp only [if_neg hlab, hm, hlookup, assemble_instruction, hop, Bool.false_eq_true, if_false]
    have hline : (after_label st line).line_number = st.line_number + 1 :=
      after_label_line_number st line
    unfold after_label at hline ⊢
    rw [hline]


/-- C12, the failing case: on `5 STORE 5` / `  HALT` the line of the `STORE` is
reported for its label `5` only; no message for the operand is written. -/
theorem analyse_file_store_malformed_label :
    analyse_file initial_session "5 STORE 5\n  HALT\n".toList =
      .ok { program := [(.halt, 0)], labels := [], named_storage := [], literal_texts := []
            accumulator := 0, error := true, line_number := 2, instruction_number := 1
            cout := [.label_format ['5'] 1] } ∧
    (read_fields "5 STORE 5".toList).2.1 = "STORE".toList ∧
    is_identifier (read_quoted (read_fields "5 STORE 5".toList).2.2) = false ∧
    diagnostic.operand_format .store ['5'] 1 ∉ [diagnostic.label_format ['5'] 1] := by
  refine ⟨?_, ?_, ?_, ?_⟩ <;> decide

/-- C12: let `analyse_file` return on a file one of whose instruction lines
has the mnemonic `STORE` and an operand that is no identifier (a number, or
none). Then the value returned is `true`; the message for the operand of
that line has been written when the label of the line is absent or
well-formed, the message for the label when it is malformed; and the line
itself leaves the instruction list and the named stores as they were. -/
theorem analyse_file_store_operand_rejected (s : session) (file : List Char) (r : assembly)
    (pre post : List (List Char)) (line : List Char)
    (h : analyse_file s file = .ok r) (hlines : getlines file = pre ++ line :: post)
    (hi : instruction_line line = true) (hm : (read_fields line).2.1 = "STORE".toList)
    (hop : is_identifier (read_quoted (read_fields line).2.2) = false) :
    r.error = true ∧
    ((read_fields line).1 = [] ∨ is_identifier (read_fields line).1 = true →
      diagnostic.operand_format .store (read_quoted (read_fields line).2.2)
        ((pre.length + 1 : Nat) : Int) ∈ r.cout) ∧
    ((read_fields line).1 ≠ [] ∧ is_identifier (read_fields line).1 = false →
      diagnostic.label_format (read_fields line).1 ((pre.length + 1 : Nat) : Int) ∈ r.cout) ∧
    ∃ st st', analyse_lines (initial_assembly s) pre = .ok st ∧
      analyse_line st line = .ok st' ∧ st'.program = st.program ∧
      st'.named_storage = st.named_storage := by
  obtain ⟨st3, st4, hrun, hlink, rfl⟩ := analyse_file_ok s file r h
  rw [hlines] at hrun
  obtain ⟨s1, hs1, hrun⟩ := analyse_lines_append hrun
  obtain ⟨s2, hs2, hs3⟩ := analyse_lines_cons hrun
  have hline := analyse_line_store_rejected s1 line hi hm hop
  rw [hline] at hs2
  have hl1 : s1.line_number + 1 = ((pre.length + 1 : Nat) : Int) := by
    rw [(analyse_lines_basic hs1).1]
    simp [initial_assembly]
  obtain ⟨-, -, he3, t3, hc3⟩ := analyse_lines_basic hs3
  obtain ⟨-, he4, t4, hc4⟩ := link_labels_basic hlink
  obtain ⟨he5, t5, hc5⟩ := validate_basic st4
  have hmem : ∀ d, d ∈ s2.cout → d ∈ (validate st4).cout := by
    intro d hd
    rw [hc5, hc4, hc3]
    exact List.mem_append_left _ (List.mem_append_left _ (List.mem_append_left _ hd))
  have hprog : (after_label s1 line).program = s1.program := after_label_program s1 line
  have hns : (after_label s1 line).named_storage = s1.named_storage := by
    unfold after_label
    split
    · rw [define_label_eq]
    · rfl
  by_cases hlab : (read_fields line).1 ≠ [] ∧ is_identifier (read_fields line).1 = false
  · rw [if_pos hlab] at hs2 hline
    cases hs2
    refine ⟨he5 (he4 (he3 rfl)), fun hok => ?_, fun _ => ?_, s1, _, hs1, hline, rfl, rfl⟩
    · rcases hok with hok | hok
      · exact absurd hok hlab.1
      · rw [hlab.2] at hok
        cases hok
    · apply hmem
      rw [← hl1]
      simp
  · rw [if_neg hlab] at hs2 hline
    cases hs2
    refine ⟨he5 (he4 (he3 rfl)), fun _ => ?_, fun hbad => absurd hbad hlab, s1, _, hs1, hline,
      hprog, hns⟩
    apply hmem
    rw [← hl1]
    simp

/-- Witness for C12: the line `  STORE 5` of the file `  STORE 5` / `  HALT`. -/
theorem analyse_file_store_operand_rejected_witness :
    ∃ r, analyse_file initial_session "  STORE 5\n  HALT\n".toList = .ok r ∧
      r.program = [(.halt, 0)] ∧ r.named_storage = [] ∧ r.error = true ∧
      (([] : List Char) = [] ∨ is_identifier [] = true →
        diagnostic.operand_format .store ['5'] 1 ∈ r.cout) :=
  ⟨{ program := [(.halt, 0)], labels := [], named_storage := [], literal_texts := []
     accumulator := 0, error := true, line_number := 2, instruction_number := 1
     cout := [.operand_format .store ['5'] 1] },
   by decide, rfl, rfl,
   (analyse_file_store_operand_rejected initial_session "  STORE 5\n  HALT\n".toList
     { program := [(.halt, 0)], labels := [], named_storage := [], literal_texts := []
       accumulator := 0, error := true, line_number := 2, instruction_number := 1
       cout := [.operand_format .store ['5'] 1] }
     [] ["  HALT".toList] "  STORE 5".toList
     (by decide) (by decide) (by decide) (by decide) (by decide)).1,
   (analyse_file_store_operand_rejected initial_session "  STORE 5\n  HALT\n".toList
     { program := [(.halt, 0)], labels := [], named_storage := [], literal_texts := []
       accumulator := 0, error := true, line_number := 2, instruction_number := 1
       cout := [.operand_format .store ['5'] 1] }
     [] ["  HALT".toList] "  STORE 5".toList
     (by decide) (by decide) (by decide) (by decide) (by decide)).2.1⟩

/-! ### The lexical classifier -/

theorem letter_iff (c : Char) : c.isAlpha = true ↔ letter c := by
  simp only [Char.isAlpha, Char.isUpper, Char.isLower, Bool.or_eq_true, Bool.and_eq_true,
    decide_eq_true_eq, letter]
  exact Iff.rfl

theorem decimal_digit_iff (c : Char) : c.isDigit = true ↔ decimal_digit c := by
  simp only [Char.isDigit, Bool.and_eq_true, decide_eq_true_eq, decimal_digit]
  exact Iff.rfl

theorem alpha_or_underscore_iff (c : Char) :
    alpha_or_underscore c = true ↔ letter c ∨ c = '_' := by
  simp only [alpha_or_underscore, Bool.or_eq_true, beq_iff_eq, letter_iff]
  exact or_comm

theorem alnum_or_underscore_iff (c : Char) :
    alnum_or_underscore c = true ↔ letter c ∨ decimal_digit c ∨ c = '_' := by
  simp only [alnum_or_underscore, Char.isAlphanum, Bool.or_eq_true, beq_iff_eq, letter_iff,
    decimal_digit_iff]
  tauto

theorem digit_or_underscore_iff (c : Char) :
    digit_or_underscore c = true ↔ decimal_digit c ∨ c = '_' := by
  simp only [digit_or_underscore, Bool.or_eq_true, beq_iff_eq, decimal_digit_iff]
  exact or_comm

/-- C14: for every string `t`, `is_identifier t` is true exactly when `t` is
not empty, its first character is a letter or an underscore and every later
character is a letter, a digit or an underscore, the whole string being
matched; so it is true on every string of the form `[A-Za-z_][A-Za-z0-9_]*`
and false on every string that holds a space. -/
theorem is_identifier_iff (t : List Char) :
    (is_identifier t = true ↔ identifier_text t) ∧ (' ' ∈ t → is_identifier t = false) := by
  constructor
  · cases t with
    | nil =>
      simp only [is_identifier, Bool.false_eq_true, false_iff]
      rintro ⟨c, cs, h, -⟩
      cases h
    | cons c cs =>
      simp only [is_identifier, Bool.and_eq_true, List.all_eq_true, alpha_or_underscore_iff,
        alnum_or_underscore_iff]
      constructor
      · rintro ⟨h1, h2⟩
        exact ⟨c, cs, rfl, h1, h2⟩
      · rintro ⟨c', cs', heq, h1, h2⟩
        cases heq
        exact ⟨h1, h2⟩
  · intro hsp
    cases t with
    | nil => rfl
    | cons c cs =>
      rw [← Bool.not_eq_true]
      simp only [is_identifier, Bool.and_eq_true, List.all_eq_true]
      rintro ⟨h1, h2⟩
      rcases List.mem_cons.mp hsp with rfl | hmem
      · exact absurd h1 (by decide)
      · exact absurd (h2 _ hmem) (by decide)

/-- Witness for C14: a space inside `a b`. -/
theorem is_identifier_iff_witness : is_identifier "a b".toList = false :=
  (is_identifier_iff "a b".toList).2 (by decide)


/-- C15, the failing case: the single underscore is accepted by `is_integer`
though it is no sign followed by decimal digits. -/
theorem is_integer_accepts_underscore :
    is_integer ['_'] = true ∧ ¬ integer_text ['_'] := by
  refine ⟨by decide, ?_⟩
  rintro ⟨sign, body, heq, hsign, hbody⟩
  rcases hsign with rfl | rfl | rfl
  · simp only [List.nil_append] at heq
    subst heq
    exact absurd (hbody '_' (List.mem_singleton.mpr rfl)) (by unfold decimal_digit; decide)
  · simp at heq
  · simp at heq

/-- C15: for every string `t`, `is_integer t` is true exactly when `t` is an
optional single `+` or `-` followed by zero or more characters each of which
is a decimal digit or an underscore, and nothing else; so the empty string
and a bare sign are accepted. -/
theorem is_integer_iff (t : List Char) :
    (is_integer t = true ↔ integer_or_underscore_text t) ∧
    is_integer [] = true ∧ is_integer ['+'] = true ∧ is_integer ['-'] = true := by
  refine ⟨?_, by decide, by decide, by decide⟩
  constructor
  · intro h
    cases t with
    | nil => exact ⟨[], [], rfl, Or.inl rfl, by simp⟩
    | cons c cs =>
      simp only [is_integer] at h
      split at h
      · rename_i hc
        rw [List.all_eq_true] at h
        refine ⟨[c], cs, rfl, ?_, fun d hd => (digit_or_underscore_iff d).mp (h d hd)⟩
        rcases hc with rfl | rfl
        · exact Or.inr (Or.inl rfl)
        · exact Or.inr (Or.inr rfl)
      · rw [List.all_eq_true] at h
        exact ⟨[], c :: cs, rfl, Or.inl rfl, fun d hd => (digit_or_underscore_iff d).mp (h d hd)⟩
  · rintro ⟨sign, body, rfl, hsign, hbody⟩
    have hall : body.all digit_or_underscore = true := by
      rw [List.all_eq_true]
      exact fun d hd => (digit_or_underscore_iff d).mpr (hbody d hd)
    rcases hsign with rfl | rfl | rfl
    · cases body with
      | nil => rfl
      | cons c cs =>
        have hc : ¬ (c = '+' ∨ c = '-') := by
          have := hbody c (List.mem_cons_self _ _)
          rintro (rfl | rfl) <;> exact absurd this (by unfold decimal_digit; decide)
        simp only [List.nil_append, is_integer, if_neg hc]
        exact hall
    · simp only [List.singleton_append, is_integer, true_or, if_true]
      exact hall
    · simp only [List.singleton_append, is_integer, or_true, if_true]
      exact hall

/-! ### The named stores -/

theorem get_store_index_present (ns : List (List Char × Int)) (x : List Char)
    (h : x ∈ ns.map Prod.fst) :
    get_store_index ns x =
      (ns, ((ns.findIdx (fun (e : List Char × Int) => e.1 == x) : Nat) : Int)) ∧
    ns.findIdx (fun (e : List Char × Int) => e.1 == x) < ns.length ∧
    ∃ v, ns.get? (ns.findIdx (fun (e : List Char × Int) => e.1 == x)) = some (x, v) := by
  have hex : ∃ e ∈ ns, (fun (e : List Char × Int) => e.1 == x) e = true := by
    obtain ⟨e, he, hx⟩ := List.mem_map.mp h
    exact ⟨e, he, by simp [hx]⟩
  have hlt := List.findIdx_lt_length_of_exists hex
  refine ⟨?_, hlt, ?_⟩
  · unfold get_store_index
    simp only [if_neg (Nat.ne_of_lt hlt)]
  · have hp := @List.findIdx_getElem _ (fun (e : List Char × Int) => e.1 == x) ns hlt
    simp only [beq_iff_eq] at hp
    refine ⟨(ns[ns.findIdx (fun (e : List Char × Int) => e.1 == x)]).2, ?_⟩
    rw [List.get?_eq_getElem?, List.getElem?_eq_getElem hlt]
    exact congrArg some (Prod.ext hp rfl)

theorem get_store_index_absent (ns : List (List Char × Int)) (x : List Char)
    (h : x ∉ ns.map Prod.fst) :
    get_store_index ns x = (ns ++ [(x, 0)], (ns.length : Int)) := by
  have hall : ∀ e ∈ ns, (fun (e : List Char × Int) => e.1 == x) e = false := by
    intro e he
    simp only [beq_eq_false_iff_ne, ne_eq]
    intro hc
    exact h (List.mem_map.mpr ⟨e, he, hc⟩)
  have heq := List.findIdx_eq_length_of_false hall
  unfold get_store_index
  simp only [heq, if_true]

theorem get_store_index_prefix (ns : List (List Char × Int)) (x : List Char) :
    ∃ t, (get_store_index ns x).1 = ns ++ t := by
  by_cases h : x ∈ ns.map Prod.fst
  · exact ⟨[], by rw [(get_store_index_present ns x h).1, List.append_nil]⟩
  · exact ⟨[(x, 0)], by rw [get_store_index_absent ns x h]⟩

theorem get_store_index_storage_ok {ns : List (List Char × Int)} (x : List Char)
    (hok : storage_ok ns) (hx : is_identifier x = true) :
    storage_ok (get_store_index ns x).1 := by
  by_cases h : x ∈ ns.map Prod.fst
  · rw [(get_store_index_present ns x h).1]
    exact hok
  · rw [get_store_index_absent ns x h]
    refine ⟨?_, ?_⟩
    · rw [List.map_append, List.nodup_append]
      refine ⟨hok.1, by simp, ?_⟩
      intro a ha hb
      simp only [List.map_cons, List.map_nil, List.mem_singleton] at hb
      exact h (hb ▸ ha)
    · intro e he
      rcases List.mem_append.mp he with he | he
      · exact hok.2 e he
      · simp only [List.mem_singleton] at he
        subst he
        exact ⟨hx, rfl⟩

theorem at_index_append {α : Type} {v : List α} {i : Int} {e : α} (t : List α)
    (h : at_index v i = some e) : at_index (v ++ t) i = some e := by
  unfold at_index at h ⊢
  split
  · rename_i h0
    rw [if_pos h0, List.get?_eq_getElem?] at h
    have hlt : i.toNat < v.length := by
      by_contra hge
      rw [List.getElem?_eq_none (by omega)] at h
      cases h
    rw [List.get?_eq_getElem?, List.getElem?_append_left hlt]
    exact h
  · rename_i h0
    rw [if_neg h0] at h
    cases h

/-- The index `get_store_index` returns is, in the bank it leaves, the place
of the slot with the name asked for. -/
theorem get_store_index_at {ns : List (List Char × Int)} (x : List Char)
    (hok : storage_ok ns) :
    at_index (get_store_index ns x).1 (get_store_index ns x).2 = some (x, 0) := by
  by_cases h : x ∈ ns.map Prod.fst
  · obtain ⟨h1, hlt, v, hv⟩ := get_store_index_present ns x h
    rw [h1]
    simp only [at_index, Int.toNat_ofNat, Int.ofNat_nonneg, Nat.cast_nonneg, if_true]
    rw [hv]
    have hmem : (x, v) ∈ ns := by
      rw [List.get?_eq_getElem?] at hv
      exact List.mem_iff_getElem?.mpr ⟨_, hv⟩
    have hv0 : v = 0 := (hok.2 _ hmem).2
    rw [hv0]
  · rw [get_store_index_absent ns x h]
    simp only [at_index, Int.toNat_ofNat, Nat.cast_nonneg, if_true]
    rw [List.get?_eq_getElem?]
    simp


theorem assemble_instruction_indirect (st : assembly) (code : instruction_code)
    (x : List Char) (hc : takes_store code = true) (hx : is_identifier x = true) :
    assemble_instruction st code x =
      .ok { st with named_storage := (get_store_index st.named_storage x).1
                    program := st.program ++
                      [(indirect_form code, (get_store_index st.named_storage x).2)] } := by
  cases code <;> simp [takes_store] at hc <;>
    simp [assemble_instruction, arithmetic_case, check_and_assemble, assemble, hx,
      indirect_form]

theorem assemble_storage {st st' : assembly} {data : List Char}
    {direct indirect : instruction_code} {identifier : Bool}
    (h : assemble st data direct indirect identifier = .ok st') :
    st'.named_storage = st.named_storage ∨
    (identifier = true ∧ st'.named_storage = (get_store_index st.named_storage data).1) := by
  unfold assemble at h
  split at h
  · rename_i hid
    cases h
    exact Or.inr ⟨hid, rfl⟩
  · split at h
    · cases h
      exact Or.inl rfl
    · cases h

theorem arithmetic_case_storage {st st' : assembly} {code : instruction_code}
    {data : List Char} {direct indirect : instruction_code}
    (h : arithmetic_case st code data direct indirect = .ok st') :
    st'.named_storage = st.named_storage ∨
    (is_identifier data = true ∧
      st'.named_storage = (get_store_index st.named_storage data).1) := by
  unfold arithmetic_case check_and_assemble at h
  by_cases hc : (is_identifier data || is_integer data) = true
  · rw [if_pos hc] at h
    cases ha : assemble st data direct indirect (is_identifier data) with
    | error e => rw [ha] at h; cases h
    | ok st1 =>
      rw [ha] at h
      cases h
      exact assemble_storage ha
  · rw [if_neg hc] at h
    cases h
    exact Or.inl rfl

/-- The named stores across the switch on the instruction code: they are left
alone, or `get_store_index` has been called on an operand that is an
identifier. -/
theorem assemble_instruction_storage {st st' : assembly} {code : instruction_code}
    {data : List Char} (h : assemble_instruction st code data = .ok st') :
    st'.named_storage = st.named_storage ∨
    (is_identifier data = true ∧
      st'.named_storage = (get_store_index st.named_storage data).1) := by
  cases code
  case load =>
    simp only [assemble_instruction] at h
    split at h
    · exact assemble_storage h
    · cases h
      exact Or.inl rfl
  case store =>
    simp only [assemble_instruction] at h
    split at h
    · rename_i hid
      cases h
      exact Or.inr ⟨hid, rfl⟩
    · cases h
      exact Or.inl rfl
  case add | subtract | multiply | divide =>
    all_goals
      simp only [assemble_instruction] at h
      exact arithmetic_case_storage h
  case jump | jineg | jizero =>
    all_goals
      simp only [assemble_instruction] at h
      split at h
      · cases h
        left
        rw [reference_label_eq]
      · cases h
        exact Or.inl rfl
  all_goals
    simp only [assemble_instruction] at h
    cases h
    exact Or.inl rfl

theorem after_label_named_storage (st : assembly) (line : List Char) :
    (after_label st line).named_storage = st.named_storage := by
  rw [after_label_eq]

theorem analyse_line_storage {st st' : assembly} {line : List Char}
    (h : analyse_line st line = .ok st') :
    st'.named_storage = st.named_storage ∨
    (is_identifier (read_quoted (read_fields line).2.2) = true ∧
      st'.named_storage =
        (get_store_index st.named_storage (read_quoted (read_fields line).2.2)).1) := by
  rcases analyse_line_ok h with ⟨-, rfl⟩ | ⟨-, ⟨-, -, rfl⟩ | ⟨-, ⟨-, rfl⟩ | ⟨code, -, ha⟩⟩⟩
  · exact Or.inl rfl
  · exact Or.inl rfl
  · exact Or.inl (after_label_named_storage st line)
  · have := assemble_instruction_storage ha
    rw [after_label_named_storage] at this
    exact this

theorem analyse_line_storage_ok {st st' : assembly} {line : List Char}
    (h : analyse_line st line = .ok st') (hok : storage_ok st.named_storage) :
    storage_ok st'.named_storage ∧ ∃ t, st'.named_storage = st.named_storage ++ t := by
  rcases analyse_line_storage h with heq | ⟨hid, heq⟩
  · rw [heq]
    exact ⟨hok, [], by simp⟩
  · rw [heq]
    exact ⟨get_store_index_storage_ok _ hok hid, get_store_index_prefix _ _⟩

theorem analyse_lines_storage_ok {st st' : assembly} {lines : List (List Char)}
    (h : analyse_lines st lines = .ok st') (hok : storage_ok st.named_storage) :
    storage_ok st'.named_storage ∧ ∃ t, st'.named_storage = st.named_storage ++ t := by
  induction lines generalizing st with
  | nil =>
    cases h
    exact ⟨hok, [], by simp⟩
  | cons line rest ih =>
    obtain ⟨m, hm, hrest⟩ := analyse_lines_cons h
    obtain ⟨hok1, t1, ht1⟩ := analyse_line_storage_ok hm hok
    obtain ⟨hok2, t2, ht2⟩ := ih hrest hok1
    exact ⟨hok2, t1 ++ t2, by rw [ht2, ht1, List.append_assoc]⟩

theorem link_labels_named_storage {st st' : assembly}
    {entries : List (List Char × Int × List Int)} (h : link_labels st entries = .ok st') :
    st'.named_storage = st.named_storage := by
  induction entries generalizing st with
  | nil =>
    cases h
    rfl
  | cons e rest ih =>
    obtain ⟨name, first, usages⟩ := e
    unfold link_labels at h
    split at h
    · have h1 := ih h
      exact h1
    · split at h
      · cases h
      · have h1 := ih h
        exact h1

theorem validate_named_storage (st : assembly) :
    (validate st).named_storage = st.named_storage := by
  unfold validate
  simp only
  split <;> split <;> rfl

theorem at_index_some {α : Type} {v : List α} {i : Int} {e : α} (h : at_index v i = some e) :
    0 ≤ i ∧ i.toNat < v.length ∧ v[i.toNat]? = some e := by
  unfold at_index at h
  split at h
  · rename_i h0
    rw [List.get?_eq_getElem?] at h
    refine ⟨h0, ?_, h⟩
    by_contra hge
    rw [List.getElem?_eq_none (by omega)] at h
    cases h
  · cases h

/-- In a bank with distinct names a name stands at one index only. -/
theorem at_index_name_unique {ns : List (List Char × Int)} (hn : (ns.map Prod.fst).Nodup)
    {i1 i2 : Int} {x : List Char} {v1 v2 : Int}
    (h1 : at_index ns i1 = some (x, v1)) (h2 : at_index ns i2 = some (x, v2)) : i1 = i2 := by
  obtain ⟨h10, h1l, h1g⟩ := at_index_some h1
  obtain ⟨h20, h2l, h2g⟩ := at_index_some h2
  have g1 : (ns.map Prod.fst)[i1.toNat]? = some x := by
    rw [List.getElem?_map, h1g]
    rfl
  have g2 : (ns.map Prod.fst)[i2.toNat]? = some x := by
    rw [List.getElem?_map, h2g]
    rfl
  have hne := List.nodup_iff_getElem?_ne_getElem?.mp hn
  have hl : (ns.map Prod.fst).length = ns.length := List.length_map _ _
  rcases lt_trichotomy i1.toNat i2.toNat with hlt | heq | hgt
  · exact absurd (g1.trans g2.symm) (hne _ _ hlt (by omega))
  · omega
  · exact absurd (g2.trans g1.symm) (hne _ _ hgt (by omega))

/-- An instruction line whose mnemonic takes a store and whose operand is an
identifier: the instruction emitted carries the index `get_store_index`
returns. -/
theorem analyse_line_indirect (st : assembly) (line : List Char) (code : instruction_code)
    (x : List Char) (hi : instruction_line line = true)
    (hlab : (read_fields line).1 = [] ∨ is_identifier (read_fields line).1 = true)
    (hcode : instructions.lookup (read_fields line).2.1 = some code)
    (ht : takes_store code = true) (hx : read_quoted (read_fields line).2.2 = x)
    (hid : is_identifier x = true) :
    analyse_line st line =
      .ok { after_label st line with
              named_storage := (get_store_index st.named_storage x).1
              program := st.program ++
                [(indirect_form code, (get_store_index st.named_storage x).2)] } := by
  have hl : line ≠ [] := by
    intro hc
    simp [instruction_line, hc] at hi
  have hne : (read_fields line).2.1 ≠ [] := by
    intro hc
    simp [instruction_line, hc] at hi
  have hlab' : ¬ ((read_fields line).1 ≠ [] ∧ is_identifier (read_fields line).1 = false) := by
    rintro ⟨h1, h2⟩
    rcases hlab with h | h
    · exact h1 h
    · rw [h] at h2
      cases h2
  have hline : analyse_line st line = assemble_instruction (after_label st line) code x := by
    unfold analyse_line after_label
    simp only [if_neg hl, if_neg hne, if_neg hlab', hcode, hx]
  rw [hline, assemble_instruction_indirect _ _ _ ht hid, after_label_named_storage,
    after_label_program]

/-- In a consistent assembly the linking pass leaves alone what is no jump. -/
theorem link_labels_keeps_nonjump {st st' : assembly} (hc : consistent st)
    (h : link_labels st st.labels = .ok st') (n : Nat) (ins : instruction_code × Int)
    (hget : st.program[n]? = some ins) (hj : jump_family ins.1 = false) :
    st'.program[n]? = some ins := by
  refine (link_labels_get h n ins.1 ins.2 hget).2.1 ?_
  intro e he hmem
  obtain ⟨m, f, us⟩ := e
  have hfind := labels_find_of_mem hc.2.1 he
  obtain ⟨-, c, d, hget', hjc⟩ := hc.2.2 m f us hfind _ hmem
  rw [List.get?_eq_getElem?] at hget'
  simp only [Int.toNat_ofNat] at hget'
  rw [hget] at hget'
  cases hget'
  rw [hj] at hjc
  cases hjc


/-- C18, the failing case: in `  FOO` / `  JUMP L` / `  STORE x` / `L HALT` the
unknown `FOO` takes an instruction number without emitting, so the usage
site recorded for the `JUMP` is the place of the `STORE`, and the linking pass
writes the index 3 of `L` there: the `STORE` emitted for `x` ends with the
operand 3 while `x` is slot 0 of a bank of one slot. -/
theorem analyse_file_store_operand_overwritten :
    analyse_file initial_session "  FOO\n  JUMP L\n  STORE x\nL HALT\n".toList =
      .ok { program := [(.jump, 0), (.store, 3), (.halt, 0)], labels := [(['L'], 3, [1])]
            named_storage := [(['x'], 0)], literal_texts := [], accumulator := 0
            error := true, line_number := 4, instruction_number := 3
            cout := [.not_recognised "FOO".toList 1] } := by
  decide

/-- C18: let `analyse_file` return `r`. The names of the named stores are
pairwise distinct well-formed identifiers and every store holds 0, so a name
stands at one index and an index carries one name. For every instruction
line with a label absent or well-formed, one of the mnemonics `LOAD`, `STORE`,
`ADD`, `SUBTRACT`, `MULTIPLY`, `DIVIDE` and an identifier `x` as operand, the
instruction emitted is `STORE` or the indirect form with the index returned by
`get_store_index`, and in the final bank that index is the slot named `x`; when
no message at all has been written, that instruction stands unchanged in the
final list at the instruction index of its line. And `get_store_index` returns
the index of the name without changing the bank when the name is present, and
otherwise appends the name with the value 0 and returns the old length. -/
theorem analyse_file_named_storage (s : session) (file : List Char) (r : assembly)
    (h : analyse_file s file = .ok r) :
    storage_ok r.named_storage ∧
    (∀ (i1 i2 : Int) (x1 x2 : List Char) (v1 v2 : Int),
      at_index r.named_storage i1 = some (x1, v1) →
      at_index r.named_storage i2 = some (x2, v2) → (i1 = i2 ↔ x1 = x2)) ∧
    (∀ (pre post : List (List Char)) (line : List Char) (code : instruction_code)
      (x : List Char),
      getlines file = pre ++ line :: post → instruction_line line = true →
      ((read_fields line).1 = [] ∨ is_identifier (read_fields line).1 = true) →
      instructions.lookup (read_fields line).2.1 = some code → takes_store code = true →
      read_quoted (read_fields line).2.2 = x → is_identifier x = true →
      ∃ st st' i, analyse_lines (initial_assembly s) pre = .ok st ∧
        analyse_line st line = .ok st' ∧
        st'.program = st.program ++ [(indirect_form code, i)] ∧
        i = (get_store_index st.named_storage x).2 ∧
        at_index r.named_storage i = some (x, 0) ∧
        (r.cout = [] →
          r.program.get? (pre.countP instruction_line) = some (indirect_form code, i))) ∧
    (∀ (ns : List (List Char × Int)) (x : List Char),
      (x ∈ ns.map Prod.fst →
        (get_store_index ns x).1 = ns ∧
        ∃ n : Nat, (get_store_index ns x).2 = (n : Int) ∧ n < ns.length ∧
          ∃ v, ns.get? n = some (x, v)) ∧
      (x ∉ ns.map Prod.fst →
        get_store_index ns x = (ns ++ [(x, 0)], (ns.length : Int)))) := by
  obtain ⟨st5, st6, hrun, hlink, rfl⟩ := analyse_file_ok s file r h
  have hinit : storage_ok (initial_assembly s).named_storage := by
    refine ⟨by simp [initial_assembly], ?_⟩
    intro e he
    simp [initial_assembly] at he
  have hok5 : storage_ok st5.named_storage := (analyse_lines_storage_ok hrun hinit).1
  have hns : (validate st6).named_storage = st5.named_storage := by
    rw [validate_named_storage, link_labels_named_storage hlink]
  refine ⟨hns ▸ hok5, ?_, ?_, ?_⟩
  · intro i1 i2 x1 x2 v1 v2 h1 h2
    rw [hns] at h1 h2
    constructor
    · rintro rfl
      rw [h1] at h2
      cases h2
      rfl
    · rintro rfl
      exact at_index_name_unique hok5.1 h1 h2
  · intro pre post line code x hlines hi hlab hcode ht hx hid
    rw [hlines] at hrun
    obtain ⟨s1, hs1, hrun'⟩ := analyse_lines_append hrun
    obtain ⟨s2, hs2, hs3⟩ := analyse_lines_cons hrun'
    have hok1 : storage_ok s1.named_storage := (analyse_lines_storage_ok hs1 hinit).1
    have hline := analyse_line_indirect s1 line code x hi hlab hcode ht hx hid
    rw [hline] at hs2
    cases hs2
    obtain ⟨-, t3, ht3⟩ := analyse_lines_storage_ok hs3
      (get_store_index_storage_ok x hok1 hid)
    refine ⟨s1, _, _, hs1, hline, rfl, rfl, ?_, ?_⟩
    · rw [hns, ht3]
      exact at_index_append _ (get_store_index_at x hok1)
    · intro hquiet
      have hq6 : st6.cout = [] := by
        obtain ⟨-, t, ht⟩ := validate_basic st6
        rw [hquiet] at ht
        exact (List.append_eq_nil.mp ht.symm).1
      have hq5 : st5.cout = [] := by
        obtain ⟨-, -, t, ht⟩ := link_labels_basic hlink
        rw [hq6] at ht
        exact (List.append_eq_nil.mp ht.symm).1
      have hq2 := analyse_lines_quiet hs3 hq5
      have hq1 : s1.cout = [] := by
        obtain ⟨t, ht⟩ := after_label_cout_prefix s1 line
        simp only at hq2
        rw [hq2] at ht
        exact (List.append_eq_nil.mp ht.symm).1
      have hc1 : consistent s1 := analyse_lines_consistent hs1 hq1 (consistent_initial s)
      have hc5 : consistent st5 := analyse_lines_consistent hrun hq5 (consistent_initial s)
      have hlen1 : s1.program.length = pre.countP instruction_line := by
        have h1 := hc1.1
        have h2 := (analyse_lines_basic hs1).2.1
        simp only [initial_assembly] at h2
        omega
      obtain ⟨p3, hp3⟩ := analyse_lines_program hs3
      have hget5 : st5.program[pre.countP instruction_line]? =
          some (indirect_form code, (get_store_index s1.named_storage x).2) := by
        rw [hp3]
        simp only
        rw [List.append_assoc, List.getElem?_append_right (by omega)]
        simp [hlen1]
      have hnj : jump_family (indirect_form code) = false := by
        cases code <;> simp [takes_store] at ht <;> rfl
      rw [validate_program, List.get?_eq_getElem?]
      exact link_labels_keeps_nonjump hc5 hlink _ _ hget5 hnj
  · intro ns x
    refine ⟨fun hin => ?_, fun hout => get_store_index_absent ns x hout⟩
    obtain ⟨h1, hlt, v, hv⟩ := get_store_index_present ns x hin
    exact ⟨by rw [h1], _, by rw [h1], hlt, v, hv⟩

/-- Witness for C18: the file `  LOAD x` / `  STORE y` / `  ADD x` / `  HALT`. -/
theorem analyse_file_named_storage_witness :
    ∃ r, analyse_file initial_session "  LOAD x\n  STORE y\n  ADD x\n  HALT\n".toList = .ok r ∧
      r.program = [(.load_indirect, 0), (.store, 1), (.add_indirect, 0), (.halt, 0)] ∧
      r.named_storage = [(['x'], 0), (['y'], 0)] ∧ storage_ok r.named_storage :=
  ⟨{ program := [(.load_indirect, 0), (.store, 1), (.add_indirect, 0), (.halt, 0)]
     labels := [], named_storage := [(['x'], 0), (['y'], 0)], literal_texts := []
     accumulator := 0, error := false, line_number := 4, instruction_number := 3
     cout := [] },
   by decide, rfl, rfl,
   (analyse_file_named_storage initial_session
     "  LOAD x\n  STORE y\n  ADD x\n  HALT\n".toList
     { program := [(.load_indirect, 0), (.store, 1), (.add_indirect, 0), (.halt, 0)]
       labels := [], named_storage := [(['x'], 0), (['y'], 0)], literal_texts := []
       accumulator := 0, error := false, line_number := 4, instruction_number := 3
       cout := [] } (by decide)).1⟩

/-! ### The two patterns as regular expressions -/

theorem mem_alpha_characters (c : Char) : c ∈ alpha_characters ↔ c.isAlpha = true := by
  constructor
  · revert c
    decide
  · intro h
    simp only [Char.isAlpha, Char.isUpper, Char.isLower, Bool.or_eq_true, Bool.and_eq_true,
      decide_eq_true_eq] at h
    rw [← Char.ofNat_toNat c]
    rcases h with ⟨h1, h2⟩ | ⟨h1, h2⟩
    · have h1' : 65 ≤ c.toNat := h1
      have h2' : c.toNat ≤ 90 := h2
      interval_cases c.toNat <;> decide
    · have h1' : 97 ≤ c.toNat := h1
      have h2' : c.toNat ≤ 122 := h2
      interval_cases c.toNat <;> decide

theorem mem_digit_characters (c : Char) : c ∈ digit_characters ↔ c.isDigit = true := by
  constructor
  · revert c
    decide
  · intro h
    simp only [Char.isDigit, Bool.and_eq_true, decide_eq_true_eq] at h
    rw [← Char.ofNat_toNat c]
    have h1' : 48 ≤ c.toNat := h.1
    have h2' : c.toNat ≤ 57 := h.2
    interval_cases c.toNat <;> decide

theorem bracket_matches (l x : List Char) :
    x ∈ (bracket l).matches' ↔ ∃ c ∈ l, x = [c] := by
  induction l with
  | nil =>
    simp only [bracket, List.foldr_nil, RegularExpression.matches'_zero, List.not_mem_nil, false_and,
      exists_false, iff_false]
    exact fun h => h
  | cons a l ih =>
    have hb : bracket (a :: l) = RegularExpression.char a + bracket l := rfl
    rw [hb, RegularExpression.matches'_add, RegularExpression.matches'_char, Language.mem_add, ih]
    simp only [List.mem_cons, exists_eq_or_imp]
    exact Iff.rfl

theorem star_bracket_matches (l x : List Char) :
    x ∈ KStar.kstar (bracket l).matches' ↔ ∀ c ∈ x, c ∈ l := by
  rw [Language.mem_kstar]
  constructor
  · rintro ⟨L, rfl, hL⟩ c hc
    obtain ⟨y, hy, hcy⟩ := List.mem_flatten.mp hc
    obtain ⟨d, hd, rfl⟩ := (bracket_matches l y).mp (hL y hy)
    rw [List.mem_singleton.mp hcy]
    exact hd
  · intro h
    refine ⟨x.map (fun c => [c]), ?_, ?_⟩
    · clear h
      induction x with
      | nil => rfl
      | cons c cs ih =>
        rw [List.map_cons, List.flatten_cons, ← ih]
        rfl
    · intro y hy
      obtain ⟨c, hc, rfl⟩ := List.mem_map.mp hy
      exact (bracket_matches l [c]).mpr ⟨c, h c hc, rfl⟩


theorem mem_alpha_or_underscore (c : Char) :
    c ∈ '_' :: alpha_characters ↔ alpha_or_underscore c = true := by
  simp only [List.mem_cons, mem_alpha_characters, alpha_or_underscore, Bool.or_eq_true,
    beq_iff_eq]

theorem mem_alnum_or_underscore (c : Char) :
    c ∈ '_' :: (alpha_characters ++ digit_characters) ↔ alnum_or_underscore c = true := by
  simp only [List.mem_cons, List.mem_append, mem_alpha_characters, mem_digit_characters,
    alnum_or_underscore, Char.isAlphanum, Bool.or_eq_true, beq_iff_eq]

theorem mem_digit_or_underscore (c : Char) :
    c ∈ '_' :: digit_characters ↔ digit_or_underscore c = true := by
  simp only [List.mem_cons, mem_digit_characters, digit_or_underscore, Bool.or_eq_true,
    beq_iff_eq]

/-- The function `is_identifier` is the whole-string match of its pattern. -/
theorem identifier_pattern_rmatch (t : List Char) :
    identifier_pattern.rmatch t = is_identifier t := by
  rw [Bool.eq_iff_iff, RegularExpression.rmatch_iff_matches']
  unfold identifier_pattern
  rw [RegularExpression.matches'_mul, RegularExpression.matches'_star, Language.mem_mul]
  constructor
  · rintro ⟨a, ha, b, hb, rfl⟩
    obtain ⟨c, hc, rfl⟩ := (bracket_matches _ a).mp ha
    have hall := (star_bracket_matches _ b).mp hb
    simp only [List.singleton_append, is_identifier, Bool.and_eq_true, List.all_eq_true]
    exact ⟨(mem_alpha_or_underscore c).mp hc, fun d hd => (mem_alnum_or_underscore d).mp (hall d hd)⟩
  · intro h
    cases t with
    | nil => simp [is_identifier] at h
    | cons c cs =>
      simp only [is_identifier, Bool.and_eq_true, List.all_eq_true] at h
      exact ⟨[c], (bracket_matches _ [c]).mpr ⟨c, (mem_alpha_or_underscore c).mpr h.1, rfl⟩, cs,
        (star_bracket_matches _ cs).mpr (fun d hd => (mem_alnum_or_underscore d).mpr (h.2 d hd)),
        rfl⟩

/-- The function `is_integer` is the whole-string match of its pattern. -/
theorem integer_pattern_rmatch (t : List Char) :
    integer_pattern.rmatch t = is_integer t := by
  rw [Bool.eq_iff_iff, RegularExpression.rmatch_iff_matches']
  unfold integer_pattern
  rw [RegularExpression.matches'_mul, RegularExpression.matches'_star, Language.mem_mul]
  constructor
  · rintro ⟨a, ha, b, hb, rfl⟩
    have hall := (star_bracket_matches _ b).mp hb
    have hall' : b.all digit_or_underscore = true := by
      rw [List.all_eq_true]
      exact fun d hd => (mem_digit_or_underscore d).mp (hall d hd)
    rw [RegularExpression.matches'_add, Language.mem_add, RegularExpression.matches'_epsilon, Language.mem_one] at ha
    rcases ha with rfl | ha
    · cases b with
      | nil => rfl
      | cons c cs =>
        have hc : ¬ (c = '+' ∨ c = '-') := by
          have := (mem_digit_or_underscore c).mp (hall c (List.mem_cons_self _ _))
          rintro (rfl | rfl) <;> exact absurd this (by decide)
        simp only [List.nil_append, is_integer, if_neg hc]
        exact hall'
    · obtain ⟨c, hc, rfl⟩ := (bracket_matches _ a).mp ha
      have hc' : c = '+' ∨ c = '-' := by simpa using hc
      simp only [List.singleton_append, is_integer, if_pos hc']
      exact hall'
  · intro h
    cases t with
    | nil =>
      refine ⟨[], ?_, [], (star_bracket_matches _ []).mpr (by simp), rfl⟩
      rw [RegularExpression.matches'_add, Language.mem_add, RegularExpression.matches'_epsilon, Language.mem_one]
      exact Or.inl rfl
    | cons c cs =>
      simp only [is_integer] at h
      split at h
      · rename_i hc
        rw [List.all_eq_true] at h
        refine ⟨[c], ?_, cs,
          (star_bracket_matches _ cs).mpr (fun d hd => (mem_digit_or_underscore d).mpr (h d hd)),
          rfl⟩
        rw [RegularExpression.matches'_add, Language.mem_add]
        exact Or.inr ((bracket_matches _ [c]).mpr ⟨c, by simpa using hc, rfl⟩)
      · rw [List.all_eq_true] at h
        refine ⟨[], ?_, c :: cs,
          (star_bracket_matches _ _).mpr (fun d hd => (mem_digit_or_underscore d).mpr (h d hd)),
          rfl⟩
        rw [RegularExpression.matches'_add, Language.mem_add, RegularExpression.matches'_epsilon, Language.mem_one]
        exact Or.inl rfl

/-! ### A line with a single token at column 0 -/

/-- The extraction of a token that stands between two runs of white space
delivers the token and leaves the second run. -/
theorem read_token_single (before token after : List Char)
    (hb : ∀ c ∈ before, is_space c = true) (ht : ∀ c ∈ token, is_space c = false)
    (hne : token ≠ []) (ha : ∀ c ∈ after, is_space c = true) :
    read_token (before ++ token ++ after) = (token, after) := by
  have hdrop : (before ++ token ++ after).dropWhile is_space = token ++ after := by
    rw [List.append_assoc]
    induction before with
    | nil =>
      obtain ⟨c, cs, rfl⟩ := List.exists_cons_of_ne_nil hne
      have hc : ¬ is_space c = true := by
        rw [ht c (List.mem_cons_self _ _)]
        decide
      rw [List.nil_append, List.cons_append, List.dropWhile_cons_of_neg hc]
    | cons c cs ih =>
      rw [List.cons_append, List.dropWhile_cons_of_pos (hb c (List.mem_cons_self _ _))]
      exact ih (fun d hd => hb d (List.mem_cons_of_mem _ hd))
  have hafter : after.takeWhile (fun c => !is_space c) = [] ∧
      after.dropWhile (fun c => !is_space c) = after := by
    cases after with
    | nil => exact ⟨rfl, rfl⟩
    | cons c cs =>
      have hc : is_space c = true := ha c (List.mem_cons_self _ _)
      constructor
      · simp only [List.takeWhile_cons, hc, Bool.not_true, Bool.false_eq_true, if_false]
      · simp only [List.dropWhile_cons, hc, Bool.not_true, Bool.false_eq_true, if_false]
  have htake : ∀ t : List Char, (∀ c ∈ t, is_space c = false) →
      (t ++ after).takeWhile (fun c => !is_space c) = t ∧
      (t ++ after).dropWhile (fun c => !is_space c) = after := by
    intro t
    induction t with
    | nil => exact fun _ => hafter
    | cons c cs ih =>
      intro h
      have hc : is_space c = false := h c (List.mem_cons_self _ _)
      have h1 := ih (fun d hd => h d (List.mem_cons_of_mem _ hd))
      constructor
      · simp only [List.cons_append, List.takeWhile_cons, hc, Bool.not_false, if_true, h1.1]
      · simp only [List.cons_append, List.dropWhile_cons, hc, Bool.not_false, if_true, h1.2]
  unfold read_token
  simp only [hdrop]
  rw [(htake token ht).1, (htake token ht).2]

/-- The extraction of a token from white space alone delivers the empty token. -/
theorem read_token_spaces (after : List Char) (ha : ∀ c ∈ after, is_space c = true) :
    read_token after = ([], []) := by
  have hdrop : after.dropWhile is_space = [] := by
    induction after with
    | nil => rfl
    | cons c cs ih =>
      rw [List.dropWhile_cons_of_pos (ha c (List.mem_cons_self _ _))]
      exact ih (fun d hd => ha d (List.mem_cons_of_mem _ hd))
  unfold read_token
  simp only [hdrop]
  rfl

/-- C23: a line that does not start with a space or a tab and holds a single
token (white space, the token, white space) has the token as its label and the
empty string as its instruction; `analyse_file` advances the line number and
goes to the next line, as it does on an empty line: no instruction is
emitted, the instruction number, the label table, the two other tables, the
flag and the messages stay as they are. -/
theorem analyse_line_single_token (st : assembly) (before token after : List Char)
    (hfirst : (before ++ token ++ after).head? ≠ some ' ' ∧
      (before ++ token ++ after).head? ≠ some '\t')
    (hb : ∀ c ∈ before, is_space c = true)
    (ht : token ≠ [] ∧ ∀ c ∈ token, is_space c = false)
    (ha : ∀ c ∈ after, is_space c = true) :
    (read_fields (before ++ token ++ after)).1 = token ∧
    (read_fields (before ++ token ++ after)).2.1 = [] ∧
    instruction_line (before ++ token ++ after) = false ∧
    analyse_line st (before ++ token ++ after) =
      .ok { st with line_number := st.line_number + 1 } ∧
    analyse_line st (before ++ token ++ after) = analyse_line st [] ∧
    ∀ st', analyse_line st (before ++ token ++ after) = .ok st' →
      st'.program = st.program ∧ st'.instruction_number = st.instruction_number ∧
      st'.labels = st.labels ∧ st'.cout = st.cout ∧ st'.error = st.error := by
  have hf : read_fields (before ++ token ++ after) = (token, [], []) := by
    unfold read_fields
    rw [if_neg (not_or.mpr hfirst), read_token_single before token after hb ht.2 ht.1 ha,
      read_token_spaces after ha]
  have hline : analyse_line st (before ++ token ++ after) =
      .ok { st with line_number := st.line_number + 1 } := by
    unfold analyse_line
    simp only [hf]
    split
    · rfl
    · rfl
  refine ⟨by rw [hf], by rw [hf], ?_, hline, ?_, ?_⟩
  · unfold instruction_line
    rw [hf]
    simp
  · rw [hline]
    rfl
  · intro st' h
    rw [hline] at h
    cases h
    exact ⟨rfl, rfl, rfl, rfl, rfl⟩

/-- Witness for C23: the line `HALT` written at column 0; the file that holds
this line alone has no instruction at all. -/
theorem analyse_line_single_token_witness :
    analyse_line (initial_assembly initial_session) "HALT".toList =
      .ok { initial_assembly initial_session with line_number := 1 } ∧
    analyse_file initial_session "HALT\n".toList =
      .ok { program := [], labels := [], named_storage := [], literal_texts := []
            accumulator := 0, error := true, line_number := 1, instruction_number := -1
            cout := [.no_jump_or_halt, .no_halt] } :=
  ⟨(analyse_line_single_token (initial_assembly initial_session) [] "HALT".toList []
      (by decide) (by decide) (by decide) (by decide)).2.2.2.1,
   by decide⟩

/-! ### Lines that emit no instruction -/

theorem get_store_index_range (ns : List (List Char × Int)) (x : List Char) :
    0 ≤ (get_store_index ns x).2 ∧
    (get_store_index ns x).2 < ((get_store_index ns x).1.length : Int) := by
  have hle : ns.findIdx (fun (e : List Char × Int) => e.1 == x) ≤ ns.length :=
    List.findIdx_le_length _
  unfold get_store_index
  simp only
  refine ⟨Int.ofNat_nonneg _, ?_⟩
  split
  · rename_i h
    rw [List.length_append, h]
    simp
  · rename_i h
    exact Int.ofNat_lt.mpr (lt_of_le_of_ne hle h)

theorem assemble_emits {st st' : assembly} {data : List Char} {direct indirect : instruction_code}
    {identifier : Bool} (h : assemble st data direct indirect identifier = .ok st')
    (hd : jump_family direct = false ∧ uses_store direct = false ∧ direct ≠ .print)
    (hi : jump_family indirect = false ∧ uses_store indirect = true) :
    ∃ ins ns, st'.program = st.program ++ [ins] ∧
      st'.named_storage = st.named_storage ++ ns ∧ st'.literal_texts = st.literal_texts ∧
      operand_in_range st'.tosession ins = true := by
  unfold assemble at h
  split at h
  · cases h
    obtain ⟨t, ht⟩ := get_store_index_prefix st.named_storage data
    refine ⟨_, t, rfl, ht, rfl, ?_⟩
    simp only [operand_in_range, hi.1, hi.2, Bool.false_eq_true, if_false, if_true,
      decide_eq_true_eq]
    exact get_store_index_range st.named_storage data
  · split at h
    · cases h
      refine ⟨_, [], rfl, (List.append_nil _).symm, rfl, ?_⟩
      simp only [operand_in_range, hd.1, hd.2.1, hd.2.2, Bool.false_eq_true, if_false]
    · cases h

theorem arithmetic_case_emits {st st' : assembly} {code : instruction_code} {data : List Char}
    {direct indirect : instruction_code}
    (h : arithmetic_case st code data direct indirect = .ok st')
    (hd : jump_family direct = false ∧ uses_store direct = false ∧ direct ≠ .print)
    (hi : jump_family indirect = false ∧ uses_store indirect = true) :
    ∃ p ns, st'.program = st.program ++ p ∧
      p.length = (if (is_identifier data || is_integer data) = true then 1 else 0) ∧
      st'.named_storage = st.named_storage ++ ns ∧ st'.literal_texts = st.literal_texts ∧
      ∀ ins ∈ p, operand_in_range st'.tosession ins = true := by
  unfold arithmetic_case check_and_assemble at h
  by_cases hc : (is_identifier data || is_integer data) = true
  · rw [if_pos hc] at h
    cases ha : assemble st data direct indirect (is_identifier data) with
    | error e => rw [ha] at h; cases h
    | ok st1 =>
      rw [ha] at h
      cases h
      obtain ⟨ins, ns, h1, h2, h3, h4⟩ := assemble_emits ha hd hi
      refine ⟨[ins], ns, h1, by rw [if_pos hc]; rfl, h2, h3, ?_⟩
      intro i hi'
      rw [List.mem_singleton.mp hi']
      exact h4
  · rw [if_neg hc] at h
    cases h
    exact ⟨[], [], (List.append_nil _).symm, by rw [if_neg hc]; rfl, (List.append_nil _).symm,
      rfl, fun _ hm => absurd hm (List.not_mem_nil _)⟩

/-- What the switch on the mnemonic does to the three tables: it appends one
instruction when the operand passes the test of the case and none otherwise,
it only appends to the named stores and to the literal texts, and the operand
of the instruction appended is inside its table. -/
theorem assemble_instruction_emits {st st' : assembly} {code : instruction_code}
    {data : List Char} (h : assemble_instruction st code data = .ok st') :
    ∃ p ns lt, st'.program = st.program ++ p ∧
      p.length = (if operand_accepted code data = true then 1 else 0) ∧
      st'.named_storage = st.named_storage ++ ns ∧
      st'.literal_texts = st.literal_texts ++ lt ∧
      ∀ ins ∈ p, operand_in_range st'.tosession ins = true := by
  have plain : ∀ c : instruction_code, jump_family c = false → uses_store c = false →
      c ≠ .print → st' = { st with program := st.program ++ [(c, 0)] } →
      ∃ p ns lt, st'.program = st.program ++ p ∧ p.length = 1 ∧
        st'.named_storage = st.named_storage ++ ns ∧
        st'.literal_texts = st.literal_texts ++ lt ∧
        ∀ ins ∈ p, operand_in_range st'.tosession ins = true := by
    intro c h1 h2 h3 he
    subst he
    refine ⟨[(c, 0)], [], [], rfl, rfl, (List.append_nil _).symm, (List.append_nil _).symm, ?_⟩
    intro i hi
    rw [List.mem_singleton.mp hi]
    simp only [operand_in_range, h1, h2, h3, Bool.false_eq_true, if_false]
  have jumps : ∀ c : instruction_code, jump_family c = true →
      (if is_identifier data = true then
          (Except.ok { reference_label st data with
              program := (reference_label st data).program ++ [(c, 0)] } : Except fault assembly)
        else .ok { st with cout := st.cout ++ [.operand_format c data st.line_number] }) =
        .ok st' →
      ∃ p ns lt, st'.program = st.program ++ p ∧
        p.length = (if is_identifier data = true then 1 else 0) ∧
        st'.named_storage = st.named_storage ++ ns ∧
        st'.literal_texts = st.literal_texts ++ lt ∧
        ∀ ins ∈ p, operand_in_range st'.tosession ins = true := by
    intro c hj he
    by_cases hid : is_identifier data = true
    · rw [if_pos hid] at he
      cases he
      have hp : (reference_label st data).program = st.program := by
        rw [reference_label_eq]
      have hn : (reference_label st data).named_storage = st.named_storage := by
        rw [reference_label_eq]
      have hl : (reference_label st data).literal_texts = st.literal_texts := by
        rw [reference_label_eq]
      refine ⟨[(c, 0)], [], [], by simp only [hp], by rw [if_pos hid]; rfl,
        by simp only [hn, List.append_nil], by simp only [hl, List.append_nil], ?_⟩
      intro i hi
      rw [List.mem_singleton.mp hi]
      simp only [operand_in_range, hj, if_true, decide_eq_true_eq, List.length_append,
        List.length_singleton]
      omega
    · rw [if_neg hid] at he
      cases he
      exact ⟨[], [], [], (List.append_nil _).symm, by rw [if_neg hid]; rfl,
        (List.append_nil _).symm, (List.append_nil _).symm,
        fun _ hm => absurd hm (List.not_mem_nil _)⟩
  have arith : ∀ direct indirect : instruction_code,
      jump_family direct = false ∧ uses_store direct = false ∧ direct ≠ .print →
      jump_family indirect = false ∧ uses_store indirect = true →
      arithmetic_case st code data direct indirect = .ok st' →
      ∃ p ns lt, st'.program = st.program ++ p ∧
        p.length = (if (is_identifier data || is_integer data) = true then 1 else 0) ∧
        st'.named_storage = st.named_storage ++ ns ∧
        st'.literal_texts = st.literal_texts ++ lt ∧
        ∀ ins ∈ p, operand_in_range st'.tosession ins = true := by
    intro direct indirect hd hi he
    obtain ⟨p, ns, h1, h2, h3, h4, h5⟩ := arithmetic_case_emits he hd hi
    exact ⟨p, ns, [], h1, h2, h3, by rw [h4, List.append_nil], h5⟩
  have none_ : st' = st → ∃ p ns lt, st'.program = st.program ++ p ∧ p.length = 0 ∧
        st'.named_storage = st.named_storage ++ ns ∧
        st'.literal_texts = st.literal_texts ++ lt ∧
        ∀ ins ∈ p, operand_in_range st'.tosession ins = true := by
    intro he
    subst he
    exact ⟨[], [], [], (List.append_nil _).symm, rfl, (List.append_nil _).symm,
      (List.append_nil _).symm, fun _ hm => absurd hm (List.not_mem_nil _)⟩
  cases code
  case in_ => exact plain .in_ rfl rfl (by decide) (by cases h; rfl)
  case out => exact plain .out rfl rfl (by decide) (by cases h; rfl)
  case line => exact plain .line rfl rfl (by decide) (by cases h; rfl)
  case halt => exact plain .halt rfl rfl (by decide) (by cases h; rfl)
  case print =>
    simp only [assemble_instruction] at h
    cases h
    refine ⟨_, [], [data], rfl, rfl, (List.append_nil _).symm, rfl, ?_⟩
    intro i hi
    rw [List.mem_singleton.mp hi]
    simp only [operand_in_range, jump_family, uses_store, List.length_append,
      List.length_singleton]
    simp
  case load =>
    simp only [assemble_instruction] at h
    by_cases hc : (is_identifier data || is_integer data) = true
    · rw [if_pos hc] at h
      obtain ⟨ins, ns, h1, h2, h3, h4⟩ :=
        assemble_emits h (by decide) (by decide)
      refine ⟨[ins], ns, [], h1, ?_, h2, by rw [h3, List.append_nil], ?_⟩
      · show 1 = if (is_identifier data || is_integer data) = true then 1 else 0
        rw [if_pos hc]
      · intro i hi
        rw [List.mem_singleton.mp hi]
        exact h4
    · rw [if_neg hc] at h
      cases h
      refine ⟨[], [], [], (List.append_nil _).symm, ?_, (List.append_nil _).symm,
        (List.append_nil _).symm, fun _ hm => absurd hm (List.not_mem_nil _)⟩
      show 0 = if (is_identifier data || is_integer data) = true then 1 else 0
      rw [if_neg hc]
  case store =>
    simp only [assemble_instruction] at h
    by_cases hc : is_identifier data = true
    · rw [if_pos hc] at h
      cases h
      obtain ⟨t, ht⟩ := get_store_index_prefix st.named_storage data
      refine ⟨_, t, [], rfl, ?_, ht, (List.append_nil _).symm, ?_⟩
      · show 1 = if is_identifier data = true then 1 else 0
        rw [if_pos hc]
      · intro i hi
        rw [List.mem_singleton.mp hi]
        simp only [operand_in_range, jump_family, uses_store]
        simpa using get_store_index_range st.named_storage data
    · rw [if_neg hc] at h
      cases h
      refine ⟨[], [], [], (List.append_nil _).symm, ?_, (List.append_nil _).symm,
        (List.append_nil _).symm, fun _ hm => absurd hm (List.not_mem_nil _)⟩
      show 0 = if is_identifier data = true then 1 else 0
      rw [if_neg hc]
  case add => exact arith _ _ (by decide) (by decide) h
  case subtract => exact arith _ _ (by decide) (by decide) h
  case multiply => exact arith _ _ (by decide) (by decide) h
  case divide => exact arith _ _ (by decide) (by decide) h
  case jump => exact jumps .jump rfl h
  case jineg => exact jumps .jineg rfl h
  case jizero => exact jumps .jizero rfl h
  all_goals exact none_ (by cases h; rfl)

theorem operand_in_range_mono {s s' : session} {ins : instruction_code × Int}
    (hp : s.program.length ≤ s'.program.length)
    (hn : s.named_storage.length ≤ s'.named_storage.length)
    (hl : s.literal_texts.length ≤ s'.literal_texts.length)
    (h : operand_in_range s ins = true) : operand_in_range s' ins = true := by
  unfold operand_in_range at h ⊢
  split
  · rename_i hj
    rw [if_pos hj, decide_eq_true_eq] at h
    rw [decide_eq_true_eq]
    omega
  · rename_i hj
    rw [if_neg hj] at h
    split
    · rename_i hu
      rw [if_pos hu, decide_eq_true_eq] at h
      rw [decide_eq_true_eq]
      omega
    · rename_i hu
      rw [if_neg hu] at h
      split
      · rename_i hpr
        rw [if_pos hpr, decide_eq_true_eq] at h
        rw [decide_eq_true_eq]
        omega
      · rfl

theorem after_label_literal_texts (st : assembly) (line : List Char) :
    (after_label st line).literal_texts = st.literal_texts := by
  rw [after_label_eq]

/-- What one line does to the three tables: it appends one instruction when
it is an emitting line and none otherwise, it only appends to the named stores
and to the literal texts, and the operand of the instruction appended is
inside its table. -/
theorem analyse_line_emits {st st' : assembly} {line : List Char}
    (h : analyse_line st line = .ok st') :
    ∃ p ns lt, st'.program = st.program ++ p ∧
      p.length = (if emitting_line line = true then 1 else 0) ∧
      st'.named_storage = st.named_storage ++ ns ∧
      st'.literal_texts = st.literal_texts ++ lt ∧
      ∀ ins ∈ p, operand_in_range st'.tosession ins = true := by
  have nothing : emitting_line line = false → st'.program = st.program →
      st'.named_storage = st.named_storage → st'.literal_texts = st.literal_texts →
      ∃ p ns lt, st'.program = st.program ++ p ∧
        p.length = (if emitting_line line = true then 1 else 0) ∧
        st'.named_storage = st.named_storage ++ ns ∧
        st'.literal_texts = st.literal_texts ++ lt ∧
        ∀ ins ∈ p, operand_in_range st'.tosession ins = true := by
    intro he h1 h2 h3
    refine ⟨[], [], [], by rw [h1, List.append_nil], ?_, by rw [h2, List.append_nil],
      by rw [h3, List.append_nil], fun _ hm => absurd hm (List.not_mem_nil _)⟩
    rw [he]
    rfl
  rcases analyse_line_ok h with ⟨hi, rfl⟩ | ⟨hi, hcase⟩
  · exact nothing (by simp [emitting_line, hi]) rfl rfl rfl
  · rcases hcase with ⟨hne, hid, rfl⟩ | ⟨hlab, hcase⟩
    · exact nothing (by simp [emitting_line, hne, hid]) rfl rfl rfl
    · rcases hcase with ⟨hlk, rfl⟩ | ⟨code, hlk, hasm⟩
      · exact nothing (by simp [emitting_line, hlk]) (after_label_program st line)
          (after_label_named_storage st line) (after_label_literal_texts st line)
      · obtain ⟨p, ns, lt, h1, h2, h3, h4, h5⟩ := assemble_instruction_emits hasm
        refine ⟨p, ns, lt, ?_, ?_, ?_, ?_, h5⟩
        · rw [h1, after_label_program]
        · rw [h2]
          have he : emitting_line line = operand_accepted code
              (read_quoted (read_fields line).2.2) := by
            unfold emitting_line
            rw [hi, hlk]
            rcases hlab with hl | hl
            · simp [hl]
            · simp [hl]
          rw [he]
        · rw [h3, after_label_named_storage]
        · rw [h4, after_label_literal_texts]

/-- The instruction list after a run of lines: its length has grown by the
number of emitting lines, and the operands stay inside their tables. -/
theorem analyse_lines_emits {st st' : assembly} {lines : List (List Char)}
    (h : analyse_lines st lines = .ok st') :
    st'.program.length = st.program.length + lines.countP emitting_line ∧
    st.named_storage.length ≤ st'.named_storage.length ∧
    st.literal_texts.length ≤ st'.literal_texts.length ∧
    (operands_in_range st.tosession = true → operands_in_range st'.tosession = true) := by
  induction lines generalizing st with
  | nil =>
    cases h
    exact ⟨rfl, le_refl _, le_refl _, fun hh => hh⟩
  | cons line rest ih =>
    obtain ⟨m, hm, hrest⟩ := analyse_lines_cons h
    obtain ⟨p, ns, lt, h1, h2, h3, h4, h5⟩ := analyse_line_emits hm
    obtain ⟨i1, i2, i3, i4⟩ := ih hrest
    have hlen : m.program.length = st.program.length + p.length := by
      rw [h1, List.length_append]
    have hns : st.named_storage.length ≤ m.named_storage.length := by
      rw [h3, List.length_append]
      omega
    have hlt : st.literal_texts.length ≤ m.literal_texts.length := by
      rw [h4, List.length_append]
      omega
    refine ⟨?_, le_trans hns i2, le_trans hlt i3, fun hh => i4 ?_⟩
    · rw [i1, hlen, h2, List.countP_cons]
      split <;> omega
    · unfold operands_in_range at hh ⊢
      rw [List.all_eq_true] at hh ⊢
      intro ins hins
      rw [h1] at hins
      rcases List.mem_append.mp hins with hold | hnew
      · exact operand_in_range_mono (by omega) hns hlt (hh ins hold)
      · exact h5 ins hnew

/-- An instruction line whose mnemonic is not in the table: the line is
reported, for its label if that is malformed and as not recognised otherwise,
and the flag is set. -/
theorem analyse_line_unknown (st : assembly) (line : List Char)
    (hu : unknown_mnemonic line = true) :
    analyse_line st line = .ok
      (if (read_fields line).1 ≠ [] ∧ is_identifier (read_fields line).1 = false then
        { st with line_number := st.line_number + 1
                  instruction_number := st.instruction_number + 1
                  error := true
                  cout := st.cout ++ [.label_format (read_fields line).1 (st.line_number + 1)] }
      else
        { after_label st line with
            error := true
            cout := (after_label st line).cout ++
              [.not_recognised (read_fields line).2.1 (st.line_number + 1)] }) := by
  unfold unknown_mnemonic at hu
  rw [Bool.and_eq_true, Option.isNone_iff_eq_none] at hu
  obtain ⟨hi, hlk⟩ := hu
  have hl : line ≠ [] := by
    intro hc
    simp [instruction_line, hc] at hi
  have hne : (read_fields line).2.1 ≠ [] := by
    intro hc
    simp [instruction_line, hc] at hi
  unfold analyse_line
  simp only [if_neg hl, if_neg hne]
  by_cases hlab : (read_fields line).1 ≠ [] ∧ is_identifier (read_fields line).1 = false
  · simp only [if_pos hlab]
  · simp only [if_neg hlab, hlk]
    have hline : (after_label st line).line_number = st.line_number + 1 :=
      after_label_line_number st line
    unfold after_label at hline ⊢
    rw [hline]

theorem unknown_mnemonic_not_emitting (line : List Char) (hu : unknown_mnemonic line = true) :
    instruction_line line = true ∧ emitting_line line = false := by
  unfold unknown_mnemonic at hu
  rw [Bool.and_eq_true, Option.isNone_iff_eq_none] at hu
  exact ⟨hu.1, by simp [emitting_line, hu.2]⟩

theorem emitting_line_instruction_line (line : List Char) (he : emitting_line line = true) :
    instruction_line line = true := by
  unfold emitting_line at he
  rw [Bool.and_eq_true, Bool.and_eq_true] at he
  exact he.1.1

/-- The instruction lines of a list are its emitting lines and its
instruction lines that emit nothing. -/
theorem countP_instruction_line (lines : List (List Char)) :
    lines.countP instruction_line = lines.countP emitting_line +
      lines.countP (fun l => instruction_line l && !emitting_line l) := by
  induction lines with
  | nil => rfl
  | cons l rest ih =>
    simp only [List.countP_cons, ih]
    cases hi : instruction_line l <;> cases he : emitting_line l
    · simp
    · rw [emitting_line_instruction_line l he] at hi
      cases hi
    · simp
      omega
    · simp
      omega

/-- C21, the failing case: in `  STORE 5` / `  FOO` / `L HALT` one line before
the label `L` has an unknown mnemonic, the `HALT` of `L` stands at position 0
of the instruction list, and `L` is recorded with the index 2: the rejected
`STORE 5` has taken an instruction number as well. -/
theorem analyse_file_label_after_rejected_operand :
    analyse_file initial_session "  STORE 5\n  FOO\nL HALT\n".toList =
      .ok { program := [(.halt, 0)], labels := [(['L'], 2, [])], named_storage := []
            literal_texts := [], accumulator := 0, error := true, line_number := 3
            instruction_number := 2
            cout := [.operand_format .store ['5'] 1, .not_recognised "FOO".toList 2] } ∧
    getlines "  STORE 5\n  FOO\nL HALT\n".toList =
      ["  STORE 5".toList, "  FOO".toList, "L HALT".toList] ∧
    ["  STORE 5".toList, "  FOO".toList].countP unknown_mnemonic = 1 ∧
    (2 : Int) ≠ 0 + 1 := by
  refine ⟨?_, ?_, ?_, ?_⟩ <;> decide

/-- C21: let `analyse_file` return `r` on a file with the line `line` after
the lines `pre`. If the mnemonic of `line` is not in the table, the value
returned is `true` and the line itself sets the flag, appends nothing to the
instruction list and advances the instruction number by one. If `line` emits
an instruction and defines the label `L` for the first time, the instruction
stands at the position `p` = the number of emitting lines of `pre`, and `L` is
recorded with the index `k` = the number of instruction lines of `pre`: `k` is
`p` plus the number of instruction lines of `pre` that emitted nothing, each
line of `pre` with an unknown mnemonic being one of these, so `k` is at least
`p` plus the number of such lines, and equal to it when the lines with an
unknown mnemonic are the only instruction lines of `pre` that emitted
nothing. -/
theorem analyse_file_unknown_mnemonic (s : session) (file : List Char) (r : assembly)
    (pre post : List (List Char)) (line : List Char)
    (h : analyse_file s file = .ok r) (hlines : getlines file = pre ++ line :: post) :
    (unknown_mnemonic line = true →
      r.error = true ∧
      ∃ st st', analyse_lines (initial_assembly s) pre = .ok st ∧
        analyse_line st line = .ok st' ∧ st'.error = true ∧ st'.program = st.program ∧
        st'.instruction_number = st.instruction_number + 1) ∧
    (∀ L : List Char, emitting_line line = true → (read_fields line).1 = L → L ≠ [] →
      (∀ l ∈ pre, instruction_line l = true → (read_fields l).1 ≠ L) →
      (∃ st st' ins usages d,
        analyse_lines (initial_assembly s) pre = .ok st ∧
        analyse_line st line = .ok st' ∧ st'.program = st.program ++ [ins] ∧
        st.program.length = pre.countP emitting_line ∧
        r.program.get? (pre.countP emitting_line) = some (ins.1, d) ∧
        labels_find r.labels L = some (((pre.countP instruction_line : Nat) : Int), usages)) ∧
      pre.countP instruction_line = pre.countP emitting_line +
        pre.countP (fun l => instruction_line l && !emitting_line l) ∧
      pre.countP emitting_line + pre.countP unknown_mnemonic ≤ pre.countP instruction_line ∧
      ((∀ l ∈ pre, instruction_line l = true → emitting_line l = false →
          unknown_mnemonic l = true) →
        pre.countP instruction_line =
          pre.countP emitting_line + pre.countP unknown_mnemonic)) := by
  obtain ⟨st, st', hrun, hlink, rfl⟩ := analyse_file_ok s file r h
  rw [hlines] at hrun
  obtain ⟨s1, hs1, hrun⟩ := analyse_lines_append hrun
  obtain ⟨s2, hs2, hs3⟩ := analyse_lines_cons hrun
  obtain ⟨-, -, he3, -, -⟩ := analyse_lines_basic hs3
  obtain ⟨hlab4, he4, -, -⟩ := link_labels_basic hlink
  obtain ⟨he5, -, -⟩ := validate_basic st'
  constructor
  · intro hu
    have hline := analyse_line_unknown s1 line hu
    rw [hline] at hs2
    have h2 : s2.error = true ∧ s2.program = s1.program ∧
        s2.instruction_number = s1.instruction_number + 1 := by
      cases hs2
      split
      · exact ⟨rfl, rfl, rfl⟩
      · exact ⟨rfl, after_label_program s1 line, after_label_instruction_number s1 line⟩
    exact ⟨he5 (he4 (he3 h2.1)), s1, s2, hs1, by rw [hline, ← Except.ok.inj hs2], h2⟩
  · intro L hemit hlab hne hpre
    have hcount := countP_instruction_line pre
    have hsub : pre.countP unknown_mnemonic ≤
        pre.countP (fun l => instruction_line l && !emitting_line l) := by
      apply List.countP_mono_left
      intro l _ hu
      obtain ⟨h1, h2⟩ := unknown_mnemonic_not_emitting l hu
      simp [h1, h2]
    refine ⟨?_, hcount, by omega, ?_⟩
    · have hi : instruction_line line = true := emitting_line_instruction_line line hemit
      have hL : is_identifier L = true := by
        unfold emitting_line at hemit
        rw [Bool.and_eq_true, Bool.and_eq_true, Bool.or_eq_true, decide_eq_true_eq] at hemit
        rcases hemit.1.2 with h0 | h0
        · exact absurd (hlab ▸ h0) hne
        · rw [← hlab]
          exact h0
      -- the instruction of the line
      obtain ⟨p, -, -, hp1, hp2, -, -, -⟩ := analyse_line_emits hs2
      rw [if_pos hemit] at hp2
      obtain ⟨ins, rfl⟩ := List.length_eq_one.mp hp2
      obtain ⟨hlen1, -, -, -⟩ := analyse_lines_emits hs1
      have hlen1' : s1.program.length = pre.countP emitting_line := by
        rw [hlen1]
        simp [initial_assembly]
      obtain ⟨q, hq⟩ := analyse_lines_program hs3
      have hget : st.program[pre.countP emitting_line]? = some ins := by
        rw [hq, hp1, ← hlen1', List.append_assoc, List.getElem?_append_right (le_refl _)]
        simp
      obtain ⟨⟨d, hd⟩, -, -⟩ := link_labels_get hlink _ ins.1 ins.2 hget
      -- the label of the line
      have hu1 : unresolved s1.labels L :=
        analyse_lines_unresolved hs1 hpre
          (by intro f u hf; simp [initial_assembly, labels_find] at hf)
      obtain ⟨-, hn1, -, -⟩ := analyse_lines_basic hs1
      have hn1' : s1.instruction_number + 1 = ((pre.countP instruction_line : Nat) : Int) := by
        rw [hn1]
        simp [initial_assembly]
      obtain ⟨us2, hf2⟩ := (analyse_line_defines hs2 hi hlab hL).1 hu1
      rw [hn1'] at hf2
      have hk : ((pre.countP instruction_line : Nat) : Int) ≠ -1 := by omega
      obtain ⟨us3, hf3, -⟩ := analyse_lines_resolved hs3 hf2 hk
      refine ⟨s1, s2, ins, us3, d, hs1, hs2, hp1, hlen1', ?_, ?_⟩
      · rw [validate_program, List.get?_eq_getElem?]
        exact hd
      · rw [validate_labels, hlab4]
        exact hf3
    · intro honly
      have heq : pre.countP (fun l => instruction_line l && !emitting_line l) =
          pre.countP unknown_mnemonic := by
        apply List.countP_congr
        intro l hl
        constructor
        · intro hh
          rw [Bool.and_eq_true, Bool.not_eq_true'] at hh
          exact honly l hl hh.1 hh.2
        · intro hu
          obtain ⟨h1, h2⟩ := unknown_mnemonic_not_emitting l hu
          simp [h1, h2]
      omega

/-- Witness for C21: the lines `  FOO` and `L HALT` of the file `  FOO` /
`L HALT`: the flag is set, the `HALT` stands at position 0 and `L` is recorded
with the index 1. -/
theorem analyse_file_unknown_mnemonic_witness :
    ∃ r, analyse_file initial_session "  FOO\nL HALT\n".toList = .ok r ∧ r.error = true ∧
      r.program = [(.halt, 0)] ∧ r.labels = [(['L'], 1, [])] ∧
      ["  FOO".toList].countP instruction_line =
        ["  FOO".toList].countP emitting_line + ["  FOO".toList].countP unknown_mnemonic :=
  ⟨{ program := [(.halt, 0)], labels := [(['L'], 1, [])], named_storage := []
     literal_texts := [], accumulator := 0, error := true, line_number := 2
     instruction_number := 1, cout := [.not_recognised "FOO".toList 1] },
   by decide,
   ((analyse_file_unknown_mnemonic initial_session "  FOO\nL HALT\n".toList
     { program := [(.halt, 0)], labels := [(['L'], 1, [])], named_storage := []
       literal_texts := [], accumulator := 0, error := true, line_number := 2
       instruction_number := 1, cout := [.not_recognised "FOO".toList 1] }
     [] ["L HALT".toList] "  FOO".toList (by decide) (by decide)).1 (by decide)).1,
   rfl, rfl,
   ((analyse_file_unknown_mnemonic initial_session "  FOO\nL HALT\n".toList
     { program := [(.halt, 0)], labels := [(['L'], 1, [])], named_storage := []
       literal_texts := [], accumulator := 0, error := true, line_number := 2
       instruction_number := 1, cout := [.not_recognised "FOO".toList 1] }
     ["  FOO".toList] [] "L HALT".toList (by decide) (by decide)).2 ['L']
       (by decide) (by decide) (by decide) (by decide)).2.2.2 (by decide)⟩

/-! ### Operands of an assembly without a message -/

theorem after_label_first {st : assembly} {line m : List Char} {f : Int} {us : List Int}
    (h : labels_find (after_label st line).labels m = some (f, us)) :
    f = st.instruction_number + 1 ∨ ∃ us', labels_find st.labels m = some (f, us') := by
  rw [after_label_find] at h
  split at h
  · cases hf : labels_find st.labels m with
    | none =>
      rw [hf] at h
      simp only [Option.some.injEq, Prod.mk.injEq] at h
      exact Or.inl h.1.symm
    | some v =>
      obtain ⟨first, usages⟩ := v
      rw [hf] at h
      simp only at h
      split at h
      · simp only [Option.some.injEq, Prod.mk.injEq] at h
        exact Or.inr ⟨usages, by rw [h.1]⟩
      · simp only [Option.some.injEq, Prod.mk.injEq] at h
        exact Or.inl h.1.symm
  · exact Or.inr ⟨us, h⟩

theorem reference_label_first {st : assembly} {data m : List Char} {f : Int} {us : List Int}
    (h : labels_find (reference_label st data).labels m = some (f, us)) :
    f = -1 ∨ ∃ us', labels_find st.labels m = some (f, us') := by
  rw [reference_label_find] at h
  split at h
  · rename_i hm
    cases hf : labels_find st.labels data with
    | none =>
      rw [hf] at h
      simp only [Option.some.injEq, Prod.mk.injEq] at h
      exact Or.inl h.1.symm
    | some v =>
      obtain ⟨first, usages⟩ := v
      rw [hf] at h
      simp only [Option.some.injEq, Prod.mk.injEq] at h
      exact Or.inr ⟨usages, by rw [hm, hf, h.1]⟩
  · exact Or.inr ⟨us, h⟩

theorem analyse_line_labels_in_range {st st' : assembly} {line : List Char}
    (h : analyse_line st line = .ok st') (hr : labels_in_range st) : labels_in_range st' := by
  obtain ⟨hn, hr⟩ := hr
  have hal : ∀ m f us, labels_find (after_label st line).labels m = some (f, us) →
      f = -1 ∨ (0 ≤ f ∧ f ≤ st.instruction_number + 1) := by
    intro m f us hf
    rcases after_label_first hf with rfl | ⟨us', hf'⟩
    · right
      omega
    · rcases hr m f us' hf' with h1 | h1
      · exact Or.inl h1
      · right
        omega
  rcases analyse_line_cases h with ⟨-, rfl⟩ | ⟨-, -, -, rfl⟩ | ⟨-, -, hcase⟩
  · exact ⟨hn, hr⟩
  · refine ⟨by show -1 ≤ st.instruction_number + 1; omega, ?_⟩
    intro m f us hf
    rcases hr m f us hf with h1 | h1
    · exact Or.inl h1
    · right
      show 0 ≤ f ∧ f ≤ st.instruction_number + 1
      omega
  · rcases hcase with ⟨code, -, -, -, rfl⟩ | ⟨code, ins, ns, lt, -, -, -, rfl⟩ | ⟨d, e, -, rfl⟩
    · refine ⟨by show -1 ≤ (after_label st line).instruction_number
                 rw [after_label_instruction_number]; omega, ?_⟩
      intro m f us hf
      show f = -1 ∨ (0 ≤ f ∧ f ≤ (after_label st line).instruction_number)
      rw [after_label_instruction_number]
      rcases reference_label_first hf with h1 | ⟨us', hf'⟩
      · exact Or.inl h1
      · exact hal m f us' hf'
    · refine ⟨by show -1 ≤ (after_label st line).instruction_number
                 rw [after_label_instruction_number]; omega, ?_⟩
      intro m f us hf
      show f = -1 ∨ (0 ≤ f ∧ f ≤ (after_label st line).instruction_number)
      rw [after_label_instruction_number]
      exact hal m f us hf
    · refine ⟨by show -1 ≤ (after_label st line).instruction_number
                 rw [after_label_instruction_number]; omega, ?_⟩
      intro m f us hf
      show f = -1 ∨ (0 ≤ f ∧ f ≤ (after_label st line).instruction_number)
      rw [after_label_instruction_number]
      exact hal m f us hf

theorem analyse_lines_labels_in_range {st st' : assembly} {lines : List (List Char)}
    (h : analyse_lines st lines = .ok st') (hr : labels_in_range st) : labels_in_range st' := by
  induction lines generalizing st with
  | nil =>
    cases h
    exact hr
  | cons line rest ih =>
    obtain ⟨m, hm, hrest⟩ := analyse_lines_cons h
    exact ih hrest (analyse_line_labels_in_range hm hr)

theorem labels_in_range_initial (s : session) : labels_in_range (initial_assembly s) := by
  refine ⟨le_refl _, ?_⟩
  intro m f us hf
  simp [initial_assembly, labels_find] at hf

theorem link_labels_literal_texts {st st' : assembly}
    {entries : List (List Char × Int × List Int)} (h : link_labels st entries = .ok st') :
    st'.literal_texts = st.literal_texts := by
  induction entries generalizing st with
  | nil =>
    cases h
    rfl
  | cons e rest ih =>
    obtain ⟨name, first, usages⟩ := e
    unfold link_labels at h
    split at h
    · have h1 := ih h
      exact h1
    · split at h
      · cases h
      · have h1 := ih h
        exact h1

theorem validate_literal_texts (st : assembly) :
    (validate st).literal_texts = st.literal_texts := by
  unfold validate
  simp only
  split <;> split <;> rfl

/-- The linking pass keeps the operands of the jumps below `N` when every
index of the table is -1 or below `N`, and keeps the length of the list. -/
theorem link_labels_jump_range {st st' : assembly}
    {entries : List (List Char × Int × List Int)} (N : Int)
    (h : link_labels st entries = .ok st')
    (he : ∀ e ∈ entries, e.2.1 = -1 ∨ (0 ≤ e.2.1 ∧ e.2.1 < N))
    (hp : ∀ (n : Nat) c d, st.program[n]? = some (c, d) → jump_family c = true → 0 ≤ d ∧ d < N) :
    st'.program.length = st.program.length ∧
    ∀ (n : Nat) c d, st'.program[n]? = some (c, d) → jump_family c = true → 0 ≤ d ∧ d < N := by
  induction entries generalizing st with
  | nil =>
    cases h
    exact ⟨rfl, hp⟩
  | cons e rest ih =>
    obtain ⟨name, first, usages⟩ := e
    have he' : ∀ e ∈ rest, e.2.1 = -1 ∨ (0 ≤ e.2.1 ∧ e.2.1 < N) :=
      fun e hm => he e (List.mem_cons_of_mem _ hm)
    unfold link_labels at h
    split at h
    · have h1 := @ih { st with error := true, cout := st.cout ++ [.unresolved_label name] } h he' hp
      exact h1
    · rename_i hfirst
      cases hpu : patch_usages st.program first usages with
      | error e =>
        rw [hpu] at h
        cases h
      | ok program' =>
        rw [hpu] at h
        obtain ⟨hlen, hget⟩ := patch_usages_ok hpu
        have hf : 0 ≤ first ∧ first < N := by
          rcases he (name, first, usages) (List.mem_cons_self _ _) with h0 | h0
          · exact absurd h0 hfirst
          · exact h0
        have hp' : ∀ (n : Nat) c d, program'[n]? = some (c, d) → jump_family c = true →
            0 ≤ d ∧ d < N := by
          intro n c d hn hj
          rw [hget n] at hn
          split at hn
          · cases hold : st.program[n]? with
            | none =>
              rw [hold] at hn
              cases hn
            | some v =>
              rw [hold] at hn
              simp only [Option.map_some', Option.some.injEq, Prod.mk.injEq] at hn
              rw [← hn.2]
              exact hf
          · exact hp n c d hn hj
        have h1 := @ih { st with program := program' } h he' hp'
        exact ⟨h1.1.trans hlen, h1.2⟩

theorem operand_in_range_congr {s s' : session} (ins : instruction_code × Int)
    (hp : s'.program.length = s.program.length)
    (hn : s'.named_storage.length = s.named_storage.length)
    (hl : s'.literal_texts.length = s.literal_texts.length) :
    operand_in_range s' ins = operand_in_range s ins := by
  unfold operand_in_range
  rw [hp, hn, hl]

/-- An assembly that has written no message leaves every operand inside its
table and an instruction list that ends in a `JUMP` or a `HALT`. -/
theorem analyse_file_quiet_in_range {s : session} {file : List Char} {r : assembly}
    (h : analyse_file s file = .ok r) (hquiet : r.cout = []) :
    operands_in_range r.tosession = true ∧ ends_in_jump_or_halt r.program = true := by
  obtain ⟨st5, st6, hrun, hlink, rfl⟩ := analyse_file_ok s file r h
  have hq6 : st6.cout = [] := by
    obtain ⟨-, t, ht⟩ := validate_basic st6
    rw [hquiet] at ht
    exact (List.append_eq_nil.mp ht.symm).1
  have hq5 : st5.cout = [] := by
    obtain ⟨-, -, t, ht⟩ := link_labels_basic hlink
    rw [hq6] at ht
    exact (List.append_eq_nil.mp ht.symm).1
  have hc5 : consistent st5 := analyse_lines_consistent hrun hq5 (consistent_initial s)
  have hr5 : labels_in_range st5 := analyse_lines_labels_in_range hrun (labels_in_range_initial s)
  have ho5 : operands_in_range st5.tosession = true :=
    (analyse_lines_emits hrun).2.2.2 (by simp [operands_in_range, initial_assembly])
  unfold operands_in_range at ho5
  rw [List.all_eq_true] at ho5
  -- the linking pass
  have hentries : ∀ e ∈ st5.labels, e.2.1 = -1 ∨ (0 ≤ e.2.1 ∧ e.2.1 < (st5.program.length : Int)) := by
    intro e he
    obtain ⟨m, f, us⟩ := e
    have hfind := labels_find_of_mem hc5.2.1 he
    rcases hr5.2 m f us hfind with h0 | h0
    · exact Or.inl h0
    · right
      have := hc5.1
      show 0 ≤ f ∧ f < (st5.program.length : Int)
      omega
  have hjumps5 : ∀ (n : Nat) c d, st5.program[n]? = some (c, d) → jump_family c = true →
      0 ≤ d ∧ d < (st5.program.length : Int) := by
    intro n c d hn hj
    have hmem : (c, d) ∈ st5.program := List.mem_iff_getElem?.mpr ⟨n, hn⟩
    have := ho5 _ hmem
    simp only [operand_in_range, hj, if_true, decide_eq_true_eq] at this
    exact this
  obtain ⟨hlen6, hjumps6⟩ := link_labels_jump_range _ hlink hentries hjumps5
  have hns6 := link_labels_named_storage hlink
  have hlt6 := link_labels_literal_texts hlink
  constructor
  · unfold operands_in_range
    rw [List.all_eq_true]
    intro ins hins
    rw [validate_program] at hins
    have hcongr : operand_in_range (validate st6).tosession ins =
        operand_in_range st5.tosession ins :=
      operand_in_range_congr ins (by rw [validate_program, hlen6])
        (by rw [validate_named_storage, hns6]) (by rw [validate_literal_texts, hlt6])
    rw [hcongr]
    obtain ⟨n, hn⟩ := List.mem_iff_getElem?.mp hins
    by_cases hj : jump_family ins.1 = true
    · have := hjumps6 n ins.1 ins.2 hn hj
      simp only [operand_in_range, hj, if_true, decide_eq_true_eq]
      exact this
    · have hj' : jump_family ins.1 = false := by simpa using hj
      have hlt : n < st5.program.length := by
        rw [← hlen6]
        exact (List.getElem?_eq_some_iff.mp hn).1
      obtain ⟨old, hold⟩ : ∃ old, st5.program[n]? = some old :=
        ⟨_, List.getElem?_eq_getElem hlt⟩
      obtain ⟨⟨d', hd'⟩, -, -⟩ := link_labels_get hlink n old.1 old.2 hold
      rw [hn] at hd'
      have hcode : old.1 = ins.1 := by
        cases hd'
        rfl
      have hkeep := link_labels_keeps_nonjump hc5 hlink n old hold (by rw [hcode]; exact hj')
      rw [hn] at hkeep
      cases hkeep
      exact ho5 _ (List.mem_iff_getElem?.mpr ⟨n, hold⟩)
  · rw [validate_program]
    by_contra hne
    have hlast : st6.program = [] ∨ ∃ i, st6.program.getLast? = some i ∧
        i.1 ≠ instruction_code.jump ∧ i.1 ≠ instruction_code.halt := by
      unfold ends_in_jump_or_halt at hne
      cases hl : st6.program.getLast? with
      | none => exact Or.inl (List.getLast?_eq_none_iff.mp hl)
      | some i =>
        rw [hl] at hne
        simp only [decide_eq_true_eq, not_or] at hne
        exact Or.inr ⟨i, rfl, hne.1, hne.2⟩
    have := (validate_error_of_no_jump_or_halt st6 hlast).2
    rw [hquiet] at this
    exact absurd this (List.not_mem_nil _)

/-! ### The loop of `run` on operands inside their tables -/

theorem at_index_of_range {α : Type} (v : List α) (i : Int)
    (h : 0 ≤ i ∧ i < (v.length : Int)) : ∃ e, at_index v i = some e := by
  have hlt : i.toNat < v.length := by omega
  refine ⟨v[i.toNat], ?_⟩
  unfold at_index
  rw [if_pos h.1, List.get?_eq_getElem?, List.getElem?_eq_getElem hlt]

/-- In a list that ends in a `JUMP` or a `HALT`, an instruction that is neither
has a successor. -/
theorem next_in_list {program : List (instruction_code × Int)} {p : Nat}
    {c : instruction_code} {i : Int} (hend : ends_in_jump_or_halt program = true)
    (hget : program.get? p = some (c, i)) (hj : c ≠ .jump) (hh : c ≠ .halt) :
    p + 1 < program.length := by
  rw [List.get?_eq_getElem?] at hget
  have hlt : p < program.length := (List.getElem?_eq_some_iff.mp hget).1
  by_contra hne
  have hp : p = program.length - 1 := by omega
  unfold ends_in_jump_or_halt at hend
  rw [List.getLast?_eq_getElem?, ← hp, hget] at hend
  simp only [decide_eq_true_eq] at hend
  rcases hend with h0 | h0
  · exact hj h0
  · exact hh h0

theorem in_range_state_next {v v' : vm} (h : in_range_state v = true)
    (hp : v'.program = v.program)
    (hn : v'.named_storage.length = v.named_storage.length)
    (hl : v'.literal_texts = v.literal_texts)
    (hip : v'.instruction_pointer < v.program.length) : in_range_state v' = true := by
  unfold in_range_state at h ⊢
  rw [Bool.and_eq_true, Bool.and_eq_true] at h ⊢
  obtain ⟨⟨ho, hend⟩, -⟩ := h
  refine ⟨⟨?_, by rw [hp]; exact hend⟩, by rw [hp]; exact decide_eq_true hip⟩
  unfold operands_in_range at ho ⊢
  rw [List.all_eq_true] at ho ⊢
  intro ins hins
  rw [hp] at hins
  rw [operand_in_range_congr ins (by rw [hp]) hn (by rw [hl])]
  exact ho ins hins

/-- One turn of the loop of `run` from a state in range: the fetch is inside
the instruction list, the operand fetched is inside its table, and the turn
leads to a state in range, to the return of `run`, or to one of the two
undefined divisions; it never indexes out of range. -/
theorem step_in_range {v : vm} (h : in_range_state v = true) :
    (∃ c i, v.program.get? v.instruction_pointer = some (c, i) ∧
      operand_in_range v.tosession (c, i) = true ∧
      (uses_store c = true → ∃ slot, at_index v.named_storage i = some slot) ∧
      (c = .print → ∃ text, at_index v.literal_texts i = some text)) ∧
    ((∃ v', step v = .running v' ∧ in_range_state v' = true) ∨
      (∃ v', step v = .returned v') ∨
      step v = .undefined .divide_by_zero ∨ step v = .undefined .divide_overflow) := by
  have h0 := h
  unfold in_range_state at h0
  rw [Bool.and_eq_true, Bool.and_eq_true, decide_eq_true_eq] at h0
  obtain ⟨⟨ho, hend⟩, hip⟩ := h0
  unfold operands_in_range at ho
  rw [List.all_eq_true] at ho
  obtain ⟨⟨c, i⟩, hins⟩ : ∃ ins, v.program[v.instruction_pointer]? = some ins :=
    ⟨_, List.getElem?_eq_getElem hip⟩
  have hget : v.program.get? v.instruction_pointer = some (c, i) := by
    rw [List.get?_eq_getElem?]
    exact hins
  have hop : operand_in_range v.tosession (c, i) = true :=
    ho _ (List.mem_iff_getElem?.mpr ⟨_, hins⟩)
  have hstore : uses_store c = true → ∃ slot, at_index v.named_storage i = some slot := by
    intro hu
    have hj : jump_family c = false := by
      cases c <;> first | rfl | cases hu
    simp only [operand_in_range, hj, hu, Bool.false_eq_true, if_false, if_true,
      decide_eq_true_eq] at hop
    exact at_index_of_range _ _ hop
  have hprint : c = .print → ∃ text, at_index v.literal_texts i = some text := by
    rintro rfl
    simp only [operand_in_range, jump_family, uses_store] at hop
    simp only [decide_eq_true_eq] at hop
    exact at_index_of_range _ _ (by simpa using hop)
  have hjump : jump_family c = true → to_size_t i < v.program.length := by
    intro hj
    simp only [operand_in_range, hj, if_true, decide_eq_true_eq] at hop
    unfold to_size_t
    rw [if_pos hop.1]
    omega
  have hnext : c ≠ .jump → c ≠ .halt → v.instruction_pointer + 1 < v.program.length :=
    next_in_list hend hget
  refine ⟨⟨c, i, hget, hop, hstore, hprint⟩, ?_⟩
  have go : ∀ v' : vm, v'.program = v.program →
      v'.named_storage.length = v.named_storage.length →
      v'.literal_texts = v.literal_texts →
      v'.instruction_pointer < v.program.length →
      (∃ w, outcome.running v' = .running w ∧ in_range_state w = true) ∨
      (∃ w, outcome.running v' = .returned w) ∨
      outcome.running v' = .undefined .divide_by_zero ∨
      outcome.running v' = .undefined .divide_overflow :=
    fun v' h1 h2 h3 h4 => Or.inl ⟨v', rfl, in_range_state_next h h1 h2 h3 h4⟩
  unfold step
  rw [hget]
  cases c
  case in_ =>
    simp only
    split
    · exact go _ rfl rfl rfl (hnext (by decide) (by decide))
    · exact go _ rfl rfl rfl (hnext (by decide) (by decide))
  case out => exact go _ rfl rfl rfl (hnext (by decide) (by decide))
  case line => exact go _ rfl rfl rfl (hnext (by decide) (by decide))
  case print =>
    obtain ⟨text, ht⟩ := hprint rfl
    simp only [ht]
    exact go _ rfl rfl rfl (hnext (by decide) (by decide))
  case load_direct => exact go _ rfl rfl rfl (hnext (by decide) (by decide))
  case add_direct => exact go _ rfl rfl rfl (hnext (by decide) (by decide))
  case subtract_direct => exact go _ rfl rfl rfl (hnext (by decide) (by decide))
  case multiply_direct => exact go _ rfl rfl rfl (hnext (by decide) (by decide))
  case load_indirect =>
    obtain ⟨slot, hs⟩ := hstore rfl
    simp only [with_store, hs]
    exact go _ rfl rfl rfl (hnext (by decide) (by decide))
  case add_indirect =>
    obtain ⟨slot, hs⟩ := hstore rfl
    simp only [with_store, hs]
    exact go _ rfl rfl rfl (hnext (by decide) (by decide))
  case subtract_indirect =>
    obtain ⟨slot, hs⟩ := hstore rfl
    simp only [with_store, hs]
    exact go _ rfl rfl rfl (hnext (by decide) (by decide))
  case multiply_indirect =>
    obtain ⟨slot, hs⟩ := hstore rfl
    simp only [with_store, hs]
    exact go _ rfl rfl rfl (hnext (by decide) (by decide))
  case store =>
    obtain ⟨slot, hs⟩ := hstore rfl
    simp only [modify_index, hs]
    exact go _ rfl (List.length_set _ _ _) rfl (hnext (by decide) (by decide))
  case divide_direct =>
    simp only
    split
    · exact go _ rfl rfl rfl (hnext (by decide) (by decide))
    · unfold divide_accumulator
      split
      · exact Or.inr (Or.inr (Or.inl rfl))
      · split
        · exact Or.inr (Or.inr (Or.inr rfl))
        · exact go _ rfl rfl rfl (hnext (by decide) (by decide))
  case divide_indirect =>
    obtain ⟨slot, hs⟩ := hstore rfl
    simp only [with_store, hs]
    split
    · exact go _ rfl rfl rfl (hnext (by decide) (by decide))
    · unfold divide_accumulator
      split
      · exact Or.inr (Or.inr (Or.inl rfl))
      · split
        · exact Or.inr (Or.inr (Or.inr rfl))
        · exact go _ rfl rfl rfl (hnext (by decide) (by decide))
  case jump => exact go _ rfl rfl rfl (hjump rfl)
  case jineg =>
    simp only
    split
    · exact go _ rfl rfl rfl (hjump rfl)
    · exact go _ rfl rfl rfl (hnext (by decide) (by decide))
  case jizero =>
    simp only
    split
    · exact go _ rfl rfl rfl (hjump rfl)
    · exact go _ rfl rfl rfl (hnext (by decide) (by decide))
  case halt => exact Or.inr (Or.inl ⟨_, rfl⟩)
  all_goals exact go _ rfl rfl rfl (hnext (by decide) (by decide))

/-- Every state the loop of `run` reaches from a state in range is in range. -/
theorem state_after_in_range {n : Nat} {v w : vm} (h : in_range_state v = true)
    (hw : state_after n v = some w) : in_range_state w = true := by
  induction n generalizing v with
  | zero =>
    cases hw
    exact h
  | succ n ih =>
    unfold state_after at hw
    rcases (step_in_range h).2 with ⟨v', hv', hr⟩ | ⟨v', hv'⟩ | hv' | hv'
    · rw [hv'] at hw
      exact ih hr hw
    · rw [hv'] at hw
      cases hw
    · rw [hv'] at hw
      cases hw
    · rw [hv'] at hw
      cases hw

/-- The loop of `run` from a state in range never becomes undefined by an
index out of range: the only undefined behaviour left is that of a division. -/
theorem run_loop_in_range {fuel : Nat} {v : vm} {f : fault} (h : in_range_state v = true)
    (hf : run_loop fuel v = .undefined f) : f = .divide_by_zero ∨ f = .divide_overflow := by
  induction fuel generalizing v with
  | zero => cases hf
  | succ n ih =>
    unfold run_loop at hf
    rcases (step_in_range h).2 with ⟨v', hv', hr⟩ | ⟨v', hv'⟩ | hv' | hv'
    · rw [hv'] at hf
      exact ih hr hf
    · rw [hv'] at hf
      cases hf
    · rw [hv'] at hf
      cases hf
      exact Or.inl rfl
    · rw [hv'] at hf
      cases hf
      exact Or.inr rfl

/-! ### An assembly without a message, run -/

theorem analyse_line_quiet_error {st st' : assembly} {line : List Char}
    (h : analyse_line st line = .ok st') (hq : st'.cout = []) : st'.error = st.error := by
  obtain ⟨hq0, hcase⟩ := analyse_line_quiet h hq
  have hal : (after_label st line).cout = [] → (after_label st line).error = st.error := by
    intro hc
    rw [after_label_cout, hq0, List.nil_append] at hc
    rw [after_label_error]
    split
    · rename_i hl
      rw [if_pos hl] at hc
      cases hf : labels_find st.labels (read_fields line).1 with
      | none => rfl
      | some v =>
        obtain ⟨first, us⟩ := v
        rw [hf] at hc
        simp only at hc ⊢
        split
        · rename_i hfirst
          rw [if_pos hfirst] at hc
          cases hc
        · rfl
    · rfl
  rcases hcase with ⟨-, rfl⟩ | ⟨-, hc, hcase⟩
  · rfl
  · rcases hcase with ⟨code, -, -, -, rfl⟩ | ⟨code, ins, ns, lt, -, -, -, rfl⟩
    · exact hal hc
    · exact hal hc

theorem analyse_lines_quiet_error {st st' : assembly} {lines : List (List Char)}
    (h : analyse_lines st lines = .ok st') (hq : st'.cout = []) : st'.error = st.error := by
  induction lines generalizing st with
  | nil =>
    cases h
    rfl
  | cons line rest ih =>
    obtain ⟨m, hm, hrest⟩ := analyse_lines_cons h
    rw [ih hrest, analyse_line_quiet_error hm (analyse_lines_quiet hrest hq)]

theorem link_labels_quiet_error {st st' : assembly}
    {entries : List (List Char × Int × List Int)} (h : link_labels st entries = .ok st')
    (hq : st'.cout = []) : st'.error = st.error := by
  induction entries generalizing st with
  | nil =>
    cases h
    rfl
  | cons e rest ih =>
    obtain ⟨name, first, usages⟩ := e
    unfold link_labels at h
    split at h
    · obtain ⟨-, -, t, ht⟩ := link_labels_basic h
      rw [hq] at ht
      simp at ht
    · split at h
      · cases h
      · have h1 := ih h
        exact h1

theorem validate_quiet_error (st : assembly) (hq : (validate st).cout = []) :
    (validate st).error = st.error := by
  unfold validate at hq ⊢
  simp only at hq ⊢
  split at hq <;> split at hq
  · simp at hq
  · simp at hq
  · simp at hq
  · rename_i h1 h2
    simp only [if_neg h1, if_neg h2]

/-- C22: let `analyse_file` return `r` without having written a message. Then
the value returned is `false` and the instruction list is not empty; every
state the loop of `run` reaches from pointer 0, after any number of turns and
on any input, has its pointer inside the instruction list, fetches an
instruction whose index into the named stores (for `STORE` and the indirect
forms) or into the literal texts (for `PRINT`) is inside its table, and makes
a turn that does not index out of range; and `run`, cut after any number of
turns, is undefined only by one of the two undefined divisions. -/
theorem analyse_file_run_in_range (s : session) (file : List Char) (r : assembly)
    (h : analyse_file s file = .ok r) (hquiet : r.cout = []) :
    r.error = false ∧ r.program ≠ [] ∧
    (∀ (cin : List Int) (n : Nat) (v : vm),
      state_after n { r.tosession with accumulator := 0, instruction_pointer := 0
                                       cin := cin, cout := [] } = some v →
      in_range_state v = true ∧ v.instruction_pointer < v.program.length ∧
      (∃ c i, v.program.get? v.instruction_pointer = some (c, i) ∧
        (uses_store c = true → ∃ slot, at_index v.named_storage i = some slot) ∧
        (c = .print → ∃ text, at_index v.literal_texts i = some text)) ∧
      step v ≠ .undefined .out_of_bounds) ∧
    (∀ (cin : List Int) (fuel : Nat) (f : fault),
      run fuel r.tosession cin = .undefined f → f = .divide_by_zero ∨ f = .divide_overflow) := by
  obtain ⟨ho, hend⟩ := analyse_file_quiet_in_range h hquiet
  have hne : r.program ≠ [] := by
    intro hnil
    unfold ends_in_jump_or_halt at hend
    rw [hnil] at hend
    cases hend
  have herr : r.error = false := by
    obtain ⟨st5, st6, hrun, hlink, rfl⟩ := analyse_file_ok s file r h
    have hq6 : st6.cout = [] := by
      obtain ⟨-, t, ht⟩ := validate_basic st6
      rw [hquiet] at ht
      exact (List.append_eq_nil.mp ht.symm).1
    have hq5 : st5.cout = [] := by
      obtain ⟨-, -, t, ht⟩ := link_labels_basic hlink
      rw [hq6] at ht
      exact (List.append_eq_nil.mp ht.symm).1
    rw [validate_quiet_error st6 hquiet, link_labels_quiet_error hlink hq6,
      analyse_lines_quiet_error hrun hq5]
    rfl
  have hstart : ∀ cin : List Int,
      in_range_state { r.tosession with accumulator := 0, instruction_pointer := 0
                                        cin := cin, cout := [] } = true := by
    intro cin
    unfold in_range_state
    rw [Bool.and_eq_true, Bool.and_eq_true, decide_eq_true_eq]
    refine ⟨⟨?_, hend⟩, List.length_pos.mpr hne⟩
    unfold operands_in_range at ho ⊢
    rw [List.all_eq_true] at ho ⊢
    intro ins hins
    rw [operand_in_range_congr ins rfl rfl rfl]
    exact ho ins hins
  refine ⟨herr, hne, ?_, ?_⟩
  · intro cin n v hv
    have hr := state_after_in_range (hstart cin) hv
    obtain ⟨⟨c, i, hget, -, hst, hpr⟩, hstep⟩ := step_in_range hr
    refine ⟨hr, ?_, ⟨c, i, hget, hst, hpr⟩, ?_⟩
    · unfold in_range_state at hr
      rw [Bool.and_eq_true, decide_eq_true_eq] at hr
      exact hr.2
    · intro hu
      rcases hstep with ⟨v', hv', -⟩ | ⟨v', hv'⟩ | hv' | hv' <;>
        · rw [hv'] at hu
          cases hu
  · intro cin fuel f hf
    unfold run at hf
    rw [if_neg hne] at hf
    exact run_loop_in_range (hstart cin) hf

/-- Witness for C22: the loop `L IN` / `  STORE x` / `  PRINT "again"` /
`  JUMP L` / `  HALT`, which never ends, after seven turns on the input 5. -/
theorem analyse_file_run_in_range_witness :
    ∃ r v, analyse_file initial_session
        "L IN\n  STORE x\n  PRINT \"again\"\n  JUMP L\n  HALT\n".toList = .ok r ∧
      r.cout = [] ∧
      r.program = [(.in_, 0), (.store, 0), (.print, 0), (.jump, 0), (.halt, 0)] ∧
      state_after 7 { r.tosession with accumulator := 0, instruction_pointer := 0
                                       cin := [5], cout := [] } = some v ∧
      v.instruction_pointer = 3 ∧ v.named_storage = [(['x'], 5)] ∧
      v.instruction_pointer < v.program.length ∧ step v ≠ .undefined .out_of_bounds :=
  ⟨{ program := [(.in_, 0), (.store, 0), (.print, 0), (.jump, 0), (.halt, 0)]
     labels := [(['L'], 0, [3])], named_storage := [(['x'], 0)]
     literal_texts := ["again".toList], accumulator := 0, error := false, line_number := 5
     instruction_number := 4, cout := [] },
   { program := [(.in_, 0), (.store, 0), (.print, 0), (.jump, 0), (.halt, 0)]
     labels := [(['L'], 0, [3])], named_storage := [(['x'], 5)]
     literal_texts := ["again".toList], accumulator := 5, instruction_pointer := 3, cin := []
     cout := ["Please enter an integer ", "again", "Please enter an integer ", "again"] },
   by decide, rfl, rfl, by decide, rfl, rfl,
   ((analyse_file_run_in_range initial_session
     "L IN\n  STORE x\n  PRINT \"again\"\n  JUMP L\n  HALT\n".toList
     { program := [(.in_, 0), (.store, 0), (.print, 0), (.jump, 0), (.halt, 0)]
       labels := [(['L'], 0, [3])], named_storage := [(['x'], 0)]
       literal_texts := ["again".toList], accumulator := 0, error := false, line_number := 5
       instruction_number := 4, cout := [] }
     (by decide) rfl).2.2.1 [5] 7 _ (by decide)).2.1,
   ((analyse_file_run_in_range initial_session
     "L IN\n  STORE x\n  PRINT \"again\"\n  JUMP L\n  HALT\n".toList
     { program := [(.in_, 0), (.store, 0), (.print, 0), (.jump, 0), (.halt, 0)]
       labels := [(['L'], 0, [3])], named_storage := [(['x'], 0)]
       literal_texts := ["again".toList], accumulator := 0, error := false, line_number := 5
       instruction_number := 4, cout := [] }
     (by decide) rfl).2.2.1 [5] 7 _ (by decide)).2.2.2⟩

end Cesil
